import Mathlib

/-!
# Transcoding between UTF-8 and Latin-1 / Latin-9 / Windows-1252

A shallow embedding of `src/main/C/encoding.c`.

Conventions of the embedding.

* A byte (`unsigned char`) is a `Fin 256`; arithmetic is done on its value (a `Nat`).
* The input region `(in, *inlen)` is a `List Byte`, its length being the declared `*inlen`.
  A `NULL` input pointer is `none` for the functions that test `in == NULL`.
* The pointer `in` is represented by the pair of its offset from `instart` and the list of the
  bytes between `in` and `inend`; `in < inend` is `rest ≠ []` and `*in++` pops the head.
* The output region `(out, *outlen)` is represented by the declared capacity `outlen` and by
  the list of the bytes stored through `out` so far, in the order they were stored. The offset
  `out - outstart` is the length of that list. Nothing prevents the list from being longer than
  the capacity: such a run has written past the end of the caller's buffer.
* A call returns a `Result`: the `int` status, the value left in `*inlen` and the bytes
  stored (the value left in `*outlen` is their number).
* `while` loops whose trip count is bounded by the input length recurse on a fuel argument
  that the entry point sets to that bound; the `fuel_irrelevant` lemmas show that any larger
  fuel gives the same result.
-/

namespace Encoding

/-- An `unsigned char`. -/
abbrev Byte := Fin 256

/-- The conversion `(unsigned char) c`. -/
def toByte (c : Nat) : Byte := ⟨c % 256, Nat.mod_lt c (by decide)⟩

/-- What a bounded call leaves behind: the returned status, the final `*inlen` and the bytes
stored through `out`. -/
structure Result where
  status : Int
  inlen : Nat
  out : List Byte
deriving DecidableEq, Repr

/-- The final value of `*outlen`, that is `out - outstart`. -/
def Result.outlen (r : Result) : Nat := r.out.length

/-- What a sizing probe leaves behind: the returned status and the final `*inlen`, `*outlen`
and `*transcodingNeeded`. -/
structure ProbeResult where
  status : Int
  inlen : Nat
  outlen : Nat
  transcodingNeeded : Nat
deriving DecidableEq, Repr

/-! ## UTF-8 to Latin-1 -/

/-- The classification of the leading byte `d` shared by `UTF8Toisolat1`, `utf8ToCp1252` and
`getUtf8ToISOLatin1_RequiredLength`: the initial value of `c` and the number `trailing` of
continuation bytes, or `none` on the two `return -2` branches. -/
def leading (d : Nat) : Option (Nat × Nat) :=
  if d < 0x80 then some (d, 0)
  else if d < 0xC0 then none
  else if d < 0xE0 then some (d &&& 0x1F, 1)
  else if d < 0xF0 then some (d &&& 0x0F, 2)
  else if d < 0xF8 then some (d &&& 0x07, 3)
  else none

/-- The loop `for ( ; trailing; trailing--)` of `UTF8Toisolat1` and `utf8ToCp1252`, started with
the accumulator `c` at input offset `i` with `rest` left to read. It yields the final `c`, the
unread input and its offset, or `none` when it leaves through `return -2`. (`c` is an
`unsigned int` holding at most 3 + 18 bits, so `c <<= 6` never wraps.) -/
def readTrailing : Nat → Nat → List Byte → Nat → Option (Nat × List Byte × Nat)
  | 0, c, rest, i => some (c, rest, i)
  | _ + 1, c, [], i => some (c, [], i)
  | trailing + 1, c, d :: rest, i =>
    if d.val &&& 0xC0 ≠ 0x80 then none
    else readTrailing trailing ((c <<< 6) ||| (d.val &&& 0x3F)) rest (i + 1)

/-- The `while (in < inend)` loop of `UTF8Toisolat1`. The state is the unread input `rest` at
offset `i`, the offset `processed` and the bytes stored so far. -/
def UTF8Toisolat1.loop (outlen : Nat) :
    Nat → List Byte → Nat → Nat → List Byte → Result
  | _, [], _, processed, out => ⟨0, processed, out⟩
  | 0, _ :: _, _, processed, out => ⟨0, processed, out⟩
  | fuel + 1, d :: rest, i, processed, out =>
    match leading d.val with
    | none => ⟨-2, processed, out⟩
    | some (c, trailing) =>
      if rest.length < trailing then ⟨0, processed, out⟩
      else
        match readTrailing trailing c rest (i + 1) with
        | none => ⟨-2, processed, out⟩
        | some (c, rest', i') =>
          if c ≤ 0xFF then
            if out.length ≥ outlen then ⟨0, processed, out⟩
            else UTF8Toisolat1.loop outlen fuel rest' i' i' (out ++ [toByte c])
          else
            if out.length ≥ outlen then ⟨0, processed, out⟩
            else UTF8Toisolat1.loop outlen fuel rest' i' i' (out ++ [toByte 0xBF])

/-- The function `UTF8Toisolat1(out, outlen, in, inlen)`. -/
def UTF8Toisolat1 (outlen : Nat) : Option (List Byte) → Result
  | none => ⟨0, 0, []⟩
  | some s => UTF8Toisolat1.loop outlen s.length s 0 0 []

/-- The `while (in < inend)` loop of `getUtf8ToISOLatin1_RequiredLength`. The probe keeps no
accumulator `c`: its `for` loop only checks the continuation bytes. -/
def getUtf8ToISOLatin1_RequiredLength.loop :
    Nat → List Byte → Nat → Nat → Nat → Nat → ProbeResult
  | _, [], _, processed, numOut, needToTranscode => ⟨0, processed, numOut, needToTranscode⟩
  | 0, _ :: _, _, processed, numOut, needToTranscode => ⟨0, processed, numOut, needToTranscode⟩
  | fuel + 1, d :: rest, i, processed, numOut, needToTranscode =>
    match leading d.val with
    | none => ⟨-2, processed, numOut, needToTranscode⟩
    | some (_, trailing) =>
      let needToTranscode := if d.val < 0x80 then needToTranscode else 1
      if rest.length < trailing then ⟨0, processed, numOut, needToTranscode⟩
      else
        match readTrailing trailing 0 rest (i + 1) with
        | none => ⟨-2, processed, numOut, needToTranscode⟩
        | some (_, rest', i') =>
          getUtf8ToISOLatin1_RequiredLength.loop fuel rest' i' i' (numOut + 1) needToTranscode

/-- The function `getUtf8ToISOLatin1_RequiredLength(in, inlen, outlen, transcodingNeeded)`. -/
def getUtf8ToISOLatin1_RequiredLength : Option (List Byte) → ProbeResult
  | none => ⟨0, 0, 0, 0⟩
  | some s => getUtf8ToISOLatin1_RequiredLength.loop s.length s 0 0 0 0

/-! ## UTF-8 to Windows-1252 -/

/-- The `switch (c)` of `utf8ToCp1252`: the value given to `subs`. -/
def cp1252Subs (c : Nat) : Nat :=
  if c = 0x0152 then 0x8C
  else if c = 0x0153 then 0x9C
  else if c = 0x0160 then 0x8A
  else if c = 0x0161 then 0x9A
  else if c = 0x0178 then 0x9F
  else if c = 0x017D then 0x8E
  else if c = 0x017E then 0x9E
  else if c = 0x0192 then 0x83
  else if c = 0x02c6 then 0x88
  else if c = 0x02dc then 0x98
  else if c = 0x2013 then 0x96
  else if c = 0x2014 then 0x97
  else if c = 0x2018 then 0x91
  else if c = 0x2019 then 0x92
  else if c = 0x201a then 0x82
  else if c = 0x201c then 0x93
  else if c = 0x201d then 0x94
  else if c = 0x201e then 0x84
  else if c = 0x2020 then 0x86
  else if c = 0x2021 then 0x87
  else if c = 0x2022 then 0x95
  else if c = 0x2026 then 0x85
  else if c = 0x2030 then 0x89
  else if c = 0x2039 then 0x8B
  else if c = 0x203a then 0x9B
  else if c = 0x20AC then 0x80
  else if c = 0x2122 then 0x99
  else 0xBF

/-- The `while (in < inend)` loop of `utf8ToCp1252`, with the state of `UTF8Toisolat1.loop`. -/
def utf8ToCp1252.loop (outlen : Nat) :
    Nat → List Byte → Nat → Nat → List Byte → Result
  | _, [], _, processed, out => ⟨0, processed, out⟩
  | 0, _ :: _, _, processed, out => ⟨0, processed, out⟩
  | fuel + 1, d :: rest, i, processed, out =>
    match leading d.val with
    | none => ⟨-2, processed, out⟩
    | some (c, trailing) =>
      if rest.length < trailing then ⟨0, processed, out⟩
      else
        match readTrailing trailing c rest (i + 1) with
        | none => ⟨-2, processed, out⟩
        | some (c, rest', i') =>
          if c ≤ 0xFF then
            if out.length ≥ outlen then ⟨0, processed, out⟩
            else utf8ToCp1252.loop outlen fuel rest' i' i' (out ++ [toByte c])
          else
            if out.length ≥ outlen then ⟨0, processed, out⟩
            else utf8ToCp1252.loop outlen fuel rest' i' i' (out ++ [toByte (cp1252Subs c)])

/-- The function `utf8ToCp1252(out, outlen, in, inlen)`. -/
def utf8ToCp1252 (outlen : Nat) : Option (List Byte) → Result
  | none => ⟨0, 0, []⟩
  | some s => utf8ToCp1252.loop outlen s.length s 0 0 []

/-! ## Latin-1 and Latin-9 to UTF-8 -/

/-- The statement `if (instop - in > outend - out) instop = in + (outend - out);` of
`isolat1ToUTF8` and `ISO8859xToUTF8`: the new `instop`, as a signed offset from the start of the
input, for `in` at offset `i` and `out` at offset `o`. Pointer differences are signed. -/
def lowerInstop (outlen : Nat) (instop : Int) (i o : Nat) : Int :=
  if instop - (i : Int) > (outlen : Int) - (o : Int) then (i : Int) + ((outlen : Int) - (o : Int))
  else instop

/-- The inner loop `while (in < instop && *in < 0x80) *out++ = *in++;` of `isolat1ToUTF8`, which
is `while (c < 0x80 && in < instop)` in `ISO8859xToUTF8`, where `c` caches `*in`. It yields the
unread input, its offset and the bytes stored. `instop` starts as `inend` and is only ever
lowered, so `in < instop` fails once the input is used up. -/
def copyAscii (instop : Int) : List Byte → Nat → List Byte → List Byte × Nat × List Byte
  | [], i, out => ([], i, out)
  | b :: rest, i, out =>
    if (i : Int) < instop ∧ b.val < 0x80 then copyAscii instop rest (i + 1) (out ++ [b])
    else (b :: rest, i, out)

/-- The code after the outer loop of `isolat1ToUTF8` and `ISO8859xToUTF8`: the statement
`if (in < inend && out < outend && *in < 0x80) *out++ = *in++;` and the `return 0`. -/
def finishAscii (outlen : Nat) : List Byte → Nat → List Byte → Result
  | [], i, out => ⟨0, i, out⟩
  | b :: _, i, out =>
    if out.length < outlen ∧ b.val < 0x80 then ⟨0, i + 1, out ++ [b]⟩ else ⟨0, i, out⟩

/-- The loop `while (in < inend && out < outend - 1)` of `isolat1ToUTF8`. The state is the unread
input `rest` at offset `i`, the bytes stored and the offset `instop`. -/
def isolat1ToUTF8.loop (outlen : Nat) : Nat → List Byte → Nat → List Byte → Int → Result
  | 0, rest, i, out, _ => finishAscii outlen rest i out
  | _ + 1, [], i, out, _ => finishAscii outlen [] i out
  | fuel + 1, b :: rest, i, out, instop =>
    if ¬ ((out.length : Int) < (outlen : Int) - 1) then finishAscii outlen (b :: rest) i out
    else if b.val ≥ 0x80 then
      let out1 := out ++ [toByte (((b.val >>> 6) &&& 0x1F) ||| 0xC0),
        toByte ((b.val &&& 0x3F) ||| 0x80)]
      let instop1 := lowerInstop outlen instop (i + 1) out1.length
      match copyAscii instop1 rest (i + 1) out1 with
      | (rest2, i2, out2) => isolat1ToUTF8.loop outlen fuel rest2 i2 out2 instop1
    else
      let instop1 := lowerInstop outlen instop i out.length
      match copyAscii instop1 (b :: rest) i out with
      | (rest2, i2, out2) => isolat1ToUTF8.loop outlen fuel rest2 i2 out2 instop1

/-- The function `isolat1ToUTF8(out, outlen, in, inlen)`. It has no `in == NULL` test; the
embedding covers the calls with an input region. -/
def isolat1ToUTF8 (outlen : Nat) (s : List Byte) : Result :=
  isolat1ToUTF8.loop outlen (s.length + 1) s 0 [] s.length

/-- The loop `while (in < inend && out < outend - 1)` of `ISO8859xToUTF8`, with the state of
`isolat1ToUTF8.loop`. The variable `c` holds `*in` whenever it is tested (it is reloaded after
every `++in`), so it is read off the head of `rest`. -/
def ISO8859xToUTF8.loop (unicodetable : List Nat) (outlen : Nat) :
    Nat → List Byte → Nat → List Byte → Int → Result
  | 0, rest, i, out, _ => finishAscii outlen rest i out
  | _ + 1, [], i, out, _ => finishAscii outlen [] i out
  | fuel + 1, b :: rest, i, out, instop =>
    if ¬ ((out.length : Int) < (outlen : Int) - 1) then finishAscii outlen (b :: rest) i out
    else if b.val ≥ 0x80 then
      let c := unicodetable.getD (b.val - 0x80) 0
      if c = 0 then ⟨-1, i, out⟩
      else
        let out1 :=
          if c < 0x800 then
            out ++ [toByte (((c >>> 6) &&& 0x1F) ||| 0xC0), toByte ((c &&& 0x3F) ||| 0x80)]
          else
            out ++ [toByte (((c >>> 12) &&& 0x0F) ||| 0xE0),
              toByte (((c >>> 6) &&& 0x3F) ||| 0x80), toByte ((c &&& 0x3F) ||| 0x80)]
        let instop1 := lowerInstop outlen instop (i + 1) out1.length
        match copyAscii instop1 rest (i + 1) out1 with
        | (rest2, i2, out2) => ISO8859xToUTF8.loop unicodetable outlen fuel rest2 i2 out2 instop1
    else
      let instop1 := lowerInstop outlen instop i out.length
      match copyAscii instop1 (b :: rest) i out with
      | (rest2, i2, out2) => ISO8859xToUTF8.loop unicodetable outlen fuel rest2 i2 out2 instop1

/-- The function `ISO8859xToUTF8(out, outlen, in, inlen, unicodetable)`. It has no `in == NULL`
test; the embedding covers the calls with an input region. -/
def ISO8859xToUTF8 (unicodetable : List Nat) (outlen : Nat) (s : List Byte) : Result :=
  ISO8859xToUTF8.loop unicodetable outlen (s.length + 1) s 0 [] s.length

/-- The table `xmlunicodetable_ISO8859_15 [128]`. -/
def xmlunicodetable_ISO8859_15 : List Nat := [
   0x0080, 0x0081, 0x0082, 0x0083, 0x0084, 0x0085, 0x0086, 0x0087,
   0x0088, 0x0089, 0x008a, 0x008b, 0x008c, 0x008d, 0x008e, 0x008f,
   0x0090, 0x0091, 0x0092, 0x0093, 0x0094, 0x0095, 0x0096, 0x0097,
   0x0098, 0x0099, 0x009a, 0x009b, 0x009c, 0x009d, 0x009e, 0x009f,
   0x00a0, 0x00a1, 0x00a2, 0x00a3, 0x20ac, 0x00a5, 0x0160, 0x00a7,
   0x0161, 0x00a9, 0x00aa, 0x00ab, 0x00ac, 0x00ad, 0x00ae, 0x00af,
   0x00b0, 0x00b1, 0x00b2, 0x00b3, 0x017d, 0x00b5, 0x00b6, 0x00b7,
   0x017e, 0x00b9, 0x00ba, 0x00bb, 0x0152, 0x0153, 0x0178, 0x00bf,
   0x00c0, 0x00c1, 0x00c2, 0x00c3, 0x00c4, 0x00c5, 0x00c6, 0x00c7,
   0x00c8, 0x00c9, 0x00ca, 0x00cb, 0x00cc, 0x00cd, 0x00ce, 0x00cf,
   0x00d0, 0x00d1, 0x00d2, 0x00d3, 0x00d4, 0x00d5, 0x00d6, 0x00d7,
   0x00d8, 0x00d9, 0x00da, 0x00db, 0x00dc, 0x00dd, 0x00de, 0x00df,
   0x00e0, 0x00e1, 0x00e2, 0x00e3, 0x00e4, 0x00e5, 0x00e6, 0x00e7,
   0x00e8, 0x00e9, 0x00ea, 0x00eb, 0x00ec, 0x00ed, 0x00ee, 0x00ef,
   0x00f0, 0x00f1, 0x00f2, 0x00f3, 0x00f4, 0x00f5, 0x00f6, 0x00f7,
   0x00f8, 0x00f9, 0x00fa, 0x00fb, 0x00fc, 0x00fd, 0x00fe, 0x00ff]

/-- The table `xmltranscodetable_ISO8859_15 [48 + 6 * 64]`, byte by byte. -/
def xmltranscodetable_ISO8859_15 : List Nat := [
   0x00, 0x00, 0x01, 0x05, 0x00, 0x04, 0x00, 0x00, 0x00, 0x00, 0x00, 0x00, 0x00, 0x00, 0x00, 0x00,
   0x00, 0x00, 0x00, 0x00, 0x00, 0x00, 0x00, 0x00, 0x00, 0x00, 0x00, 0x00, 0x00, 0x00, 0x00, 0x00,
   0x00, 0x00, 0x02, 0x00, 0x00, 0x00, 0x00, 0x00, 0x00, 0x00, 0x00, 0x00, 0x00, 0x00, 0x00, 0x00,
   0x00, 0x00, 0x00, 0x00, 0x00, 0x00, 0x00, 0x00, 0x00, 0x00, 0x00, 0x00, 0x00, 0x00, 0x00, 0x00,
   0x00, 0x00, 0x00, 0x00, 0x00, 0x00, 0x00, 0x00, 0x00, 0x00, 0x00, 0x00, 0x00, 0x00, 0x00, 0x00,
   0x00, 0x00, 0x00, 0x00, 0x00, 0x00, 0x00, 0x00, 0x00, 0x00, 0x00, 0x00, 0x00, 0x00, 0x00, 0x00,
   0x00, 0x00, 0x00, 0x00, 0x00, 0x00, 0x00, 0x00, 0x00, 0x00, 0x00, 0x00, 0x00, 0x00, 0x00, 0x00,
   0x80, 0x81, 0x82, 0x83, 0x84, 0x85, 0x86, 0x87, 0x88, 0x89, 0x8a, 0x8b, 0x8c, 0x8d, 0x8e, 0x8f,
   0x90, 0x91, 0x92, 0x93, 0x94, 0x95, 0x96, 0x97, 0x98, 0x99, 0x9a, 0x9b, 0x9c, 0x9d, 0x9e, 0x9f,
   0xa0, 0xa1, 0xa2, 0xa3, 0x00, 0xa5, 0x00, 0xa7, 0x00, 0xa9, 0xaa, 0xab, 0xac, 0xad, 0xae, 0xaf,
   0xb0, 0xb1, 0xb2, 0xb3, 0x00, 0xb5, 0xb6, 0xb7, 0x00, 0xb9, 0xba, 0xbb, 0x00, 0x00, 0x00, 0xbf,
   0x00, 0x00, 0x03, 0x00, 0x00, 0x00, 0x00, 0x00, 0x00, 0x00, 0x00, 0x00, 0x00, 0x00, 0x00, 0x00,
   0x00, 0x00, 0x00, 0x00, 0x00, 0x00, 0x00, 0x00, 0x00, 0x00, 0x00, 0x00, 0x00, 0x00, 0x00, 0x00,
   0x00, 0x00, 0x00, 0x00, 0x00, 0x00, 0x00, 0x00, 0x00, 0x00, 0x00, 0x00, 0x00, 0x00, 0x00, 0x00,
   0x00, 0x00, 0x00, 0x00, 0x00, 0x00, 0x00, 0x00, 0x00, 0x00, 0x00, 0x00, 0x00, 0x00, 0x00, 0x00,
   0x00, 0x00, 0x00, 0x00, 0x00, 0x00, 0x00, 0x00, 0x00, 0x00, 0x00, 0x00, 0x00, 0x00, 0x00, 0x00,
   0x00, 0x00, 0x00, 0x00, 0x00, 0x00, 0x00, 0x00, 0x00, 0x00, 0x00, 0x00, 0x00, 0x00, 0x00, 0x00,
   0x00, 0x00, 0x00, 0x00, 0x00, 0x00, 0x00, 0x00, 0x00, 0x00, 0x00, 0x00, 0xa4, 0x00, 0x00, 0x00,
   0x00, 0x00, 0x00, 0x00, 0x00, 0x00, 0x00, 0x00, 0x00, 0x00, 0x00, 0x00, 0x00, 0x00, 0x00, 0x00,
   0x00, 0x00, 0x00, 0x00, 0x00, 0x00, 0x00, 0x00, 0x00, 0x00, 0x00, 0x00, 0x00, 0x00, 0x00, 0x00,
   0x00, 0x00, 0xbc, 0xbd, 0x00, 0x00, 0x00, 0x00, 0x00, 0x00, 0x00, 0x00, 0x00, 0x00, 0x00, 0x00,
   0xa6, 0xa8, 0x00, 0x00, 0x00, 0x00, 0x00, 0x00, 0x00, 0x00, 0x00, 0x00, 0x00, 0x00, 0x00, 0x00,
   0x00, 0x00, 0x00, 0x00, 0x00, 0x00, 0x00, 0x00, 0xbe, 0x00, 0x00, 0x00, 0x00, 0xb4, 0xb8, 0x00,
   0xc0, 0xc1, 0xc2, 0xc3, 0xc4, 0xc5, 0xc6, 0xc7, 0xc8, 0xc9, 0xca, 0xcb, 0xcc, 0xcd, 0xce, 0xcf,
   0xd0, 0xd1, 0xd2, 0xd3, 0xd4, 0xd5, 0xd6, 0xd7, 0xd8, 0xd9, 0xda, 0xdb, 0xdc, 0xdd, 0xde, 0xdf,
   0xe0, 0xe1, 0xe2, 0xe3, 0xe4, 0xe5, 0xe6, 0xe7, 0xe8, 0xe9, 0xea, 0xeb, 0xec, 0xed, 0xee, 0xef,
   0xf0, 0xf1, 0xf2, 0xf3, 0xf4, 0xf5, 0xf6, 0xf7, 0xf8, 0xf9, 0xfa, 0xfb, 0xfc, 0xfd, 0xfe, 0xff]

/-- The function `ISO8859_15ToUTF8(out, outlen, in, inlen)`. -/
def ISO8859_15ToUTF8 (outlen : Nat) (s : List Byte) : Result :=
  ISO8859xToUTF8 xmlunicodetable_ISO8859_15 outlen s

/-- The inner loop `while (c < 0x80 && in < inend)` of `getISO8859_15ToUTF8RequiredLength`, which
is `while (in < inend && *in < 0x80)` in `getISOLatin1ToUtf8_RequiredLength`. It yields the unread
input, its offset and `numOut`. -/
def skipAscii : List Byte → Nat → Nat → List Byte × Nat × Nat
  | [], i, numOut => ([], i, numOut)
  | b :: rest, i, numOut =>
    if b.val < 0x80 then skipAscii rest (i + 1) (numOut + 1) else (b :: rest, i, numOut)

/-- The loop `while (in < inend)` of `getISO8859_15ToUTF8RequiredLength`. The loop is left with
`in == inend` only, so the `if (in < inend && c < 0x80)` that follows it does nothing. -/
def getISO8859_15ToUTF8RequiredLength.loop :
    Nat → List Byte → Nat → Nat → Nat → ProbeResult
  | _, [], i, numOut, needToTranscode => ⟨0, i, numOut, needToTranscode⟩
  | 0, _ :: _, i, numOut, needToTranscode => ⟨0, i, numOut, needToTranscode⟩
  | fuel + 1, b :: rest, i, numOut, needToTranscode =>
    if b.val ≥ 0x80 then
      let c := xmlunicodetable_ISO8859_15.getD (b.val - 0x80) 0
      if c = 0 then ⟨-1, i, numOut, needToTranscode⟩
      else
        let numOut1 := if c < 0x800 then numOut + 2 else numOut + 3
        match skipAscii rest (i + 1) numOut1 with
        | (rest2, i2, numOut2) => getISO8859_15ToUTF8RequiredLength.loop fuel rest2 i2 numOut2 1
    else
      match skipAscii (b :: rest) i numOut with
      | (rest2, i2, numOut2) =>
        getISO8859_15ToUTF8RequiredLength.loop fuel rest2 i2 numOut2 needToTranscode

/-- The function `getISO8859_15ToUTF8RequiredLength(in, inlen, outlen, transcodingNeeded)`. It has
no `in == NULL` test. -/
def getISO8859_15ToUTF8RequiredLength (s : List Byte) : ProbeResult :=
  getISO8859_15ToUTF8RequiredLength.loop s.length s 0 0 0

/-- The loop `while (in < inend)` of `getISOLatin1ToUtf8_RequiredLength`. The loop is left with
`in == inend` only, so the `if (in < inend && *in < 0x80)` that follows it does nothing. -/
def getISOLatin1ToUtf8_RequiredLength.loop :
    Nat → List Byte → Nat → Nat → Nat → ProbeResult
  | _, [], i, numOut, needToTranscode => ⟨0, i, numOut, needToTranscode⟩
  | 0, _ :: _, i, numOut, needToTranscode => ⟨0, i, numOut, needToTranscode⟩
  | fuel + 1, b :: rest, i, numOut, needToTranscode =>
    if b.val ≥ 0x80 then
      match skipAscii rest (i + 1) (numOut + 2) with
      | (rest2, i2, numOut2) => getISOLatin1ToUtf8_RequiredLength.loop fuel rest2 i2 numOut2 1
    else
      match skipAscii (b :: rest) i numOut with
      | (rest2, i2, numOut2) =>
        getISOLatin1ToUtf8_RequiredLength.loop fuel rest2 i2 numOut2 needToTranscode

/-- The function `getISOLatin1ToUtf8_RequiredLength(in, inlen, outlen, transcodingNeeded)`. -/
def getISOLatin1ToUtf8_RequiredLength : Option (List Byte) → ProbeResult
  | none => ⟨0, 0, 0, 0⟩
  | some s => getISOLatin1ToUtf8_RequiredLength.loop s.length s 0 0 0

/-! ## UTF-8 to Latin-9 -/

/-- The loop `while (in < inend)` of `UTF8ToISO8859x`. The state is the unread input at offset
`i` and the bytes stored. In each branch `*inlen` is `in - instart` minus the constant of the
source, `in` having advanced past the bytes read so far. The function never looks at the
capacity `*outlen`: there is no `outend`. -/
def UTF8ToISO8859x.loop (xlattable : List Nat) : Nat → List Byte → Nat → List Byte → Result
  | _, [], i, out => ⟨0, i, out⟩
  | 0, _ :: _, i, out => ⟨0, i, out⟩
  | fuel + 1, d :: rest, i, out =>
    if d.val < 0x80 then UTF8ToISO8859x.loop xlattable fuel rest (i + 1) (out ++ [d])
    else if d.val < 0xC0 then ⟨-2, i + 1 - 1, out⟩
    else if d.val < 0xE0 then
      match rest with
      | [] => ⟨-2, i + 1 - 1, out⟩
      | c :: rest =>
        if c.val &&& 0xC0 ≠ 0x80 then ⟨-2, i + 2 - 2, out⟩
        else
          let c := c.val &&& 0x3F
          let d := d.val &&& 0x1F
          let d := xlattable.getD (48 + c + xlattable.getD d 0 * 64) 0
          if d = 0 then ⟨-2, i + 2 - 2, out⟩
          else UTF8ToISO8859x.loop xlattable fuel rest (i + 2) (out ++ [toByte d])
    else if d.val < 0xF0 then
      match rest with
      | c1 :: c2 :: rest =>
        if c1.val &&& 0xC0 ≠ 0x80 then ⟨-2, i + 2 - 2, out⟩
        else if c2.val &&& 0xC0 ≠ 0x80 then ⟨-2, i + 3 - 2, out⟩
        else
          let c1 := c1.val &&& 0x3F
          let c2 := c2.val &&& 0x3F
          let d := d.val &&& 0x0F
          let d := xlattable.getD
            (48 + c2 + xlattable.getD (48 + c1 + xlattable.getD (32 + d) 0 * 64) 0 * 64) 0
          if d = 0 then ⟨-2, i + 3 - 3, out⟩
          else UTF8ToISO8859x.loop xlattable fuel rest (i + 3) (out ++ [toByte d])
      | _ => ⟨-2, i + 1 - 1, out⟩
    else ⟨-2, i + 1 - 1, out⟩

/-- The function `UTF8ToISO8859x(out, outlen, in, inlen, xlattable)`. The capacity is an argument
that the code does not use. -/
def UTF8ToISO8859x (xlattable : List Nat) (_outlen : Nat) : Option (List Byte) → Result
  | none => ⟨0, 0, []⟩
  | some s => UTF8ToISO8859x.loop xlattable s.length s 0 []

/-- The function `UTF8ToISO8859_15(out, outlen, in, inlen)`. -/
def UTF8ToISO8859_15 (outlen : Nat) (inp : Option (List Byte)) : Result :=
  UTF8ToISO8859x xmltranscodetable_ISO8859_15 outlen inp

/-- The loop `while (in < inend)` of `getUTF8ToISO8859_15RequiredLength`. -/
def getUTF8ToISO8859_15RequiredLength.loop :
    Nat → List Byte → Nat → Nat → Nat → ProbeResult
  | _, [], i, numOut, needToTranscode => ⟨0, i, numOut, needToTranscode⟩
  | 0, _ :: _, i, numOut, needToTranscode => ⟨0, i, numOut, needToTranscode⟩
  | fuel + 1, d :: rest, i, numOut, needToTranscode =>
    if d.val < 0x80 then
      getUTF8ToISO8859_15RequiredLength.loop fuel rest (i + 1) (numOut + 1) needToTranscode
    else if d.val < 0xC0 then ⟨-2, i + 1 - 1, numOut, needToTranscode⟩
    else if d.val < 0xE0 then
      match rest with
      | [] => ⟨-2, i + 1 - 1, numOut, needToTranscode⟩
      | c :: rest =>
        if c.val &&& 0xC0 ≠ 0x80 then ⟨-2, i + 2 - 2, numOut, needToTranscode⟩
        else
          let c := c.val &&& 0x3F
          let d := d.val &&& 0x1F
          let d := xmltranscodetable_ISO8859_15.getD
            (48 + c + xmltranscodetable_ISO8859_15.getD d 0 * 64) 0
          if d = 0 then ⟨-2, i + 2 - 2, numOut, needToTranscode⟩
          else getUTF8ToISO8859_15RequiredLength.loop fuel rest (i + 2) (numOut + 1) 1
    else if d.val < 0xF0 then
      match rest with
      | c1 :: c2 :: rest =>
        if c1.val &&& 0xC0 ≠ 0x80 then ⟨-2, i + 2 - 2, numOut, needToTranscode⟩
        else if c2.val &&& 0xC0 ≠ 0x80 then ⟨-2, i + 3 - 2, numOut, needToTranscode⟩
        else
          let c1 := c1.val &&& 0x3F
          let c2 := c2.val &&& 0x3F
          let d := d.val &&& 0x0F
          let d := xmltranscodetable_ISO8859_15.getD
            (48 + c2 + xmltranscodetable_ISO8859_15.getD
              (48 + c1 + xmltranscodetable_ISO8859_15.getD (32 + d) 0 * 64) 0 * 64) 0
          if d = 0 then ⟨-2, i + 3 - 3, numOut, needToTranscode⟩
          else getUTF8ToISO8859_15RequiredLength.loop fuel rest (i + 3) (numOut + 1) 1
      | _ => ⟨-2, i + 1 - 1, numOut, needToTranscode⟩
    else ⟨-2, i + 1 - 1, numOut, needToTranscode⟩

/-- The function `getUTF8ToISO8859_15RequiredLength(in, inlen, outlen, transcodingNeeded)`. -/
def getUTF8ToISO8859_15RequiredLength : Option (List Byte) → ProbeResult
  | none => ⟨0, 0, 0, 0⟩
  | some s => getUTF8ToISO8859_15RequiredLength.loop s.length s 0 0 0

/-! ## The allocating wrappers -/

/-- The value that an allocating wrapper leaves in `*out`. -/
inductive OutPtr where
  /-- The location `*out` was not assigned. -/
  | untouched : OutPtr
  /-- The null pointer. -/
  | null : OutPtr
  /-- The pointer `in`: the result aliases the input. -/
  | input : OutPtr
  /-- A block of `size` bytes obtained from `malloc`; `bytes` are the bytes stored at its
  start, the bytes after them were never written. -/
  | fresh (size : Nat) (bytes : List Byte) : OutPtr
  /-- A block obtained from `malloc` and given back to `free`. -/
  | freed : OutPtr
deriving DecidableEq, Repr

/-- What an allocating wrapper leaves behind: the returned `rc`, the final `*out` and the final
`*wasTranscoded`. -/
structure OwnedResult where
  rc : Int
  out : OutPtr
  wasTranscoded : Nat
deriving DecidableEq, Repr

/-- The string that `strlen` measures at `in`: `mem` lists the bytes found at `in`, and the
string ends before the first zero byte, or with `mem` when it holds none (the terminator then
follows `mem`). -/
def cString (mem : List Byte) : List Byte := mem.takeWhile (fun b => decide (b.val ≠ 0))

/-- The value that the assignment `byteLenIn = strlen((const char*) in)` leaves in the
`int byteLenIn` for a string of `n` bytes. The `size_t` that `strlen` returns is converted to a
32-bit `int`: a length below `2^31` is kept, any other is reduced modulo `2^32` and read as a
signed value. -/
def strlenToInt (n : Nat) : Int :=
  if n % 2 ^ 32 < 2 ^ 31 then ((n % 2 ^ 32 : Nat) : Int)
  else ((n % 2 ^ 32 : Nat) : Int) - 2 ^ 32

/-- The body that `utf8ToLatin1`, `latin1ToUtf8`, `utf8ToLatin9` and `latin9ToUtf8` share word
for word, for the sizing probe and the converter that each of them calls. It covers the calls
with `out != NULL` in which `malloc` succeeds. The length of the string is held in the
`int byteLenIn`, and the test `byteLenIn > 0` is made on that value. The probe is called with
`byteLenIn` as its input length, so it reads that many bytes of the string; it leaves its
consumed count in `byteLenIn` and its output length in `byteLenOut`; these are then the input
length and the capacity of the call of the converter, and the terminator is stored at the
offset which that call leaves in `byteLenOut`. In the branch of the empty string the block from
`malloc(1)` is stored in `*out`, and `*out = '\0'` then stores a null pointer in its place. -/
def ownedWrapper (probe : List Byte → ProbeResult) (convert : Nat → List Byte → Result) :
    Option (List Byte) → OwnedResult
  | none => ⟨0, .null, 0⟩
  | some mem =>
    let byteLenIn := strlenToInt (cString mem).length
    if byteLenIn > 0 then
      let p := probe ((cString mem).take byteLenIn.toNat)
      if p.status = 0 then
        if p.transcodingNeeded ≠ 0 then
          let szLenOut := p.outlen + 1
          let r := convert p.outlen ((cString mem).take p.inlen)
          if r.status = 0 then ⟨0, .fresh szLenOut (r.out ++ [0]), 1⟩
          else ⟨-1, .freed, 0⟩
        else ⟨0, .input, 0⟩
      else ⟨-1, .untouched, 0⟩
    else ⟨0, .null, 1⟩

/-- The function `utf8ToLatin1(in, out, wasTranscoded)`. -/
def utf8ToLatin1 (inp : Option (List Byte)) : OwnedResult :=
  ownedWrapper (fun s => getUtf8ToISOLatin1_RequiredLength (some s))
    (fun outlen s => UTF8Toisolat1 outlen (some s)) inp

/-- The function `latin1ToUtf8(in, out, wasTranscoded)`. -/
def latin1ToUtf8 (inp : Option (List Byte)) : OwnedResult :=
  ownedWrapper (fun s => getISOLatin1ToUtf8_RequiredLength (some s)) isolat1ToUTF8 inp

/-- The function `utf8ToLatin9(in, out, wasTranscoded)`. -/
def utf8ToLatin9 (inp : Option (List Byte)) : OwnedResult :=
  ownedWrapper (fun s => getUTF8ToISO8859_15RequiredLength (some s))
    (fun outlen s => UTF8ToISO8859_15 outlen (some s)) inp

/-- The function `latin9ToUtf8(in, out, wasTranscoded)`. -/
def latin9ToUtf8 (inp : Option (List Byte)) : OwnedResult :=
  ownedWrapper getISO8859_15ToUTF8RequiredLength ISO8859_15ToUTF8 inp

/-! ## The reads of the transcoding table -/

/-- The indices at which the loop of `UTF8ToISO8859x` reads `xlattable`, in the order of the
reads: `d` and `48 + c + xlattable[d] * 64` for a two-byte sequence, `32 + d`,
`48 + c1 + xlattable[32 + d] * 64` and `48 + c2 + xlattable[...] * 64` for a three-byte
sequence. The branches are those of `UTF8ToISO8859x.loop`. -/
def UTF8ToISO8859x.indices (xlattable : List Nat) : Nat → List Byte → List Nat
  | _, [] => []
  | 0, _ :: _ => []
  | fuel + 1, d :: rest =>
    if d.val < 0x80 then UTF8ToISO8859x.indices xlattable fuel rest
    else if d.val < 0xC0 then []
    else if d.val < 0xE0 then
      match rest with
      | [] => []
      | c :: rest =>
        if c.val &&& 0xC0 ≠ 0x80 then []
        else
          let c := c.val &&& 0x3F
          let d := d.val &&& 0x1F
          let j := 48 + c + xlattable.getD d 0 * 64
          if xlattable.getD j 0 = 0 then [d, j]
          else d :: j :: UTF8ToISO8859x.indices xlattable fuel rest
    else if d.val < 0xF0 then
      match rest with
      | c1 :: c2 :: rest =>
        if c1.val &&& 0xC0 ≠ 0x80 then []
        else if c2.val &&& 0xC0 ≠ 0x80 then []
        else
          let c1 := c1.val &&& 0x3F
          let c2 := c2.val &&& 0x3F
          let d := d.val &&& 0x0F
          let j1 := 32 + d
          let j2 := 48 + c1 + xlattable.getD j1 0 * 64
          let j3 := 48 + c2 + xlattable.getD j2 0 * 64
          if xlattable.getD j3 0 = 0 then [j1, j2, j3]
          else j1 :: j2 :: j3 :: UTF8ToISO8859x.indices xlattable fuel rest
      | _ => []
    else []

/-- The indices at which the loop of `getUTF8ToISO8859_15RequiredLength` reads
`xmltranscodetable_ISO8859_15`, in the order of the reads. The branches are those of
`getUTF8ToISO8859_15RequiredLength.loop`. -/
def getUTF8ToISO8859_15RequiredLength.indices : Nat → List Byte → List Nat
  | _, [] => []
  | 0, _ :: _ => []
  | fuel + 1, d :: rest =>
    if d.val < 0x80 then getUTF8ToISO8859_15RequiredLength.indices fuel rest
    else if d.val < 0xC0 then []
    else if d.val < 0xE0 then
      match rest with
      | [] => []
      | c :: rest =>
        if c.val &&& 0xC0 ≠ 0x80 then []
        else
          let c := c.val &&& 0x3F
          let d := d.val &&& 0x1F
          let j := 48 + c + xmltranscodetable_ISO8859_15.getD d 0 * 64
          if xmltranscodetable_ISO8859_15.getD j 0 = 0 then [d, j]
          else d :: j :: getUTF8ToISO8859_15RequiredLength.indices fuel rest
    else if d.val < 0xF0 then
      match rest with
      | c1 :: c2 :: rest =>
        if c1.val &&& 0xC0 ≠ 0x80 then []
        else if c2.val &&& 0xC0 ≠ 0x80 then []
        else
          let c1 := c1.val &&& 0x3F
          let c2 := c2.val &&& 0x3F
          let d := d.val &&& 0x0F
          let j1 := 32 + d
          let j2 := 48 + c1 + xmltranscodetable_ISO8859_15.getD j1 0 * 64
          let j3 := 48 + c2 + xmltranscodetable_ISO8859_15.getD j2 0 * 64
          if xmltranscodetable_ISO8859_15.getD j3 0 = 0 then [j1, j2, j3]
          else j1 :: j2 :: j3 :: getUTF8ToISO8859_15RequiredLength.indices fuel rest
      | _ => []
    else []

/-! ## Calls with a null input pointer -/

/-- The function `ISO8859xToUTF8` from its entry, for an input pointer that may be `NULL`. The
initialiser `unsigned int c = *in;` reads through `in` before any test, so that a call with
`in == NULL` has no defined result: `none`. -/
def ISO8859xToUTF8.entry (unicodetable : List Nat) (outlen : Nat) :
    Option (List Byte) → Option Result
  | none => none
  | some s => some (ISO8859xToUTF8 unicodetable outlen s)

/-- The function `isolat1ToUTF8` called with `in == NULL`, a declared input length `inlen` and
a capacity `outlen`. The pointers `in` and `inend` are at the offsets 0 and `inlen`. The loop
is entered when `in < inend && out < outend - 1` and then reads `*in`; otherwise the statement
after the loop reads `*in` when `in < inend && out < outend`. A read through the null pointer
leaves the call without a defined result: `none`. When nothing is read the call stores nothing
and returns 0. -/
def isolat1ToUTF8.nullInput (outlen inlen : Nat) : Option Result :=
  if 0 < inlen ∧ (0 : Int) < (outlen : Int) - 1 then none
  else if 0 < inlen ∧ 0 < outlen then none
  else some ⟨0, 0, []⟩

/-! ## Reference definitions

The definitions of this section are not taken from the code: they state what the
specification compares the code with. -/

/-- Reference: the shortest UTF-8 form of the code point `c`, of 1 byte below `0x80`, 2 bytes
below `0x800`, 3 bytes below `0x10000` and 4 bytes otherwise. -/
def utf8Encode (c : Nat) : List Byte :=
  if c < 0x80 then [toByte c]
  else if c < 0x800 then [toByte (0xC0 ||| (c >>> 6)), toByte (0x80 ||| (c &&& 0x3F))]
  else if c < 0x10000 then
    [toByte (0xE0 ||| (c >>> 12)), toByte (0x80 ||| ((c >>> 6) &&& 0x3F)),
      toByte (0x80 ||| (c &&& 0x3F))]
  else
    [toByte (0xF0 ||| (c >>> 18)), toByte (0x80 ||| ((c >>> 12) &&& 0x3F)),
      toByte (0x80 ||| ((c >>> 6) &&& 0x3F)), toByte (0x80 ||| (c &&& 0x3F))]

/-- Reference: the Latin-1 byte of the code point `c` under the lossy policy, the replacement
byte `0xBF` standing for every code point above `0xFF`. -/
def latin1Byte (c : Nat) : Byte := if c ≤ 0xFF then toByte c else toByte 0xBF

/-- Reference: the UTF-8 encoding of the Latin-1 byte `b`, one byte below `0x80` and the two
bytes `0xC0|(b>>6)`, `0x80|(b&0x3F)` otherwise. -/
def latin1Encode (b : Byte) : List Byte :=
  if b.val < 0x80 then [b] else [toByte (0xC0 ||| (b.val >>> 6)), toByte (0x80 ||| (b.val &&& 0x3F))]

/-- Reference: the UTF-8 encoding of a Latin-1 byte string. -/
def latin1EncodeAll (s : List Byte) : List Byte := s.flatMap latin1Encode

/-- Reference: the Windows-1252 substitution map, the 27 pairs of a code point and its byte. -/
def cp1252Map : List (Nat × Nat) :=
  [(0x0152, 0x8C), (0x0153, 0x9C), (0x0160, 0x8A), (0x0161, 0x9A), (0x0178, 0x9F),
   (0x017D, 0x8E), (0x017E, 0x9E), (0x0192, 0x83), (0x02C6, 0x88), (0x02DC, 0x98),
   (0x2013, 0x96), (0x2014, 0x97), (0x2018, 0x91), (0x2019, 0x92), (0x201A, 0x82),
   (0x201C, 0x93), (0x201D, 0x94), (0x201E, 0x84), (0x2020, 0x86), (0x2021, 0x87),
   (0x2022, 0x95), (0x2026, 0x85), (0x2030, 0x89), (0x2039, 0x8B), (0x203A, 0x9B),
   (0x20AC, 0x80), (0x2122, 0x99)]

/-- Reference: the Windows-1252 byte of a code point in `0x100..0xFFFF`, its entry in the map or
`0xBF` when it has none. -/
def cp1252Byte (c : Nat) : Byte := toByte ((cp1252Map.lookup c).getD 0xBF)

/-- Reference: the code point of the Latin-9 byte `b`, which is `b` itself below `0x80` and the
entry `b - 0x80` of the Unicode table otherwise. -/
def latin9CodePoint (b : Byte) : Nat :=
  if b.val < 0x80 then b.val else xmlunicodetable_ISO8859_15.getD (b.val - 0x80) 0

/-- Reference: the UTF-8 encoding of the Latin-9 byte `b`. -/
def latin9Encode (b : Byte) : List Byte := utf8Encode (latin9CodePoint b)

/-- Reference: how a byte stored by `utf8ToCp1252` may differ from the byte stored by
`UTF8Toisolat1` at the same position: the two are equal, or the latter is the replacement byte
`0xBF` and the former a byte of `0x80..0x9F`. -/
def cp1252Refines (a b : Byte) : Prop :=
  a = b ∨ (a = toByte 0xBF ∧ 0x80 ≤ b.val ∧ b.val ≤ 0x9F)

instance cp1252Refines.decidable (a b : Byte) : Decidable (cp1252Refines a b) :=
  inferInstanceAs (Decidable (a = b ∨ (a = toByte 0xBF ∧ 0x80 ≤ b.val ∧ b.val ≤ 0x9F)))

/-! ## Auxiliary definitions used in the proofs -/

/-- Proof device: the run of `ISO8859xToUTF8.loop` told one input byte at a time. A byte below
`0x80` is copied when one byte of capacity is left, any other byte is encoded when two bytes
are left (whether its encoding takes two or three), and the run stops at the first byte that is
not served. The lemma `ISO8859xToUTF8_loop_eq` shows that the loop computes this. -/
def bytewise (unicodetable : List Nat) (outlen : Nat) : List Byte → Nat → List Byte → Result
  | [], i, out => ⟨0, i, out⟩
  | b :: rest, i, out =>
    if b.val < 0x80 then
      if out.length < outlen then bytewise unicodetable outlen rest (i + 1) (out ++ [b])
      else ⟨0, i, out⟩
    else if out.length + 1 < outlen then
      let c := unicodetable.getD (b.val - 0x80) 0
      if c = 0 then ⟨-1, i, out⟩
      else if c < 0x800 then
        bytewise unicodetable outlen rest (i + 1)
          (out ++ [toByte (((c >>> 6) &&& 0x1F) ||| 0xC0), toByte ((c &&& 0x3F) ||| 0x80)])
      else
        bytewise unicodetable outlen rest (i + 1)
          (out ++ [toByte (((c >>> 12) &&& 0x0F) ||| 0xE0),
            toByte (((c >>> 6) &&& 0x3F) ||| 0x80), toByte ((c &&& 0x3F) ||| 0x80)])
    else ⟨0, i, out⟩

/-- Proof device: the table that makes `ISO8859xToUTF8` behave as `isolat1ToUTF8`, the byte
`0x80 + j` standing for the code point `0x80 + j`. -/
def latin1Table : List Nat := (List.range 128).map (fun j => 0x80 + j)


/-- Proof device: the bytes that `ISO8859xToUTF8` stores for the input byte `b`, by the
expressions of the source: `b` itself below `0x80`, and otherwise the two or three bytes
computed from the table entry of `b`. -/
def storedFor (unicodetable : List Nat) (b : Byte) : List Byte :=
  if b.val < 0x80 then [b]
  else
    let c := unicodetable.getD (b.val - 0x80) 0
    if c < 0x800 then [toByte (((c >>> 6) &&& 0x1F) ||| 0xC0), toByte ((c &&& 0x3F) ||| 0x80)]
    else [toByte (((c >>> 12) &&& 0x0F) ||| 0xE0), toByte (((c >>> 6) &&& 0x3F) ||| 0x80),
      toByte ((c &&& 0x3F) ||| 0x80)]

/-! ## Lemmas on the continuation-byte loop -/

theorem readTrailing_snd (trailing : Nat) : ∀ (c c' : Nat) (rest : List Byte) (i : Nat),
    (readTrailing trailing c rest i).map Prod.snd = (readTrailing trailing c' rest i).map Prod.snd := by
  induction trailing with
  | zero => intro c c' rest i; simp [readTrailing]
  | succ t ih =>
    intro c c' rest i
    cases rest with
    | nil => simp [readTrailing]
    | cons d rest =>
      simp only [readTrailing]
      split
      · rfl
      · exact ih _ _ rest (i + 1)

theorem readTrailing_length (trailing : Nat) : ∀ (c : Nat) (rest : List Byte) (i : Nat)
    (c' : Nat) (rest' : List Byte) (i' : Nat), trailing ≤ rest.length →
    readTrailing trailing c rest i = some (c', rest', i') →
    rest'.length + trailing = rest.length ∧ i' = i + trailing := by
  induction trailing with
  | zero =>
    intro c rest i c' rest' i' _ h
    simp only [readTrailing, Option.some.injEq, Prod.mk.injEq] at h
    obtain ⟨-, rfl, rfl⟩ := h
    simp
  | succ t ih =>
    intro c rest i c' rest' i' hlen h
    cases rest with
    | nil => simp at hlen
    | cons d rest =>
      simp only [readTrailing] at h
      split at h
      · cases h
      · have := ih _ rest (i + 1) c' rest' i' (by simpa using hlen) h
        simp only [List.length_cons]
        omega

/-! ## The Latin-1 probe against `UTF8Toisolat1` -/

theorem latin1_probe_loop_parity (outlen : Nat) : ∀ (fuel : Nat) (rest : List Byte)
    (i processed : Nat) (out : List Byte) (needToTranscode : Nat),
    out.length + rest.length ≤ outlen →
    (getUtf8ToISOLatin1_RequiredLength.loop fuel rest i processed out.length
        needToTranscode).status
      = (UTF8Toisolat1.loop outlen fuel rest i processed out).status ∧
    (getUtf8ToISOLatin1_RequiredLength.loop fuel rest i processed out.length
        needToTranscode).inlen
      = (UTF8Toisolat1.loop outlen fuel rest i processed out).inlen ∧
    (getUtf8ToISOLatin1_RequiredLength.loop fuel rest i processed out.length
        needToTranscode).outlen
      = (UTF8Toisolat1.loop outlen fuel rest i processed out).out.length := by
  intro fuel
  induction fuel with
  | zero =>
    intro rest i processed out ntt _
    cases rest <;> simp [getUtf8ToISOLatin1_RequiredLength.loop, UTF8Toisolat1.loop]
  | succ fuel ih =>
    intro rest i processed out ntt hcap
    cases rest with
    | nil => simp [getUtf8ToISOLatin1_RequiredLength.loop, UTF8Toisolat1.loop]
    | cons d rest =>
      simp only [getUtf8ToISOLatin1_RequiredLength.loop, UTF8Toisolat1.loop]
      cases hl : leading d.val with
      | none => simp
      | some ct =>
        obtain ⟨c, trailing⟩ := ct
        simp only
        by_cases hlen : rest.length < trailing
        · simp [hlen]
        · simp only [hlen, if_false]
          have hsnd := readTrailing_snd trailing 0 c rest (i + 1)
          cases hr : readTrailing trailing c rest (i + 1) with
          | none =>
            rw [hr] at hsnd
            simp only [Option.map_none', Option.map_eq_none'] at hsnd
            simp [hsnd]
          | some x =>
            obtain ⟨c', rest', i'⟩ := x
            rw [hr] at hsnd
            simp only [Option.map_some', Option.map_eq_some'] at hsnd
            obtain ⟨⟨c0, rest0, i0⟩, h0, h1⟩ := hsnd
            simp only [Prod.mk.injEq] at h1
            obtain ⟨rfl, rfl⟩ := h1
            have hlen' := (readTrailing_length trailing c rest (i + 1) c' rest0 i0
              (by omega) hr).1
            simp only [List.length_cons] at hcap
            have hout : ¬ out.length ≥ outlen := by omega
            simp only [h0, hout, if_false]
            have e : ∀ b : Byte, out.length + 1 = (out ++ [b]).length := by simp
            by_cases hc : c' ≤ 0xFF
            · simp only [hc, if_true]
              rw [e (toByte c')]
              apply ih
              simp only [List.length_append, List.length_singleton]
              omega
            · simp only [hc, if_false]
              rw [e (toByte 0xBF)]
              apply ih
              simp only [List.length_append, List.length_singleton]
              omega

/-! ## Capacity and input bounds of `UTF8Toisolat1` and `utf8ToCp1252` -/

theorem UTF8Toisolat1_loop_bounds (outlen : Nat) : ∀ (fuel : Nat) (rest : List Byte)
    (i processed : Nat) (out : List Byte), processed ≤ i → out.length ≤ outlen →
    (UTF8Toisolat1.loop outlen fuel rest i processed out).out.length ≤ outlen ∧
    (UTF8Toisolat1.loop outlen fuel rest i processed out).inlen ≤ i + rest.length := by
  intro fuel
  induction fuel with
  | zero =>
    intro rest i processed out hp ho
    cases rest <;> simp only [UTF8Toisolat1.loop] <;> exact ⟨ho, by omega⟩
  | succ fuel ih =>
    intro rest i processed out hp ho
    cases rest with
    | nil => simp only [UTF8Toisolat1.loop]; exact ⟨ho, by omega⟩
    | cons d rest =>
      have stop : (⟨0, processed, out⟩ : Result).out.length ≤ outlen ∧
          (⟨0, processed, out⟩ : Result).inlen ≤ i + (d :: rest).length :=
        ⟨ho, by show processed ≤ _; omega⟩
      have fail : (⟨-2, processed, out⟩ : Result).out.length ≤ outlen ∧
          (⟨-2, processed, out⟩ : Result).inlen ≤ i + (d :: rest).length :=
        ⟨ho, by show processed ≤ _; omega⟩
      simp only [UTF8Toisolat1.loop]
      cases leading d.val with
      | none => exact fail
      | some ct =>
        obtain ⟨c, trailing⟩ := ct
        simp only
        by_cases hlen : rest.length < trailing
        · simp only [hlen, if_true]; exact stop
        · simp only [hlen, if_false]
          cases hr : readTrailing trailing c rest (i + 1) with
          | none => exact fail
          | some x =>
            obtain ⟨c', rest', i'⟩ := x
            obtain ⟨h1, h2⟩ := readTrailing_length trailing c rest (i + 1) c' rest' i'
              (by omega) hr
            simp only
            by_cases hout : out.length ≥ outlen
            · simp only [hout, if_true, ite_self]; exact stop
            · simp only [hout, if_false]
              have key : ∀ b : Byte,
                  (UTF8Toisolat1.loop outlen fuel rest' i' i' (out ++ [b])).out.length ≤ outlen ∧
                  (UTF8Toisolat1.loop outlen fuel rest' i' i' (out ++ [b])).inlen
                    ≤ i + (d :: rest).length := by
                intro b
                have := ih rest' i' i' (out ++ [b]) (le_refl _)
                  (by simp only [List.length_append, List.length_singleton]; omega)
                refine ⟨this.1, le_trans this.2 ?_⟩
                simp only [List.length_cons]
                omega
              split
              · exact key _
              · exact key _

theorem utf8ToCp1252_loop_bounds (outlen : Nat) : ∀ (fuel : Nat) (rest : List Byte)
    (i processed : Nat) (out : List Byte), processed ≤ i → out.length ≤ outlen →
    (utf8ToCp1252.loop outlen fuel rest i processed out).out.length ≤ outlen ∧
    (utf8ToCp1252.loop outlen fuel rest i processed out).inlen ≤ i + rest.length := by
  intro fuel
  induction fuel with
  | zero =>
    intro rest i processed out hp ho
    cases rest <;> simp only [utf8ToCp1252.loop] <;> exact ⟨ho, by omega⟩
  | succ fuel ih =>
    intro rest i processed out hp ho
    cases rest with
    | nil => simp only [utf8ToCp1252.loop]; exact ⟨ho, by omega⟩
    | cons d rest =>
      have stop : (⟨0, processed, out⟩ : Result).out.length ≤ outlen ∧
          (⟨0, processed, out⟩ : Result).inlen ≤ i + (d :: rest).length :=
        ⟨ho, by show processed ≤ _; omega⟩
      have fail : (⟨-2, processed, out⟩ : Result).out.length ≤ outlen ∧
          (⟨-2, processed, out⟩ : Result).inlen ≤ i + (d :: rest).length :=
        ⟨ho, by show processed ≤ _; omega⟩
      simp only [utf8ToCp1252.loop]
      cases leading d.val with
      | none => exact fail
      | some ct =>
        obtain ⟨c, trailing⟩ := ct
        simp only
        by_cases hlen : rest.length < trailing
        · simp only [hlen, if_true]; exact stop
        · simp only [hlen, if_false]
          cases hr : readTrailing trailing c rest (i + 1) with
          | none => exact fail
          | some x =>
            obtain ⟨c', rest', i'⟩ := x
            obtain ⟨h1, h2⟩ := readTrailing_length trailing c rest (i + 1) c' rest' i'
              (by omega) hr
            simp only
            by_cases hout : out.length ≥ outlen
            · simp only [hout, if_true, ite_self]; exact stop
            · simp only [hout, if_false]
              have key : ∀ b : Byte,
                  (utf8ToCp1252.loop outlen fuel rest' i' i' (out ++ [b])).out.length ≤ outlen ∧
                  (utf8ToCp1252.loop outlen fuel rest' i' i' (out ++ [b])).inlen
                    ≤ i + (d :: rest).length := by
                intro b
                have := ih rest' i' i' (out ++ [b]) (le_refl _)
                  (by simp only [List.length_append, List.length_singleton]; omega)
                refine ⟨this.1, le_trans this.2 ?_⟩
                simp only [List.length_cons]
                omega
              split
              · exact key _
              · exact key _

/-! ## Fuel -/

theorem UTF8Toisolat1_fuel (outlen : Nat) : ∀ (f1 f2 : Nat) (rest : List Byte)
    (i processed : Nat) (out : List Byte), rest.length ≤ f1 → rest.length ≤ f2 →
    UTF8Toisolat1.loop outlen f1 rest i processed out
      = UTF8Toisolat1.loop outlen f2 rest i processed out := by
  intro f1
  induction f1 with
  | zero =>
    intro f2 rest i processed out h1 _
    cases rest with
    | nil => cases f2 <;> simp [UTF8Toisolat1.loop]
    | cons d rest => simp at h1
  | succ f1 ih =>
    intro f2 rest i processed out h1 h2
    cases rest with
    | nil => cases f2 <;> simp [UTF8Toisolat1.loop]
    | cons d rest =>
      simp only [List.length_cons] at h1 h2
      obtain ⟨f2, rfl⟩ : ∃ f, f2 = f + 1 := ⟨f2 - 1, by omega⟩
      simp only [UTF8Toisolat1.loop]
      cases leading d.val with
      | none => rfl
      | some ct =>
        obtain ⟨c, trailing⟩ := ct
        simp only
        by_cases hlen : rest.length < trailing
        · simp only [hlen, if_true]
        · simp only [hlen, if_false]
          cases hr : readTrailing trailing c rest (i + 1) with
          | none => rfl
          | some x =>
            obtain ⟨c', rest', i'⟩ := x
            have hl := (readTrailing_length trailing c rest (i + 1) c' rest' i'
              (by omega) hr).1
            simp only
            rw [ih f2 rest' i' i' _ (by omega) (by omega),
              ih f2 rest' i' i' _ (by omega) (by omega)]

theorem utf8ToCp1252_fuel (outlen : Nat) : ∀ (f1 f2 : Nat) (rest : List Byte)
    (i processed : Nat) (out : List Byte), rest.length ≤ f1 → rest.length ≤ f2 →
    utf8ToCp1252.loop outlen f1 rest i processed out
      = utf8ToCp1252.loop outlen f2 rest i processed out := by
  intro f1
  induction f1 with
  | zero =>
    intro f2 rest i processed out h1 _
    cases rest with
    | nil => cases f2 <;> simp [utf8ToCp1252.loop]
    | cons d rest => simp at h1
  | succ f1 ih =>
    intro f2 rest i processed out h1 h2
    cases rest with
    | nil => cases f2 <;> simp [utf8ToCp1252.loop]
    | cons d rest =>
      simp only [List.length_cons] at h1 h2
      obtain ⟨f2, rfl⟩ : ∃ f, f2 = f + 1 := ⟨f2 - 1, by omega⟩
      simp only [utf8ToCp1252.loop]
      cases leading d.val with
      | none => rfl
      | some ct =>
        obtain ⟨c, trailing⟩ := ct
        simp only
        by_cases hlen : rest.length < trailing
        · simp only [hlen, if_true]
        · simp only [hlen, if_false]
          cases hr : readTrailing trailing c rest (i + 1) with
          | none => rfl
          | some x =>
            obtain ⟨c', rest', i'⟩ := x
            have hl := (readTrailing_length trailing c rest (i + 1) c' rest' i'
              (by omega) hr).1
            simp only
            rw [ih f2 rest' i' i' _ (by omega) (by omega),
              ih f2 rest' i' i' _ (by omega) (by omega)]

/-- Any fuel that covers the input length gives the result of `utf8ToCp1252`. -/
theorem utf8ToCp1252_fuel_irrelevant (outlen fuel : Nat) (s : List Byte)
    (h : s.length ≤ fuel) :
    utf8ToCp1252.loop outlen fuel s 0 0 [] = utf8ToCp1252 outlen (some s) :=
  utf8ToCp1252_fuel outlen fuel s.length s 0 0 [] h (le_refl _)

theorem getUtf8ToISOLatin1_RequiredLength_fuel : ∀ (f1 f2 : Nat) (rest : List Byte)
    (i processed numOut needToTranscode : Nat), rest.length ≤ f1 → rest.length ≤ f2 →
    getUtf8ToISOLatin1_RequiredLength.loop f1 rest i processed numOut needToTranscode
      = getUtf8ToISOLatin1_RequiredLength.loop f2 rest i processed numOut needToTranscode := by
  intro f1
  induction f1 with
  | zero =>
    intro f2 rest i processed numOut ntt h1 _
    cases rest with
    | nil => cases f2 <;> simp [getUtf8ToISOLatin1_RequiredLength.loop]
    | cons d rest => simp at h1
  | succ f1 ih =>
    intro f2 rest i processed numOut ntt h1 h2
    cases rest with
    | nil => cases f2 <;> simp [getUtf8ToISOLatin1_RequiredLength.loop]
    | cons d rest =>
      simp only [List.length_cons] at h1 h2
      obtain ⟨f2, rfl⟩ : ∃ f, f2 = f + 1 := ⟨f2 - 1, by omega⟩
      simp only [getUtf8ToISOLatin1_RequiredLength.loop]
      cases leading d.val with
      | none => rfl
      | some ct =>
        obtain ⟨c, trailing⟩ := ct
        simp only
        by_cases hlen : rest.length < trailing
        · simp only [hlen, if_true]
        · simp only [hlen, if_false]
          cases hr : readTrailing trailing 0 rest (i + 1) with
          | none => rfl
          | some x =>
            obtain ⟨c', rest', i'⟩ := x
            have hl := (readTrailing_length trailing 0 rest (i + 1) c' rest' i'
              (by omega) hr).1
            simp only
            rw [ih f2 rest' i' i' _ _ (by omega) (by omega)]

/-- Any fuel that covers the input length gives the result of
`getUtf8ToISOLatin1_RequiredLength`. -/
theorem getUtf8ToISOLatin1_RequiredLength_fuel_irrelevant (fuel : Nat) (s : List Byte)
    (h : s.length ≤ fuel) :
    getUtf8ToISOLatin1_RequiredLength.loop fuel s 0 0 0 0
      = getUtf8ToISOLatin1_RequiredLength (some s) :=
  getUtf8ToISOLatin1_RequiredLength_fuel fuel s.length s 0 0 0 0 h (le_refl _)

theorem UTF8ToISO8859x_fuel (xlattable : List Nat) : ∀ (f1 f2 : Nat) (rest : List Byte)
    (i : Nat) (out : List Byte), rest.length ≤ f1 → rest.length ≤ f2 →
    UTF8ToISO8859x.loop xlattable f1 rest i out
      = UTF8ToISO8859x.loop xlattable f2 rest i out := by
  intro f1
  induction f1 with
  | zero =>
    intro f2 rest i out h1 _
    cases rest with
    | nil => cases f2 <;> simp [UTF8ToISO8859x.loop]
    | cons d rest => simp at h1
  | succ f1 ih =>
    intro f2 rest i out h1 h2
    cases rest with
    | nil => cases f2 <;> simp [UTF8ToISO8859x.loop]
    | cons d rest =>
      simp only [List.length_cons] at h1 h2
      obtain ⟨f2, rfl⟩ : ∃ f, f2 = f + 1 := ⟨f2 - 1, by omega⟩
      simp only [UTF8ToISO8859x.loop]
      by_cases g1 : d.val < 0x80
      · simp only [g1, if_true]
        exact ih f2 rest _ _ (by omega) (by omega)
      · simp only [g1, if_false]
        by_cases g2 : d.val < 0xC0
        · simp only [g2, if_true]
        · simp only [g2, if_false]
          by_cases g3 : d.val < 0xE0
          · simp only [g3, if_true]
            cases rest with
            | nil => rfl
            | cons c rest =>
              simp only [List.length_cons] at h1 h2
              simp only
              rw [ih f2 rest _ _ (by omega) (by omega)]
          · simp only [g3, if_false]
            by_cases g5 : d.val < 0xF0
            · simp only [g5, if_true]
              match rest, h1, h2 with
              | [], _, _ => rfl
              | [c1], _, _ => rfl
              | c1 :: c2 :: rest, h1, h2 =>
                simp only [List.length_cons] at h1 h2
                simp only
                rw [ih f2 rest _ _ (by omega) (by omega)]
            · simp only [g5, if_false]

/-- Any fuel that covers the input length gives the result of `UTF8ToISO8859x`. -/
theorem UTF8ToISO8859x_fuel_irrelevant (xlattable : List Nat) (outlen fuel : Nat)
    (s : List Byte) (h : s.length ≤ fuel) :
    UTF8ToISO8859x.loop xlattable fuel s 0 [] = UTF8ToISO8859x xlattable outlen (some s) :=
  UTF8ToISO8859x_fuel xlattable fuel s.length s 0 [] h (le_refl _)

theorem getUTF8ToISO8859_15RequiredLength_fuel : ∀ (f1 f2 : Nat) (rest : List Byte)
    (i : Nat) (numOut needToTranscode : Nat), rest.length ≤ f1 → rest.length ≤ f2 →
    getUTF8ToISO8859_15RequiredLength.loop f1 rest i numOut needToTranscode
      = getUTF8ToISO8859_15RequiredLength.loop f2 rest i numOut needToTranscode := by
  intro f1
  induction f1 with
  | zero =>
    intro f2 rest i numOut ntt h1 _
    cases rest with
    | nil => cases f2 <;> simp [getUTF8ToISO8859_15RequiredLength.loop]
    | cons d rest => simp at h1
  | succ f1 ih =>
    intro f2 rest i numOut ntt h1 h2
    cases rest with
    | nil => cases f2 <;> simp [getUTF8ToISO8859_15RequiredLength.loop]
    | cons d rest =>
      simp only [List.length_cons] at h1 h2
      obtain ⟨f2, rfl⟩ : ∃ f, f2 = f + 1 := ⟨f2 - 1, by omega⟩
      simp only [getUTF8ToISO8859_15RequiredLength.loop]
      by_cases g1 : d.val < 0x80
      · simp only [g1, if_true]
        exact ih f2 rest _ _ _ (by omega) (by omega)
      · simp only [g1, if_false]
        by_cases g2 : d.val < 0xC0
        · simp only [g2, if_true]
        · simp only [g2, if_false]
          by_cases g3 : d.val < 0xE0
          · simp only [g3, if_true]
            cases rest with
            | nil => rfl
            | cons c rest =>
              simp only [List.length_cons] at h1 h2
              simp only
              rw [ih f2 rest _ _ _ (by omega) (by omega)]
          · simp only [g3, if_false]
            by_cases g5 : d.val < 0xF0
            · simp only [g5, if_true]
              match rest, h1, h2 with
              | [], _, _ => rfl
              | [c1], _, _ => rfl
              | c1 :: c2 :: rest, h1, h2 =>
                simp only [List.length_cons] at h1 h2
                simp only
                rw [ih f2 rest _ _ _ (by omega) (by omega)]
            · simp only [g5, if_false]

/-- Any fuel that covers the input length gives the result of
`getUTF8ToISO8859_15RequiredLength`. -/
theorem getUTF8ToISO8859_15RequiredLength_fuel_irrelevant (fuel : Nat) (s : List Byte)
    (h : s.length ≤ fuel) :
    getUTF8ToISO8859_15RequiredLength.loop fuel s 0 0 0
      = getUTF8ToISO8859_15RequiredLength (some s) :=
  getUTF8ToISO8859_15RequiredLength_fuel fuel s.length s 0 0 0 h (le_refl _)

/-! ## The loops of `isolat1ToUTF8` and `ISO8859xToUTF8` -/

theorem bytewise_full (unicodetable : List Nat) (outlen : Nat) (rest : List Byte) (i : Nat)
    (out : List Byte) (h : outlen ≤ out.length) :
    bytewise unicodetable outlen rest i out = ⟨0, i, out⟩ := by
  cases rest with
  | nil => simp [bytewise]
  | cons b rest =>
    have h1 : ¬ out.length < outlen := by omega
    have h2 : ¬ out.length + 1 < outlen := by omega
    simp [bytewise, h1, h2]

theorem copyAscii_spec (unicodetable : List Nat) (outlen : Nat) (instop : Int) :
    ∀ (rest : List Byte) (i : Nat) (out rest2 : List Byte) (i2 : Nat) (out2 : List Byte),
    instop - (i : Int) ≤ (outlen : Int) - (out.length : Int) →
    copyAscii instop rest i out = (rest2, i2, out2) →
    bytewise unicodetable outlen rest2 i2 out2 = bytewise unicodetable outlen rest i out ∧
    i2 + rest2.length = i + rest.length ∧
    out2.length + rest2.length = out.length + rest.length ∧
    rest2.length ≤ rest.length := by
  intro rest
  induction rest with
  | nil =>
    intro i out rest2 i2 out2 _ h
    simp only [copyAscii, Prod.mk.injEq] at h
    obtain ⟨rfl, rfl, rfl⟩ := h
    simp
  | cons b rest ih =>
    intro i out rest2 i2 out2 hJR h
    simp only [copyAscii] at h
    split at h
    · rename_i hc
      have hb : b.val < 0x80 := hc.2
      have hcap : out.length < outlen := by omega
      have := ih (i + 1) (out ++ [b]) rest2 i2 out2
        (by simp only [List.length_append, List.length_singleton]; push_cast; omega) h
      simp only [List.length_append, List.length_singleton] at this
      obtain ⟨e1, e2, e3, e4⟩ := this
      refine ⟨?_, ?_, ?_, ?_⟩
      · rw [e1]; simp [bytewise, hb, hcap]
      · simp only [List.length_cons]; omega
      · simp only [List.length_cons]; omega
      · simp only [List.length_cons]; omega
    · simp only [Prod.mk.injEq] at h
      obtain ⟨rfl, rfl, rfl⟩ := h
      simp

theorem copyAscii_progress (instop : Int) (b : Byte) (rest : List Byte) (i : Nat)
    (out rest2 : List Byte) (i2 : Nat) (out2 : List Byte)
    (hi : (i : Int) < instop) (hb : b.val < 0x80)
    (h : copyAscii instop (b :: rest) i out = (rest2, i2, out2)) :
    rest2.length ≤ rest.length := by
  simp only [copyAscii, hi, hb, and_self, if_true] at h
  have := copyAscii_spec [] (out.length + 1 + (instop - (i + 1)).toNat) instop rest (i + 1)
    (out ++ [b]) rest2 i2 out2
    (by simp only [List.length_append, List.length_singleton]; push_cast; omega) h
  exact this.2.2.2

theorem ISO8859xToUTF8_loop_eq (unicodetable : List Nat) (outlen : Nat) :
    ∀ (fuel : Nat) (rest : List Byte) (i : Nat) (out : List Byte) (instop : Int),
    rest.length < fuel →
    instop ≤ (i : Int) + (rest.length : Int) →
    (instop = (i : Int) + (rest.length : Int) ∨
      instop - (i : Int) ≥ (outlen : Int) - (out.length : Int)) →
    ISO8859xToUTF8.loop unicodetable outlen fuel rest i out instop
      = bytewise unicodetable outlen rest i out := by
  intro fuel
  induction fuel with
  | zero => intro rest i out instop h; omega
  | succ fuel ih =>
    intro rest i out instop hfuel hle hinv
    cases rest with
    | nil => simp [ISO8859xToUTF8.loop, finishAscii, bytewise]
    | cons b rest =>
      simp only [List.length_cons] at hfuel hle hinv
      push_cast at hle hinv
      simp only [ISO8859xToUTF8.loop]
      by_cases hR : (out.length : Int) < (outlen : Int) - 1
      · simp only [hR, not_true_eq_false, if_false]
        have hR' : out.length + 1 < outlen := by omega
        by_cases hb : b.val ≥ 0x80
        · have hb' : ¬ b.val < 0x80 := by omega
          simp only [hb, if_true]
          simp only [bytewise, hb', if_false, hR', if_true]
          by_cases hc0 : unicodetable.getD (b.val - 0x80) 0 = 0
          · simp only [hc0, if_true]
          · simp only [hc0, if_false]
            have step : ∀ enc : List Byte, 2 ≤ enc.length →
                (match copyAscii (lowerInstop outlen instop (i + 1) (out ++ enc).length) rest
                    (i + 1) (out ++ enc) with
                  | (rest2, i2, out2) => ISO8859xToUTF8.loop unicodetable outlen fuel rest2 i2 out2
                      (lowerInstop outlen instop (i + 1) (out ++ enc).length))
                  = bytewise unicodetable outlen rest (i + 1) (out ++ enc) := by
              intro enc henc
              rcases hca : copyAscii (lowerInstop outlen instop (i + 1) (out ++ enc).length) rest
                (i + 1) (out ++ enc) with ⟨rest2, i2, out2⟩
              have hJR : lowerInstop outlen instop (i + 1) (out ++ enc).length
                  - ((i + 1 : Nat) : Int) ≤ (outlen : Int) - ((out ++ enc).length : Int) := by
                unfold lowerInstop; split <;> omega
              obtain ⟨e1, e2, e3, e4⟩ := copyAscii_spec unicodetable outlen _ rest (i + 1)
                (out ++ enc) rest2 i2 out2 hJR hca
              simp only
              rw [← e1]
              apply ih
              · omega
              · unfold lowerInstop; split <;> (push_cast; omega)
              · simp only [List.length_append] at e3 hJR ⊢
                unfold lowerInstop
                unfold lowerInstop at hJR
                split <;> rename_i hlow <;> simp only [hlow, if_true, if_false] at hJR <;>
                  (push_cast at hJR hlow ⊢; omega)
            by_cases hc : unicodetable.getD (b.val - 0x80) 0 < 0x800
            · simp only [hc, if_true]
              exact step _ (by simp)
            · simp only [hc, if_false]
              exact step _ (by simp)
        · have hb' : b.val < 0x80 := by omega
          simp only [hb, if_false]
          rcases hca : copyAscii (lowerInstop outlen instop i out.length) (b :: rest)
            i out with ⟨rest2, i2, out2⟩
          have hJR : lowerInstop outlen instop i out.length
              - (i : Int) ≤ (outlen : Int) - (out.length : Int) := by
            unfold lowerInstop; split <;> omega
          obtain ⟨e1, e2, e3, e4⟩ := copyAscii_spec unicodetable outlen _ (b :: rest) i
            out rest2 i2 out2 hJR hca
          have hprog := copyAscii_progress _ b rest i out rest2 i2 out2
            (by unfold lowerInstop; split <;> omega) hb' hca
          simp only [List.length_cons] at e2 e3
          simp only
          rw [← e1]
          apply ih
          · omega
          · unfold lowerInstop; split <;> omega
          · unfold lowerInstop
            unfold lowerInstop at hJR
            split <;> rename_i hlow <;> simp only [hlow, if_true, if_false] at hJR <;> omega
      · simp only [hR, not_false_eq_true, if_true]
        simp only [finishAscii, bytewise]
        by_cases hb : b.val < 0x80
        · by_cases ho : out.length < outlen
          · simp only [hb, ho, and_self, if_true]
            rw [bytewise_full]
            simp only [List.length_append, List.length_singleton]
            omega
          · simp [hb, ho]
        · have h2 : ¬ out.length + 1 < outlen := by omega
          simp [hb, h2]

theorem latin1Table_getD : ∀ b : Byte, b.val ≥ 0x80 →
    latin1Table.getD (b.val - 0x80) 0 = b.val := by
  intro b hb
  have hlt : b.val - 0x80 < 128 := by have := b.isLt; omega
  unfold latin1Table
  rw [List.getD_eq_getElem _ _ (by simpa using hlt)]
  simp only [List.getElem_map, List.getElem_range]
  omega

theorem isolat1ToUTF8_loop_eq_ISO8859x (outlen : Nat) :
    ∀ (fuel : Nat) (rest : List Byte) (i : Nat) (out : List Byte) (instop : Int),
    isolat1ToUTF8.loop outlen fuel rest i out instop
      = ISO8859xToUTF8.loop latin1Table outlen fuel rest i out instop := by
  intro fuel
  induction fuel with
  | zero => intro rest i out instop; simp [isolat1ToUTF8.loop, ISO8859xToUTF8.loop]
  | succ fuel ih =>
    intro rest i out instop
    cases rest with
    | nil => simp [isolat1ToUTF8.loop, ISO8859xToUTF8.loop]
    | cons b rest =>
      simp only [isolat1ToUTF8.loop, ISO8859xToUTF8.loop]
      by_cases hR : (out.length : Int) < (outlen : Int) - 1
      · simp only [hR, not_true_eq_false, if_false]
        by_cases hb : b.val ≥ 0x80
        · have h0 : b.val ≠ 0 := by omega
          have h8 : b.val < 0x800 := by have := b.isLt; omega
          simp only [hb, if_true, latin1Table_getD b hb, h0, if_false, h8, ih]
        · simp only [hb, if_false, ih]
      · simp only [hR, not_false_eq_true, if_true]

theorem ISO8859xToUTF8_eq_bytewise (unicodetable : List Nat) (outlen : Nat) (s : List Byte) :
    ISO8859xToUTF8 unicodetable outlen s = bytewise unicodetable outlen s 0 [] := by
  unfold ISO8859xToUTF8
  apply ISO8859xToUTF8_loop_eq
  · omega
  · simp
  · left; simp

theorem isolat1ToUTF8_eq_bytewise (outlen : Nat) (s : List Byte) :
    isolat1ToUTF8 outlen s = bytewise latin1Table outlen s 0 [] := by
  unfold isolat1ToUTF8
  rw [isolat1ToUTF8_loop_eq_ISO8859x]
  exact ISO8859xToUTF8_eq_bytewise latin1Table outlen s

/-- Any fuel above the input length gives the result of `ISO8859xToUTF8`. -/
theorem ISO8859xToUTF8_fuel_irrelevant (unicodetable : List Nat) (outlen fuel : Nat)
    (s : List Byte) (h : s.length < fuel) :
    ISO8859xToUTF8.loop unicodetable outlen fuel s 0 [] s.length
      = ISO8859xToUTF8 unicodetable outlen s := by
  rw [ISO8859xToUTF8_eq_bytewise]
  exact ISO8859xToUTF8_loop_eq unicodetable outlen fuel s 0 [] s.length h (by simp)
    (Or.inl (by simp))

/-- Any fuel above the input length gives the result of `isolat1ToUTF8`. -/
theorem isolat1ToUTF8_fuel_irrelevant (outlen fuel : Nat) (s : List Byte)
    (h : s.length < fuel) :
    isolat1ToUTF8.loop outlen fuel s 0 [] s.length = isolat1ToUTF8 outlen s := by
  rw [isolat1ToUTF8_eq_bytewise, isolat1ToUTF8_loop_eq_ISO8859x]
  exact ISO8859xToUTF8_loop_eq latin1Table outlen fuel s 0 [] s.length h (by simp)
    (Or.inl (by simp))

theorem storedFor_length (unicodetable : List Nat) (b : Byte) :
    (b.val < 0x80 → (storedFor unicodetable b).length = 1) ∧
    (¬ b.val < 0x80 → 2 ≤ (storedFor unicodetable b).length) ∧
    (storedFor unicodetable b).length ≤ 3 := by
  unfold storedFor
  refine ⟨?_, ?_, ?_⟩
  · intro h; simp [h]
  · intro h; simp only [h, if_false]; split <;> simp
  · split
    · simp
    · simp only; split <;> simp

theorem bytewise_cons_ascii (unicodetable : List Nat) (outlen : Nat) (b : Byte)
    (rest : List Byte) (i : Nat) (out : List Byte) (hb : b.val < 0x80) :
    bytewise unicodetable outlen (b :: rest) i out =
      if out.length < outlen then
        bytewise unicodetable outlen rest (i + 1) (out ++ storedFor unicodetable b)
      else ⟨0, i, out⟩ := by
  simp [bytewise, storedFor, hb]

theorem bytewise_cons_high (unicodetable : List Nat) (outlen : Nat) (b : Byte)
    (rest : List Byte) (i : Nat) (out : List Byte) (hb : ¬ b.val < 0x80)
    (hnz : unicodetable.getD (b.val - 0x80) 0 ≠ 0) :
    bytewise unicodetable outlen (b :: rest) i out =
      if out.length + 1 < outlen then
        bytewise unicodetable outlen rest (i + 1) (out ++ storedFor unicodetable b)
      else ⟨0, i, out⟩ := by
  simp only [bytewise, storedFor, hb, if_false, hnz]
  split
  · split <;> rfl
  · rfl

/-- The run of `bytewise` over a table without undefined entries: it serves a prefix of the
input, stores the bytes of that prefix, and no longer prefix fits the capacity. -/
theorem bytewise_spec (unicodetable : List Nat) (outlen : Nat)
    (hnz : ∀ b : Byte, ¬ b.val < 0x80 → unicodetable.getD (b.val - 0x80) 0 ≠ 0) :
    ∀ (rest : List Byte) (i : Nat) (out : List Byte), ∃ m, m ≤ rest.length ∧
      bytewise unicodetable outlen rest i out
        = ⟨0, i + m, out ++ (rest.take m).flatMap (storedFor unicodetable)⟩ ∧
      ∀ m', m' ≤ rest.length →
        out.length + ((rest.take m').flatMap (storedFor unicodetable)).length ≤ outlen →
        m' ≤ m := by
  intro rest
  induction rest with
  | nil =>
    intro i out
    exact ⟨0, le_refl _, by simp [bytewise], fun m' h _ => by simpa using h⟩
  | cons b rest ih =>
    intro i out
    obtain ⟨l1, l2, l3⟩ := storedFor_length unicodetable b
    have served : bytewise unicodetable outlen (b :: rest) i out
        = bytewise unicodetable outlen rest (i + 1) (out ++ storedFor unicodetable b) →
        ∃ m, m ≤ (b :: rest).length ∧
        bytewise unicodetable outlen (b :: rest) i out
          = ⟨0, i + m, out ++ ((b :: rest).take m).flatMap (storedFor unicodetable)⟩ ∧
        ∀ m', m' ≤ (b :: rest).length →
          out.length + (((b :: rest).take m').flatMap (storedFor unicodetable)).length ≤ outlen →
          m' ≤ m := by
      intro hstep
      obtain ⟨m, hm, heq, hmax⟩ := ih (i + 1) (out ++ storedFor unicodetable b)
      refine ⟨m + 1, by simpa using hm, ?_, ?_⟩
      · rw [hstep, heq]
        simp only [List.take_succ_cons, List.flatMap_cons, List.append_assoc, Result.mk.injEq,
          and_true, true_and]
        omega
      · intro m' hm' hfit
        cases m' with
        | zero => omega
        | succ m' =>
          have := hmax m' (by simpa using hm') (by
            simp only [List.take_succ_cons, List.flatMap_cons, List.length_append] at hfit ⊢
            omega)
          omega
    have stopped : bytewise unicodetable outlen (b :: rest) i out = ⟨0, i, out⟩ →
        outlen < out.length + (storedFor unicodetable b).length →
        ∃ m, m ≤ (b :: rest).length ∧
        bytewise unicodetable outlen (b :: rest) i out
          = ⟨0, i + m, out ++ ((b :: rest).take m).flatMap (storedFor unicodetable)⟩ ∧
        ∀ m', m' ≤ (b :: rest).length →
          out.length + (((b :: rest).take m').flatMap (storedFor unicodetable)).length ≤ outlen →
          m' ≤ m := by
      intro hstop hfull
      refine ⟨0, by simp, by simp [hstop], ?_⟩
      intro m' _ hfit
      cases m' with
      | zero => omega
      | succ m' =>
        simp only [List.take_succ_cons, List.flatMap_cons, List.length_append] at hfit
        omega
    by_cases hb : b.val < 0x80
    · have := l1 hb
      have e := bytewise_cons_ascii unicodetable outlen b rest i out hb
      by_cases ho : out.length < outlen
      · simp only [ho, if_true] at e
        exact served e
      · simp only [ho, if_false] at e
        exact stopped e (by omega)
    · have := l2 hb
      have e := bytewise_cons_high unicodetable outlen b rest i out hb (hnz b hb)
      by_cases ho : out.length + 1 < outlen
      · simp only [ho, if_true] at e
        exact served e
      · simp only [ho, if_false] at e
        exact stopped e (by omega)

/-! ## The sizing probes of the legacy-to-UTF-8 direction -/

theorem skipAscii_spec (unicodetable : List Nat) :
    ∀ (rest : List Byte) (i numOut : Nat) (rest2 : List Byte) (i2 numOut2 : Nat),
    skipAscii rest i numOut = (rest2, i2, numOut2) →
    i2 + rest2.length = i + rest.length ∧
    numOut2 + (rest2.flatMap (storedFor unicodetable)).length
      = numOut + (rest.flatMap (storedFor unicodetable)).length ∧
    rest2.length ≤ rest.length ∧
    rest2.any (fun b => decide (0x80 ≤ b.val)) = rest.any (fun b => decide (0x80 ≤ b.val)) ∧
    (∀ b tl, rest = b :: tl → b.val < 0x80 → rest2.length ≤ tl.length) := by
  intro rest
  induction rest with
  | nil =>
    intro i numOut rest2 i2 numOut2 h
    simp only [skipAscii, Prod.mk.injEq] at h
    obtain ⟨rfl, rfl, rfl⟩ := h
    simp
  | cons b rest ih =>
    intro i numOut rest2 i2 numOut2 h
    simp only [skipAscii] at h
    split at h
    · rename_i hb
      obtain ⟨e1, e2, e3, e4, -⟩ := ih (i + 1) (numOut + 1) rest2 i2 numOut2 h
      have hl := (storedFor_length unicodetable b).1 hb
      refine ⟨by simp only [List.length_cons]; omega, ?_, by simp only [List.length_cons]; omega,
        ?_, ?_⟩
      · simp only [List.flatMap_cons, List.length_append]; omega
      · rw [e4]
        have : ¬ 0x80 ≤ b.val := by omega
        simp [this]
      · intro b' tl hcons _
        simp only [List.cons.injEq] at hcons
        obtain ⟨-, rfl⟩ := hcons
        exact e3
    · rename_i hb
      simp only [Prod.mk.injEq] at h
      obtain ⟨rfl, rfl, rfl⟩ := h
      refine ⟨rfl, rfl, le_refl _, rfl, ?_⟩
      intro b' tl hcons hb'
      simp only [List.cons.injEq] at hcons
      obtain ⟨rfl, rfl⟩ := hcons
      exact absurd hb' hb

theorem getISOLatin1ToUtf8_RequiredLength_loop_eq :
    ∀ (fuel : Nat) (rest : List Byte) (i numOut needToTranscode : Nat), rest.length ≤ fuel →
    getISOLatin1ToUtf8_RequiredLength.loop fuel rest i numOut needToTranscode
      = ⟨0, i + rest.length, numOut + (rest.flatMap (storedFor latin1Table)).length,
          if rest.any (fun b => decide (0x80 ≤ b.val)) then 1 else needToTranscode⟩ := by
  intro fuel
  induction fuel with
  | zero =>
    intro rest i numOut ntt h
    cases rest with
    | nil => simp [getISOLatin1ToUtf8_RequiredLength.loop]
    | cons b rest => simp at h
  | succ fuel ih =>
    intro rest i numOut ntt hfuel
    cases rest with
    | nil => simp [getISOLatin1ToUtf8_RequiredLength.loop]
    | cons b rest =>
      simp only [List.length_cons] at hfuel
      simp only [getISOLatin1ToUtf8_RequiredLength.loop]
      by_cases hb : b.val ≥ 0x80
      · simp only [hb, if_true]
        rcases hs : skipAscii rest (i + 1) (numOut + 2) with ⟨rest2, i2, numOut2⟩
        obtain ⟨e1, e2, e3, e4, -⟩ := skipAscii_spec latin1Table rest (i + 1) (numOut + 2)
          rest2 i2 numOut2 hs
        have hl : (storedFor latin1Table b).length = 2 := by
          have hb' : ¬ b.val < 0x80 := by omega
          have h8 : b.val < 0x800 := by have := b.isLt; omega
          simp only [storedFor, hb', if_false, latin1Table_getD b hb, h8, if_true,
            List.length_cons, List.length_nil]
        simp only
        rw [ih rest2 i2 numOut2 1 (by omega)]
        simp only [List.length_cons, List.flatMap_cons, List.length_append, List.any_cons,
          ProbeResult.mk.injEq, true_and]
        refine ⟨by omega, by omega, ?_⟩
        have : decide (0x80 ≤ b.val) = true := by simpa using hb
        simp [this]
      · simp only [hb, if_false]
        rcases hs : skipAscii (b :: rest) i numOut with ⟨rest2, i2, numOut2⟩
        obtain ⟨e1, e2, e3, e4, e5⟩ := skipAscii_spec latin1Table (b :: rest) i numOut
          rest2 i2 numOut2 hs
        have hprog := e5 b rest rfl (by omega)
        simp only
        rw [ih rest2 i2 numOut2 ntt (by omega), e4]
        simp only [ProbeResult.mk.injEq, true_and, and_true]
        exact ⟨e1, e2⟩

/-- Any fuel that covers the input length gives the result of
`getISOLatin1ToUtf8_RequiredLength`. -/
theorem getISOLatin1ToUtf8_RequiredLength_fuel_irrelevant (fuel : Nat) (s : List Byte)
    (h : s.length ≤ fuel) :
    getISOLatin1ToUtf8_RequiredLength.loop fuel s 0 0 0
      = getISOLatin1ToUtf8_RequiredLength (some s) := by
  rw [getISOLatin1ToUtf8_RequiredLength_loop_eq fuel s 0 0 0 h]
  exact (getISOLatin1ToUtf8_RequiredLength_loop_eq s.length s 0 0 0 (le_refl _)).symm

set_option maxRecDepth 100000 in
theorem xmlunicodetable_ISO8859_15_nonzero : ∀ b : Byte, ¬ b.val < 0x80 →
    xmlunicodetable_ISO8859_15.getD (b.val - 0x80) 0 ≠ 0 := by
  decide

theorem getISO8859_15ToUTF8RequiredLength_loop_eq :
    ∀ (fuel : Nat) (rest : List Byte) (i numOut needToTranscode : Nat), rest.length ≤ fuel →
    getISO8859_15ToUTF8RequiredLength.loop fuel rest i numOut needToTranscode
      = ⟨0, i + rest.length,
          numOut + (rest.flatMap (storedFor xmlunicodetable_ISO8859_15)).length,
          if rest.any (fun b => decide (0x80 ≤ b.val)) then 1 else needToTranscode⟩ := by
  intro fuel
  induction fuel with
  | zero =>
    intro rest i numOut ntt h
    cases rest with
    | nil => simp [getISO8859_15ToUTF8RequiredLength.loop]
    | cons b rest => simp at h
  | succ fuel ih =>
    intro rest i numOut ntt hfuel
    cases rest with
    | nil => simp [getISO8859_15ToUTF8RequiredLength.loop]
    | cons b rest =>
      simp only [List.length_cons] at hfuel
      simp only [getISO8859_15ToUTF8RequiredLength.loop]
      by_cases hb : b.val ≥ 0x80
      · have hb' : ¬ b.val < 0x80 := by omega
        simp only [hb, if_true, xmlunicodetable_ISO8859_15_nonzero b hb', if_false]
        rcases hs : skipAscii rest (i + 1)
          (if xmlunicodetable_ISO8859_15.getD (b.val - 0x80) 0 < 0x800 then numOut + 2
            else numOut + 3) with ⟨rest2, i2, numOut2⟩
        obtain ⟨e1, e2, e3, e4, -⟩ := skipAscii_spec xmlunicodetable_ISO8859_15 rest (i + 1) _
          rest2 i2 numOut2 hs
        have hl : (if xmlunicodetable_ISO8859_15.getD (b.val - 0x80) 0 < 0x800 then numOut + 2
            else numOut + 3) = numOut + (storedFor xmlunicodetable_ISO8859_15 b).length := by
          simp only [storedFor, hb', if_false]
          split <;> simp
        rw [hl] at e2
        simp only
        rw [ih rest2 i2 numOut2 1 (by omega)]
        simp only [List.length_cons, List.flatMap_cons, List.length_append, List.any_cons,
          ProbeResult.mk.injEq, true_and]
        refine ⟨by omega, by omega, ?_⟩
        have : decide (0x80 ≤ b.val) = true := by simpa using hb
        simp [this]
      · simp only [hb, if_false]
        rcases hs : skipAscii (b :: rest) i numOut with ⟨rest2, i2, numOut2⟩
        obtain ⟨e1, e2, e3, e4, e5⟩ := skipAscii_spec xmlunicodetable_ISO8859_15 (b :: rest) i
          numOut rest2 i2 numOut2 hs
        have hprog := e5 b rest rfl (by omega)
        simp only
        rw [ih rest2 i2 numOut2 ntt (by omega), e4]
        simp only [ProbeResult.mk.injEq, true_and, and_true]
        exact ⟨e1, e2⟩

/-- Any fuel that covers the input length gives the result of
`getISO8859_15ToUTF8RequiredLength`. -/
theorem getISO8859_15ToUTF8RequiredLength_fuel_irrelevant (fuel : Nat) (s : List Byte)
    (h : s.length ≤ fuel) :
    getISO8859_15ToUTF8RequiredLength.loop fuel s 0 0 0
      = getISO8859_15ToUTF8RequiredLength s := by
  rw [getISO8859_15ToUTF8RequiredLength_loop_eq fuel s 0 0 0 h]
  exact (getISO8859_15ToUTF8RequiredLength_loop_eq s.length s 0 0 0 (le_refl _)).symm

/-! ## The Latin-9 probe against `UTF8ToISO8859x` -/

theorem latin9_probe_loop_parity : ∀ (fuel : Nat) (rest : List Byte)
    (i : Nat) (out : List Byte) (needToTranscode : Nat),
    (getUTF8ToISO8859_15RequiredLength.loop fuel rest i out.length needToTranscode).status
      = (UTF8ToISO8859x.loop xmltranscodetable_ISO8859_15 fuel rest i out).status ∧
    (getUTF8ToISO8859_15RequiredLength.loop fuel rest i out.length needToTranscode).inlen
      = (UTF8ToISO8859x.loop xmltranscodetable_ISO8859_15 fuel rest i out).inlen ∧
    (getUTF8ToISO8859_15RequiredLength.loop fuel rest i out.length needToTranscode).outlen
      = (UTF8ToISO8859x.loop xmltranscodetable_ISO8859_15 fuel rest i out).out.length := by
  intro fuel
  induction fuel with
  | zero =>
    intro rest i out ntt
    cases rest <;> simp [getUTF8ToISO8859_15RequiredLength.loop, UTF8ToISO8859x.loop]
  | succ fuel ih =>
    intro rest i out ntt
    have e : ∀ b : Byte, out.length + 1 = (out ++ [b]).length := by simp
    cases rest with
    | nil => simp [getUTF8ToISO8859_15RequiredLength.loop, UTF8ToISO8859x.loop]
    | cons d rest =>
      simp only [getUTF8ToISO8859_15RequiredLength.loop, UTF8ToISO8859x.loop]
      by_cases h1 : d.val < 0x80
      · simp only [h1, if_true]
        rw [e d]
        exact ih rest _ _ _
      · simp only [h1, if_false]
        by_cases h2 : d.val < 0xC0
        · simp [h2]
        · simp only [h2, if_false]
          by_cases h3 : d.val < 0xE0
          · simp only [h3, if_true]
            cases rest with
            | nil => simp
            | cons c rest =>
              simp only
              by_cases h4 : c.val &&& 0xC0 ≠ 0x80
              · simp [h4]
              · simp only [h4, if_false]
                split
                · simp
                · rw [e]
                  exact ih rest _ _ _
          · simp only [h3, if_false]
            by_cases h5 : d.val < 0xF0
            · simp only [h5, if_true]
              match rest with
              | [] => simp
              | [c1] => simp
              | c1 :: c2 :: rest =>
                simp only
                by_cases h6 : c1.val &&& 0xC0 ≠ 0x80
                · simp [h6]
                · simp only [h6, if_false]
                  by_cases h7 : c2.val &&& 0xC0 ≠ 0x80
                  · simp [h7]
                  · simp only [h7, if_false]
                    split
                    · simp
                    · rw [e]
                      exact ih rest _ _ _
            · simp [h5]

/-! ## Decoding a shortest-form sequence -/

set_option maxRecDepth 100000 in
theorem leading_ascii : ∀ x : Fin 128, leading (toByte x.val).val = some (x.val, 0) := by
  decide

set_option maxRecDepth 100000 in
theorem leading_two : ∀ x : Fin 32, leading (toByte (0xC0 ||| x.val)).val = some (x.val, 1) := by
  decide

set_option maxRecDepth 100000 in
theorem leading_three : ∀ x : Fin 16,
    leading (toByte (0xE0 ||| x.val)).val = some (x.val, 2) := by
  decide

set_option maxRecDepth 100000 in
theorem leading_four : ∀ x : Fin 8, leading (toByte (0xF0 ||| x.val)).val = some (x.val, 3) := by
  decide

set_option maxRecDepth 100000 in
theorem continuation_byte : ∀ y : Fin 64,
    (toByte (0x80 ||| y.val)).val &&& 0xC0 = 0x80 ∧ (toByte (0x80 ||| y.val)).val &&& 0x3F = y.val := by
  decide

theorem shift_or (c y : Nat) (hy : y < 64) : (c <<< 6) ||| y = c * 64 + y := by
  rw [Nat.shiftLeft_eq, Nat.mul_comm]
  exact (Nat.mul_add_lt_is_or (by simpa using hy) c).symm

theorem and_63 (c : Nat) : c &&& 0x3F = c % 64 := Nat.and_pow_two_sub_one_eq_mod c 6

theorem readTrailing_continuation (trailing c y : Nat) (hy : y < 64) (rest : List Byte)
    (i : Nat) :
    readTrailing (trailing + 1) c (toByte (0x80 ||| y) :: rest) i
      = readTrailing trailing (c * 64 + y) rest (i + 1) := by
  obtain ⟨h1, h2⟩ := continuation_byte ⟨y, hy⟩
  simp only at h1 h2
  simp only [readTrailing, h1, ne_eq, not_true_eq_false, if_false, h2, shift_or c y hy]

/-- Reading back the shortest form of `c`: the leading byte announces the continuation bytes
that follow it, and the `for` loop rebuilds `c` from them. -/
theorem decode_utf8Encode (c : Nat) (hc : c ≤ 0x10FFFF) (rest : List Byte) (i : Nat) :
    ∃ d tl c0, utf8Encode c = d :: tl ∧ leading d.val = some (c0, tl.length) ∧
      readTrailing tl.length c0 (tl ++ rest) i = some (c, rest, i + tl.length) := by
  unfold utf8Encode
  by_cases h1 : c < 0x80
  · refine ⟨toByte c, [], c, by simp [h1], ?_, by simp [readTrailing]⟩
    exact leading_ascii ⟨c, h1⟩
  · by_cases h2 : c < 0x800
    · refine ⟨_, _, c >>> 6, by simp only [h1, h2, if_true, if_false]; rfl, ?_, ?_⟩
      · have hx : c >>> 6 < 32 := by rw [Nat.shiftRight_eq_div_pow]; omega
        exact leading_two ⟨c >>> 6, hx⟩
      · simp only [List.length_singleton, List.singleton_append]
        rw [readTrailing_continuation 0 _ _ (by rw [and_63]; omega)]
        simp only [readTrailing, Option.some.injEq, Prod.mk.injEq, and_true]
        rw [and_63, Nat.shiftRight_eq_div_pow]
        omega
    · by_cases h3 : c < 0x10000
      · refine ⟨_, _, c >>> 12, by simp only [h1, h2, h3, if_true, if_false]; rfl, ?_, ?_⟩
        · have hx : c >>> 12 < 16 := by rw [Nat.shiftRight_eq_div_pow]; omega
          exact leading_three ⟨c >>> 12, hx⟩
        · simp only [List.length_cons, List.length_nil, List.cons_append, List.nil_append]
          rw [readTrailing_continuation 1 _ _ (by rw [and_63]; omega),
            readTrailing_continuation 0 _ _ (by rw [and_63]; omega)]
          simp only [readTrailing, Option.some.injEq, Prod.mk.injEq, and_true]
          rw [and_63, and_63, Nat.shiftRight_eq_div_pow, Nat.shiftRight_eq_div_pow]
          omega
      · refine ⟨_, _, c >>> 18, by simp only [h1, h2, h3, if_false]; rfl, ?_, ?_⟩
        · have hx : c >>> 18 < 8 := by rw [Nat.shiftRight_eq_div_pow]; omega
          exact leading_four ⟨c >>> 18, hx⟩
        · simp only [List.length_cons, List.length_nil, List.cons_append, List.nil_append]
          rw [readTrailing_continuation 2 _ _ (by rw [and_63]; omega),
            readTrailing_continuation 1 _ _ (by rw [and_63]; omega),
            readTrailing_continuation 0 _ _ (by rw [and_63]; omega)]
          simp only [readTrailing, Option.some.injEq, Prod.mk.injEq, and_true]
          rw [and_63, and_63, and_63, Nat.shiftRight_eq_div_pow, Nat.shiftRight_eq_div_pow,
            Nat.shiftRight_eq_div_pow]
          omega

/-! ## `UTF8Toisolat1` and `utf8ToCp1252` on shortest-form input -/

theorem utf8Encode_length_pos (c : Nat) : 1 ≤ (utf8Encode c).length := by
  unfold utf8Encode
  split
  · simp
  · split
    · simp
    · split <;> simp

theorem length_le_flatMap_utf8Encode (cps : List Nat) :
    cps.length ≤ (cps.flatMap utf8Encode).length := by
  induction cps with
  | nil => simp
  | cons c cps ih =>
    have := utf8Encode_length_pos c
    simp only [List.length_cons, List.flatMap_cons, List.length_append]
    omega

theorem UTF8Toisolat1_loop_step (outlen fuel c : Nat) (hc : c ≤ 0x10FFFF) (rest : List Byte)
    (i processed : Nat) (out : List Byte) (ho : out.length < outlen) :
    UTF8Toisolat1.loop outlen (fuel + 1) (utf8Encode c ++ rest) i processed out
      = UTF8Toisolat1.loop outlen fuel rest (i + (utf8Encode c).length)
          (i + (utf8Encode c).length) (out ++ [latin1Byte c]) := by
  obtain ⟨d, tl, c0, he, hl, hr⟩ := decode_utf8Encode c hc rest (i + 1)
  have hlen : ¬ (tl ++ rest).length < tl.length := by simp
  have ho' : ¬ out.length ≥ outlen := by omega
  have hi : i + 1 + tl.length = i + (tl.length + 1) := by omega
  rw [he, List.cons_append]
  simp only [UTF8Toisolat1.loop, hl, hlen, if_false, hr, ho', latin1Byte,
    List.length_cons, hi]
  split <;> rfl

theorem UTF8Toisolat1_loop_encoded (outlen : Nat) : ∀ (cps : List Nat) (fuel i : Nat)
    (out : List Byte), (∀ c ∈ cps, c ≤ 0x10FFFF) → cps.length ≤ fuel →
    out.length + cps.length ≤ outlen →
    UTF8Toisolat1.loop outlen fuel (cps.flatMap utf8Encode) i i out
      = ⟨0, i + (cps.flatMap utf8Encode).length, out ++ cps.map latin1Byte⟩ := by
  intro cps
  induction cps with
  | nil =>
    intro fuel i out _ _ _
    cases fuel <;> simp [UTF8Toisolat1.loop]
  | cons c cps ih =>
    intro fuel i out hcps hfuel hcap
    simp only [List.length_cons] at hfuel hcap
    obtain ⟨fuel, rfl⟩ : ∃ f, fuel = f + 1 := ⟨fuel - 1, by omega⟩
    simp only [List.flatMap_cons]
    rw [UTF8Toisolat1_loop_step outlen fuel c (hcps c (by simp)) _ i i out (by omega),
      ih fuel _ _ (fun c' h => hcps c' (by simp [h])) (by omega)
        (by simp only [List.length_append, List.length_singleton]; omega)]
    simp only [List.length_append, List.map_cons, List.append_assoc, List.singleton_append,
      Result.mk.injEq, and_true, true_and]
    omega

theorem utf8ToCp1252_loop_step (outlen fuel c : Nat) (hc : c ≤ 0x10FFFF) (rest : List Byte)
    (i processed : Nat) (out : List Byte) (ho : out.length < outlen) :
    utf8ToCp1252.loop outlen (fuel + 1) (utf8Encode c ++ rest) i processed out
      = utf8ToCp1252.loop outlen fuel rest (i + (utf8Encode c).length)
          (i + (utf8Encode c).length)
          (out ++ [if c ≤ 0xFF then toByte c else toByte (cp1252Subs c)]) := by
  obtain ⟨d, tl, c0, he, hl, hr⟩ := decode_utf8Encode c hc rest (i + 1)
  have hlen : ¬ (tl ++ rest).length < tl.length := by simp
  have ho' : ¬ out.length ≥ outlen := by omega
  have hi : i + 1 + tl.length = i + (tl.length + 1) := by omega
  rw [he, List.cons_append]
  simp only [utf8ToCp1252.loop, hl, hlen, if_false, hr, ho',
    List.length_cons, hi]
  split <;> rfl

theorem lookup_cons_ite (c k v : Nat) (l : List (Nat × Nat)) :
    List.lookup c ((k, v) :: l) = if c = k then some v else List.lookup c l := by
  by_cases h : c = k
  · simp [List.lookup, h]
  · have : (c == k) = false := by simpa using h
    simp [List.lookup, h, this]

theorem getD_ite (p : Prop) [Decidable p] (a b : Option Nat) :
    (if p then a else b).getD 0xBF = if p then a.getD 0xBF else b.getD 0xBF := by
  split <;> rfl

theorem cp1252Subs_eq_lookup (c : Nat) : cp1252Subs c = (cp1252Map.lookup c).getD 0xBF := by
  unfold cp1252Subs cp1252Map
  simp only [lookup_cons_ite, List.lookup_nil, getD_ite, Option.getD_some, Option.getD_none]

set_option maxRecDepth 100000 in
theorem cp1252Map_facts :
    cp1252Map.length = 27 ∧
    (∀ p ∈ cp1252Map, ∀ q ∈ cp1252Map, p.1 = q.1 → p = q) ∧
    (∀ p ∈ cp1252Map, ∀ q ∈ cp1252Map, p.2 = q.2 → p = q) ∧
    (∀ p ∈ cp1252Map, 0x100 ≤ p.1 ∧ p.1 ≤ 0xFFFF ∧ 0x80 ≤ p.2 ∧ p.2 ≤ 0x9F) := by
  decide

/-! ## Latin-1 to UTF-8 against the reference encoding -/

set_option maxRecDepth 100000 in
theorem latin1_bytes : ∀ b : Byte,
    toByte (((b.val >>> 6) &&& 0x1F) ||| 0xC0) = toByte (0xC0 ||| (b.val >>> 6)) ∧
    toByte ((b.val &&& 0x3F) ||| 0x80) = toByte (0x80 ||| (b.val &&& 0x3F)) := by
  decide

theorem storedFor_latin1Table (b : Byte) : storedFor latin1Table b = latin1Encode b := by
  unfold storedFor latin1Encode
  by_cases hb : b.val < 0x80
  · simp only [hb, if_true]
  · have h8 : b.val < 0x800 := by have := b.isLt; omega
    simp only [hb, if_false, latin1Table_getD b (by omega), h8, if_true, (latin1_bytes b).1,
      (latin1_bytes b).2]

theorem flatMap_storedFor_latin1Table (s : List Byte) :
    s.flatMap (storedFor latin1Table) = latin1EncodeAll s := by
  have h : storedFor latin1Table = latin1Encode := funext storedFor_latin1Table
  rw [h, latin1EncodeAll]

theorem latin1Table_nonzero : ∀ b : Byte, ¬ b.val < 0x80 →
    latin1Table.getD (b.val - 0x80) 0 ≠ 0 := by
  intro b hb
  rw [latin1Table_getD b (by omega)]
  omega

/-- The run of `isolat1ToUTF8`, for every capacity: the input prefix it serves, the bytes it
stores for that prefix, and the maximality of the prefix. -/
theorem isolat1ToUTF8_spec (outlen : Nat) (s : List Byte) : ∃ m, m ≤ s.length ∧
    isolat1ToUTF8 outlen s = ⟨0, m, latin1EncodeAll (s.take m)⟩ ∧
    (latin1EncodeAll (s.take m)).length ≤ outlen ∧
    ∀ m', m' ≤ s.length → (latin1EncodeAll (s.take m')).length ≤ outlen → m' ≤ m := by
  obtain ⟨m, hm, heq, hmax⟩ := bytewise_spec latin1Table outlen latin1Table_nonzero s 0 []
  simp only [Nat.zero_add, List.nil_append, List.length_nil, flatMap_storedFor_latin1Table]
    at heq hmax
  refine ⟨m, hm, by rw [isolat1ToUTF8_eq_bytewise, heq], ?_, hmax⟩
  have hfit : ∀ (rest : List Byte) (i : Nat) (out : List Byte), out.length ≤ outlen →
      (bytewise latin1Table outlen rest i out).out.length ≤ outlen := by
    intro rest
    induction rest with
    | nil => intro i out ho; simpa [bytewise] using ho
    | cons b rest ih =>
      intro i out ho
      by_cases hb : b.val < 0x80
      · rw [bytewise_cons_ascii _ _ _ _ _ _ hb]
        split
        · apply ih
          have := (storedFor_length latin1Table b).1 hb
          simp only [List.length_append]
          omega
        · exact ho
      · rw [bytewise_cons_high _ _ _ _ _ _ hb (latin1Table_nonzero b hb)]
        split
        · apply ih
          have : (storedFor latin1Table b).length = 2 := by
            rw [storedFor_latin1Table]
            simp [latin1Encode, hb]
          simp only [List.length_append]
          omega
        · exact ho
  have := hfit s 0 [] (by simp)
  rw [heq] at this
  exact this

/-! ## Runs of `UTF8ToISO8859x` over a concatenation -/

/-- The run of `UTF8ToISO8859x.loop` from the offset `i` with `out` stored is the run from
offset 0 with nothing stored, moved by `i` and `out`. -/
theorem UTF8ToISO8859x_loop_shift (xlattable : List Nat) : ∀ (fuel : Nat) (s : List Byte)
    (i : Nat) (out : List Byte),
    UTF8ToISO8859x.loop xlattable fuel s i out
      = ⟨(UTF8ToISO8859x.loop xlattable fuel s 0 []).status,
          i + (UTF8ToISO8859x.loop xlattable fuel s 0 []).inlen,
          out ++ (UTF8ToISO8859x.loop xlattable fuel s 0 []).out⟩ := by
  intro fuel
  induction fuel with
  | zero => intro s i out; cases s <;> simp [UTF8ToISO8859x.loop]
  | succ fuel ih =>
    intro s i out
    cases s with
    | nil => simp [UTF8ToISO8859x.loop]
    | cons d rest =>
      have step : ∀ (tl : List Byte) (n : Nat) (b : Byte),
          UTF8ToISO8859x.loop xlattable fuel tl (i + n) (out ++ [b])
            = ⟨(UTF8ToISO8859x.loop xlattable fuel tl (0 + n) ([] ++ [b])).status,
                i + (UTF8ToISO8859x.loop xlattable fuel tl (0 + n) ([] ++ [b])).inlen,
                out ++ (UTF8ToISO8859x.loop xlattable fuel tl (0 + n) ([] ++ [b])).out⟩ := by
        intro tl n b
        rw [ih tl (i + n) (out ++ [b]), ih tl (0 + n) ([] ++ [b])]
        simp only [List.nil_append, List.append_assoc, Result.mk.injEq, and_true, true_and]
        omega
      simp only [UTF8ToISO8859x.loop]
      by_cases h1 : d.val < 0x80
      · simp only [h1, if_true]
        exact step rest 1 d
      · simp only [h1, if_false]
        by_cases h2 : d.val < 0xC0
        · simp [h2]
        · simp only [h2, if_false]
          by_cases h3 : d.val < 0xE0
          · simp only [h3, if_true]
            cases rest with
            | nil => simp
            | cons c rest =>
              simp only
              by_cases h4 : c.val &&& 0xC0 ≠ 0x80
              · simp [h4]
              · simp only [h4, if_false]
                split
                · simp
                · exact step rest 2 _
          · simp only [h3, if_false]
            by_cases h5 : d.val < 0xF0
            · simp only [h5, if_true]
              match rest with
              | [] => simp
              | [c1] => simp
              | c1 :: c2 :: rest =>
                simp only
                by_cases h6 : c1.val &&& 0xC0 ≠ 0x80
                · simp [h6]
                · simp only [h6, if_false]
                  by_cases h7 : c2.val &&& 0xC0 ≠ 0x80
                  · simp [h7]
                  · simp only [h7, if_false]
                    split
                    · simp
                    · exact step rest 3 _
            · simp [h5]

/-- A run of `UTF8ToISO8859x.loop` that accepts the whole of `pre` goes on, when `rest` follows
`pre`, with the run over `rest` from the state it reached. -/
theorem UTF8ToISO8859x_loop_append (xlattable : List Nat) (rest : List Byte) :
    ∀ (n : Nat) (pre : List Byte), pre.length ≤ n →
    ∀ (f f' i : Nat) (out o : List Byte), pre.length ≤ f → (pre ++ rest).length ≤ f' →
    UTF8ToISO8859x.loop xlattable f pre i out = ⟨0, i + pre.length, o⟩ →
    UTF8ToISO8859x.loop xlattable f' (pre ++ rest) i out
      = UTF8ToISO8859x.loop xlattable rest.length rest (i + pre.length) o := by
  intro n
  induction n with
  | zero =>
    intro pre hn f f' i out o _ hf' h
    obtain rfl : pre = [] := List.length_eq_zero.mp (by omega)
    have ho : out = o := by cases f <;> simpa [UTF8ToISO8859x.loop] using h
    subst ho
    simpa using UTF8ToISO8859x_fuel xlattable f' rest.length rest i out
      (by simpa using hf') (le_refl _)
  | succ n ih =>
    intro pre hn f f' i out o hf hf' h
    cases pre with
    | nil =>
      have ho : out = o := by cases f <;> simpa [UTF8ToISO8859x.loop] using h
      subst ho
      simpa using UTF8ToISO8859x_fuel xlattable f' rest.length rest i out
        (by simpa using hf') (le_refl _)
    | cons d pre =>
      simp only [List.length_cons, List.cons_append, List.length_append] at hn hf hf' h ⊢
      obtain ⟨f, rfl⟩ : ∃ g, f = g + 1 := ⟨f - 1, by omega⟩
      obtain ⟨f', rfl⟩ : ∃ g, f' = g + 1 := ⟨f' - 1, by omega⟩
      simp only [UTF8ToISO8859x.loop] at h ⊢
      by_cases h1 : d.val < 0x80
      · simp only [h1, if_true] at h ⊢
        rw [ih pre (by omega) f f' (i + 1) _ o (by omega)
          (by simp only [List.length_append]; omega)
          (by rw [h]; simp only [Result.mk.injEq, and_true, true_and]; omega)]
        congr 1
        omega
      · simp only [h1, if_false] at h ⊢
        by_cases h2 : d.val < 0xC0
        · simp [h2] at h
        · simp only [h2, if_false] at h ⊢
          by_cases h3 : d.val < 0xE0
          · simp only [h3, if_true] at h ⊢
            cases pre with
            | nil => simp at h
            | cons c pre =>
              simp only [List.length_cons, List.cons_append] at hn hf hf' h ⊢
              by_cases h4 : c.val &&& 0xC0 ≠ 0x80
              · simp [h4] at h
              · simp only [h4, if_false] at h ⊢
                split at h
                · simp at h
                · rename_i h0
                  simp only [h0, if_false]
                  rw [ih pre (by omega) f f' (i + 2) _ o (by omega)
                    (by simp only [List.length_append]; omega)
                    (by rw [h]; simp only [Result.mk.injEq, and_true, true_and]; omega)]
                  congr 1
                  omega
          · simp only [h3, if_false] at h ⊢
            by_cases h5 : d.val < 0xF0
            · simp only [h5, if_true] at h ⊢
              match pre, hn, hf, hf', h with
              | [], _, _, _, h => simp at h
              | [c1], _, _, _, h => simp at h
              | c1 :: c2 :: pre, hn, hf, hf', h =>
                simp only [List.length_cons, List.cons_append] at hn hf hf' h ⊢
                by_cases h6 : c1.val &&& 0xC0 ≠ 0x80
                · simp [h6] at h
                · simp only [h6, if_false] at h ⊢
                  by_cases h7 : c2.val &&& 0xC0 ≠ 0x80
                  · simp [h7] at h
                  · simp only [h7, if_false] at h ⊢
                    split at h
                    · simp at h
                    · rename_i h0
                      simp only [h0, if_false]
                      rw [ih pre (by omega) f f' (i + 3) _ o (by omega)
                        (by simp only [List.length_append]; omega)
                        (by rw [h]; simp only [Result.mk.injEq, and_true, true_and]; omega)]
                      congr 1
                      omega
            · simp [h5] at h

/-! ## Runs of `UTF8Toisolat1` and `utf8ToCp1252` over a concatenation -/

theorem readTrailing_append (b : List Byte) : ∀ (trailing c : Nat) (a : List Byte) (i : Nat),
    trailing ≤ a.length →
    readTrailing trailing c (a ++ b) i
      = (readTrailing trailing c a i).map (fun x => (x.1, x.2.1 ++ b, x.2.2)) := by
  intro trailing
  induction trailing with
  | zero => intro c a i _; simp [readTrailing]
  | succ t ih =>
    intro c a i h
    cases a with
    | nil => simp at h
    | cons d a =>
      simp only [List.cons_append, readTrailing]
      split
      · rfl
      · exact ih _ a (i + 1) (by simpa using h)

/-- A run of `UTF8Toisolat1.loop` that accepts the whole of `pre` goes on, when `rest` follows
`pre`, with the run over `rest` from the state it reached. -/
theorem UTF8Toisolat1_loop_append (outlen : Nat) (rest : List Byte) :
    ∀ (n : Nat) (pre : List Byte), pre.length ≤ n →
    ∀ (f f' i : Nat) (out o : List Byte), pre.length ≤ f → (pre ++ rest).length ≤ f' →
    UTF8Toisolat1.loop outlen f pre i i out = ⟨0, i + pre.length, o⟩ →
    UTF8Toisolat1.loop outlen f' (pre ++ rest) i i out
      = UTF8Toisolat1.loop outlen rest.length rest (i + pre.length) (i + pre.length) o := by
  intro n
  induction n with
  | zero =>
    intro pre hn f f' i out o _ hf' h
    obtain rfl : pre = [] := List.length_eq_zero.mp (by omega)
    have ho : out = o := by cases f <;> simpa [UTF8Toisolat1.loop] using h
    subst ho
    simpa using UTF8Toisolat1_fuel outlen f' rest.length rest i i out
      (by simpa using hf') (le_refl _)
  | succ n ih =>
    intro pre hn f f' i out o hf hf' h
    cases pre with
    | nil =>
      have ho : out = o := by cases f <;> simpa [UTF8Toisolat1.loop] using h
      subst ho
      simpa using UTF8Toisolat1_fuel outlen f' rest.length rest i i out
        (by simpa using hf') (le_refl _)
    | cons d pre =>
      simp only [List.length_cons, List.cons_append, List.length_append] at hn hf hf' h ⊢
      obtain ⟨f, rfl⟩ : ∃ g, f = g + 1 := ⟨f - 1, by omega⟩
      obtain ⟨f', rfl⟩ : ∃ g, f' = g + 1 := ⟨f' - 1, by omega⟩
      simp only [UTF8Toisolat1.loop] at h ⊢
      cases hl : leading d.val with
      | none => simp [hl] at h
      | some ct =>
        obtain ⟨c, trailing⟩ := ct
        simp only [hl] at h ⊢
        by_cases hlen : pre.length < trailing
        · simp only [hlen, if_true, Result.mk.injEq, true_and] at h
          omega
        · have hlen' : ¬ (pre ++ rest).length < trailing := by
            simp only [List.length_append]; omega
          simp only [hlen, if_false] at h
          simp only [hlen', if_false]
          rw [readTrailing_append rest trailing c pre (i + 1) (by omega)]
          cases hr : readTrailing trailing c pre (i + 1) with
          | none => simp [hr] at h
          | some x =>
            obtain ⟨c', pre', i'⟩ := x
            obtain ⟨e1, e2⟩ := readTrailing_length trailing c pre (i + 1) c' pre' i'
              (by omega) hr
            simp only [hr, Option.map_some'] at h ⊢
            by_cases hout : out.length ≥ outlen
            · simp only [hout, if_true, ite_self, Result.mk.injEq, true_and] at h
              omega
            · simp only [hout, if_false] at h ⊢
              have key : ∀ b : Byte,
                  UTF8Toisolat1.loop outlen f pre' i' i' (out ++ [b])
                    = ⟨0, i + (pre.length + 1), o⟩ →
                  UTF8Toisolat1.loop outlen f' (pre' ++ rest) i' i' (out ++ [b])
                    = UTF8Toisolat1.loop outlen rest.length rest (i + (pre.length + 1))
                        (i + (pre.length + 1)) o := by
                intro b hb
                have e3 : i + (pre.length + 1) = i' + pre'.length := by omega
                rw [e3] at hb ⊢
                exact ih pre' (by omega) f f' i' _ o (by omega)
                  (by simp only [List.length_append]; omega) hb
              split at h
              · rename_i hc
                simp only [hc, if_true]
                exact key _ h
              · rename_i hc
                simp only [hc, if_false]
                exact key _ h

/-- A run of `utf8ToCp1252.loop` that accepts the whole of `pre` goes on, when `rest` follows
`pre`, with the run over `rest` from the state it reached. -/
theorem utf8ToCp1252_loop_append (outlen : Nat) (rest : List Byte) :
    ∀ (n : Nat) (pre : List Byte), pre.length ≤ n →
    ∀ (f f' i : Nat) (out o : List Byte), pre.length ≤ f → (pre ++ rest).length ≤ f' →
    utf8ToCp1252.loop outlen f pre i i out = ⟨0, i + pre.length, o⟩ →
    utf8ToCp1252.loop outlen f' (pre ++ rest) i i out
      = utf8ToCp1252.loop outlen rest.length rest (i + pre.length) (i + pre.length) o := by
  intro n
  induction n with
  | zero =>
    intro pre hn f f' i out o _ hf' h
    obtain rfl : pre = [] := List.length_eq_zero.mp (by omega)
    have ho : out = o := by cases f <;> simpa [utf8ToCp1252.loop] using h
    subst ho
    simpa using utf8ToCp1252_fuel outlen f' rest.length rest i i out
      (by simpa using hf') (le_refl _)
  | succ n ih =>
    intro pre hn f f' i out o hf hf' h
    cases pre with
    | nil =>
      have ho : out = o := by cases f <;> simpa [utf8ToCp1252.loop] using h
      subst ho
      simpa using utf8ToCp1252_fuel outlen f' rest.length rest i i out
        (by simpa using hf') (le_refl _)
    | cons d pre =>
      simp only [List.length_cons, List.cons_append, List.length_append] at hn hf hf' h ⊢
      obtain ⟨f, rfl⟩ : ∃ g, f = g + 1 := ⟨f - 1, by omega⟩
      obtain ⟨f', rfl⟩ : ∃ g, f' = g + 1 := ⟨f' - 1, by omega⟩
      simp only [utf8ToCp1252.loop] at h ⊢
      cases hl : leading d.val with
      | none => simp [hl] at h
      | some ct =>
        obtain ⟨c, trailing⟩ := ct
        simp only [hl] at h ⊢
        by_cases hlen : pre.length < trailing
        · simp only [hlen, if_true, Result.mk.injEq, true_and] at h
          omega
        · have hlen' : ¬ (pre ++ rest).length < trailing := by
            simp only [List.length_append]; omega
          simp only [hlen, if_false] at h
          simp only [hlen', if_false]
          rw [readTrailing_append rest trailing c pre (i + 1) (by omega)]
          cases hr : readTrailing trailing c pre (i + 1) with
          | none => simp [hr] at h
          | some x =>
            obtain ⟨c', pre', i'⟩ := x
            obtain ⟨e1, e2⟩ := readTrailing_length trailing c pre (i + 1) c' pre' i'
              (by omega) hr
            simp only [hr, Option.map_some'] at h ⊢
            by_cases hout : out.length ≥ outlen
            · simp only [hout, if_true, ite_self, Result.mk.injEq, true_and] at h
              omega
            · simp only [hout, if_false] at h ⊢
              have key : ∀ b : Byte,
                  utf8ToCp1252.loop outlen f pre' i' i' (out ++ [b])
                    = ⟨0, i + (pre.length + 1), o⟩ →
                  utf8ToCp1252.loop outlen f' (pre' ++ rest) i' i' (out ++ [b])
                    = utf8ToCp1252.loop outlen rest.length rest (i + (pre.length + 1))
                        (i + (pre.length + 1)) o := by
                intro b hb
                have e3 : i + (pre.length + 1) = i' + pre'.length := by omega
                rw [e3] at hb ⊢
                exact ih pre' (by omega) f f' i' _ o (by omega)
                  (by simp only [List.length_append]; omega) hb
              split at h
              · rename_i hc
                simp only [hc, if_true]
                exact key _ h
              · rename_i hc
                simp only [hc, if_false]
                exact key _ h

/-! ## Malformed and incomplete input -/

theorem leading_malformed (d : Byte)
    (h : (0x80 ≤ d.val ∧ d.val ≤ 0xBF) ∨ 0xF8 ≤ d.val) : leading d.val = none := by
  unfold leading
  have h1 : ¬ d.val < 0x80 := by omega
  by_cases h2 : d.val < 0xC0
  · simp [h1, h2]
  · have h3 : ¬ d.val < 0xE0 := by omega
    have h4 : ¬ d.val < 0xF0 := by omega
    have h5 : ¬ d.val < 0xF8 := by omega
    simp [h1, h2, h3, h4, h5]

theorem leading_declares (d : Byte) (h : 0xC0 ≤ d.val ∧ d.val ≤ 0xF7) :
    ∃ c, leading d.val
      = some (c, if d.val < 0xE0 then 1 else if d.val < 0xF0 then 2 else 3) := by
  unfold leading
  have h1 : ¬ d.val < 0x80 := by omega
  have h2 : ¬ d.val < 0xC0 := by omega
  simp only [h1, h2, if_false]
  by_cases h3 : d.val < 0xE0
  · exact ⟨_, by simp only [h3, if_true]; rfl⟩
  · by_cases h4 : d.val < 0xF0
    · exact ⟨_, by simp only [h3, h4, if_true, if_false]; rfl⟩
    · have h5 : d.val < 0xF8 := by omega
      exact ⟨_, by simp only [h3, h4, h5, if_true, if_false]; rfl⟩

theorem UTF8Toisolat1_after (outlen : Nat) (pre rest : List Byte)
    (h : (UTF8Toisolat1 outlen (some pre)).status = 0 ∧
      (UTF8Toisolat1 outlen (some pre)).inlen = pre.length) :
    UTF8Toisolat1 outlen (some (pre ++ rest))
      = UTF8Toisolat1.loop outlen rest.length rest pre.length pre.length
          (UTF8Toisolat1 outlen (some pre)).out := by
  have := UTF8Toisolat1_loop_append outlen rest pre.length pre (le_refl _) pre.length
    (pre ++ rest).length 0 [] (UTF8Toisolat1 outlen (some pre)).out (le_refl _) (le_refl _)
    (by
      show UTF8Toisolat1 outlen (some pre) = _
      rcases hr : UTF8Toisolat1 outlen (some pre) with ⟨st, il, o⟩
      rw [hr] at h
      simp only at h
      simp [h.1, h.2])
  simpa [UTF8Toisolat1] using this

theorem utf8ToCp1252_after (outlen : Nat) (pre rest : List Byte)
    (h : (utf8ToCp1252 outlen (some pre)).status = 0 ∧
      (utf8ToCp1252 outlen (some pre)).inlen = pre.length) :
    utf8ToCp1252 outlen (some (pre ++ rest))
      = utf8ToCp1252.loop outlen rest.length rest pre.length pre.length
          (utf8ToCp1252 outlen (some pre)).out := by
  have := utf8ToCp1252_loop_append outlen rest pre.length pre (le_refl _) pre.length
    (pre ++ rest).length 0 [] (utf8ToCp1252 outlen (some pre)).out (le_refl _) (le_refl _)
    (by
      show utf8ToCp1252 outlen (some pre) = _
      rcases hr : utf8ToCp1252 outlen (some pre) with ⟨st, il, o⟩
      rw [hr] at h
      simp only at h
      simp [h.1, h.2])
  simpa [utf8ToCp1252] using this

theorem UTF8ToISO8859_15_after (outlen : Nat) (pre rest : List Byte)
    (h : (UTF8ToISO8859_15 outlen (some pre)).status = 0 ∧
      (UTF8ToISO8859_15 outlen (some pre)).inlen = pre.length) :
    UTF8ToISO8859_15 outlen (some (pre ++ rest))
      = UTF8ToISO8859x.loop xmltranscodetable_ISO8859_15 rest.length rest pre.length
          (UTF8ToISO8859_15 outlen (some pre)).out := by
  have := UTF8ToISO8859x_loop_append xmltranscodetable_ISO8859_15 rest pre.length pre
    (le_refl _) pre.length (pre ++ rest).length 0 [] (UTF8ToISO8859_15 outlen (some pre)).out
    (le_refl _) (le_refl _)
    (by
      show UTF8ToISO8859_15 outlen (some pre) = _
      rcases hr : UTF8ToISO8859_15 outlen (some pre) with ⟨st, il, o⟩
      rw [hr] at h
      simp only at h
      simp [h.1, h.2])
  simpa [UTF8ToISO8859_15, UTF8ToISO8859x] using this

/-! ## Latin-9 against the reference encoding -/

set_option maxRecDepth 100000 in
theorem storedFor_latin9 : ∀ b : Byte,
    storedFor xmlunicodetable_ISO8859_15 b = latin9Encode b := by
  decide

set_option maxRecDepth 100000 in
theorem UTF8ToISO8859x_latin9Encode : ∀ b : Byte,
    UTF8ToISO8859x.loop xmltranscodetable_ISO8859_15 (latin9Encode b).length (latin9Encode b) 0 []
      = ⟨0, (latin9Encode b).length, [b]⟩ := by
  decide

set_option maxRecDepth 100000 in
theorem latin1Encode_toByte : ∀ x : Fin 256,
    latin1Encode (toByte x.val) = utf8Encode x.val ∧ latin1Byte x.val = toByte x.val := by
  decide

theorem flatMap_storedFor_latin9 (s : List Byte) :
    s.flatMap (storedFor xmlunicodetable_ISO8859_15) = s.flatMap latin9Encode := by
  have h : storedFor xmlunicodetable_ISO8859_15 = latin9Encode := funext storedFor_latin9
  rw [h]

/-- The run of `ISO8859_15ToUTF8`, for every capacity: the input prefix it serves and the bytes
it stores for that prefix; no longer prefix fits the capacity. -/
theorem ISO8859_15ToUTF8_spec (outlen : Nat) (s : List Byte) : ∃ m, m ≤ s.length ∧
    ISO8859_15ToUTF8 outlen s = ⟨0, m, (s.take m).flatMap latin9Encode⟩ ∧
    ∀ m', m' ≤ s.length → ((s.take m').flatMap latin9Encode).length ≤ outlen → m' ≤ m := by
  obtain ⟨m, hm, heq, hmax⟩ := bytewise_spec xmlunicodetable_ISO8859_15 outlen
    xmlunicodetable_ISO8859_15_nonzero s 0 []
  simp only [Nat.zero_add, List.nil_append, List.length_nil, flatMap_storedFor_latin9]
    at heq hmax
  exact ⟨m, hm, by rw [ISO8859_15ToUTF8, ISO8859xToUTF8_eq_bytewise, heq], hmax⟩

theorem ISO8859_15ToUTF8_enough (outlen : Nat) (s : List Byte)
    (h : (s.flatMap latin9Encode).length ≤ outlen) :
    ISO8859_15ToUTF8 outlen s = ⟨0, s.length, s.flatMap latin9Encode⟩ := by
  obtain ⟨m, hm, heq, hmax⟩ := ISO8859_15ToUTF8_spec outlen s
  have hall : m = s.length :=
    Nat.le_antisymm hm (hmax s.length (le_refl _) (by rw [List.take_length]; exact h))
  subst hall
  rw [heq, List.take_length]

theorem isolat1ToUTF8_enough (outlen : Nat) (s : List Byte)
    (h : (latin1EncodeAll s).length ≤ outlen) :
    isolat1ToUTF8 outlen s = ⟨0, s.length, latin1EncodeAll s⟩ := by
  obtain ⟨m, hm, heq, -, hmax⟩ := isolat1ToUTF8_spec outlen s
  have hall : m = s.length :=
    Nat.le_antisymm hm (hmax s.length (le_refl _) (by rw [List.take_length]; exact h))
  subst hall
  rw [heq, List.take_length]

/-! ## Round trips -/

theorem latin1EncodeAll_map_latin1Byte (cps : List Nat) (h : ∀ c ∈ cps, c ≤ 0xFF) :
    latin1EncodeAll (cps.map latin1Byte) = cps.flatMap utf8Encode := by
  unfold latin1EncodeAll
  induction cps with
  | nil => rfl
  | cons c cps ih =>
    have hc : c < 256 := by have := h c (by simp); omega
    obtain ⟨e1, e2⟩ := latin1Encode_toByte ⟨c, hc⟩
    simp only at e1 e2
    simp only [List.map_cons, List.flatMap_cons, e2, e1,
      ih (fun c' hc' => h c' (by simp [hc']))]

theorem UTF8ToISO8859x_loop_latin9 : ∀ (l : List Byte) (f i : Nat) (out : List Byte),
    (l.flatMap latin9Encode).length ≤ f →
    UTF8ToISO8859x.loop xmltranscodetable_ISO8859_15 f (l.flatMap latin9Encode) i out
      = ⟨0, i + (l.flatMap latin9Encode).length, out ++ l⟩ := by
  intro l
  induction l with
  | nil => intro f i out _; cases f <;> simp [UTF8ToISO8859x.loop]
  | cons b l ih =>
    intro f i out hf
    simp only [List.flatMap_cons] at hf ⊢
    have hone : UTF8ToISO8859x.loop xmltranscodetable_ISO8859_15 (latin9Encode b).length
        (latin9Encode b) i out = ⟨0, i + (latin9Encode b).length, out ++ [b]⟩ := by
      rw [UTF8ToISO8859x_loop_shift, UTF8ToISO8859x_latin9Encode b]
    rw [UTF8ToISO8859x_loop_append xmltranscodetable_ISO8859_15 (l.flatMap latin9Encode)
      (latin9Encode b).length (latin9Encode b) (le_refl _) (latin9Encode b).length f i out
      (out ++ [b]) (le_refl _) hf hone, ih _ _ _ (le_refl _)]
    simp only [List.length_append, List.append_assoc, List.singleton_append, Result.mk.injEq,
      and_true, true_and]
    omega

theorem xmlunicodetable_ISO8859_15_length : xmlunicodetable_ISO8859_15.length = 128 := rfl

theorem latin9_repertoire (c : Nat) (h : c < 0x80 ∨ c ∈ xmlunicodetable_ISO8859_15) :
    ∃ b : Byte, latin9CodePoint b = c := by
  rcases h with h | h
  · refine ⟨toByte c, ?_⟩
    have : (toByte c).val = c := by simp only [toByte]; omega
    simp only [latin9CodePoint, this, h, if_true]
  · obtain ⟨j, hj, hjc⟩ := List.getElem_of_mem h
    have hj' : j < 128 := by rw [xmlunicodetable_ISO8859_15_length] at hj; exact hj
    refine ⟨toByte (0x80 + j), ?_⟩
    have hv : (toByte (0x80 + j)).val = 0x80 + j := by simp only [toByte]; omega
    have h80 : ¬ 0x80 + j < 0x80 := by omega
    simp only [latin9CodePoint, hv, h80, if_false, Nat.add_sub_cancel_left]
    rw [List.getD_eq_getElem _ _ hj]
    exact hjc

theorem latin9_repertoire_list (cps : List Nat)
    (h : ∀ c ∈ cps, c < 0x80 ∨ c ∈ xmlunicodetable_ISO8859_15) :
    ∃ l : List Byte, l.map latin9CodePoint = cps := by
  induction cps with
  | nil => exact ⟨[], rfl⟩
  | cons c cps ih =>
    obtain ⟨l, hl⟩ := ih (fun c' hc' => h c' (by simp [hc']))
    obtain ⟨b, hb⟩ := latin9_repertoire c (h c (by simp))
    exact ⟨b :: l, by simp [hb, hl]⟩

theorem flatMap_latin9Encode (l : List Byte) :
    (l.map latin9CodePoint).flatMap utf8Encode = l.flatMap latin9Encode := by
  rw [List.flatMap_map]
  rfl

/-! ## Input of bytes below `0x80` -/

theorem toByte_val (b : Byte) : toByte b.val = b := by
  apply Fin.ext
  simp only [toByte]
  have := b.isLt
  omega

theorem leading_of_ascii (d : Byte) (h : d.val < 0x80) : leading d.val = some (d.val, 0) := by
  simp [leading, h]

theorem UTF8Toisolat1_loop_ascii (outlen : Nat) : ∀ (s : List Byte) (f i : Nat)
    (out : List Byte), (∀ b ∈ s, b.val < 0x80) → s.length ≤ f →
    out.length + s.length ≤ outlen →
    UTF8Toisolat1.loop outlen f s i i out = ⟨0, i + s.length, out ++ s⟩ := by
  intro s
  induction s with
  | nil => intro f i out _ _ _; cases f <;> simp [UTF8Toisolat1.loop]
  | cons d s ih =>
    intro f i out hs hf hcap
    simp only [List.length_cons] at hf hcap
    obtain ⟨f, rfl⟩ : ∃ g, f = g + 1 := ⟨f - 1, by omega⟩
    have hd : d.val < 0x80 := hs d (by simp)
    have hff : d.val ≤ 0xFF := by omega
    have ho : ¬ out.length ≥ outlen := by omega
    simp only [UTF8Toisolat1.loop, leading_of_ascii d hd, readTrailing, hff, ho, if_true,
      if_false, toByte_val]
    have hlt : ¬ s.length < 0 := by omega
    simp only [hlt, if_false]
    rw [ih f (i + 1) (out ++ [d]) (fun b hb => hs b (by simp [hb])) (by omega)
      (by simp only [List.length_append, List.length_singleton]; omega)]
    simp only [List.length_cons, List.append_assoc, List.singleton_append, Result.mk.injEq,
      and_true, true_and]
    omega

theorem utf8ToCp1252_loop_ascii (outlen : Nat) : ∀ (s : List Byte) (f i : Nat)
    (out : List Byte), (∀ b ∈ s, b.val < 0x80) → s.length ≤ f →
    out.length + s.length ≤ outlen →
    utf8ToCp1252.loop outlen f s i i out = ⟨0, i + s.length, out ++ s⟩ := by
  intro s
  induction s with
  | nil => intro f i out _ _ _; cases f <;> simp [utf8ToCp1252.loop]
  | cons d s ih =>
    intro f i out hs hf hcap
    simp only [List.length_cons] at hf hcap
    obtain ⟨f, rfl⟩ : ∃ g, f = g + 1 := ⟨f - 1, by omega⟩
    have hd : d.val < 0x80 := hs d (by simp)
    have hff : d.val ≤ 0xFF := by omega
    have ho : ¬ out.length ≥ outlen := by omega
    simp only [utf8ToCp1252.loop, leading_of_ascii d hd, readTrailing, hff, ho, if_true,
      if_false, toByte_val]
    have hlt : ¬ s.length < 0 := by omega
    simp only [hlt, if_false]
    rw [ih f (i + 1) (out ++ [d]) (fun b hb => hs b (by simp [hb])) (by omega)
      (by simp only [List.length_append, List.length_singleton]; omega)]
    simp only [List.length_cons, List.append_assoc, List.singleton_append, Result.mk.injEq,
      and_true, true_and]
    omega

theorem UTF8ToISO8859x_loop_ascii (xlattable : List Nat) : ∀ (s : List Byte) (f i : Nat)
    (out : List Byte), (∀ b ∈ s, b.val < 0x80) → s.length ≤ f →
    UTF8ToISO8859x.loop xlattable f s i out = ⟨0, i + s.length, out ++ s⟩ := by
  intro s
  induction s with
  | nil => intro f i out _ _; cases f <;> simp [UTF8ToISO8859x.loop]
  | cons d s ih =>
    intro f i out hs hf
    simp only [List.length_cons] at hf
    obtain ⟨f, rfl⟩ : ∃ g, f = g + 1 := ⟨f - 1, by omega⟩
    have hd : d.val < 0x80 := hs d (by simp)
    simp only [UTF8ToISO8859x.loop, hd, if_true]
    rw [ih f (i + 1) (out ++ [d]) (fun b hb => hs b (by simp [hb])) (by omega)]
    simp only [List.length_cons, List.append_assoc, List.singleton_append, Result.mk.injEq,
      and_true, true_and]
    omega

theorem flatMap_storedFor_ascii (unicodetable : List Nat) (s : List Byte)
    (h : ∀ b ∈ s, b.val < 0x80) : s.flatMap (storedFor unicodetable) = s := by
  induction s with
  | nil => rfl
  | cons b s ih =>
    have hb : b.val < 0x80 := h b (by simp)
    simp only [List.flatMap_cons, ih (fun b' hb' => h b' (by simp [hb'])), storedFor, hb,
      if_true, List.singleton_append]

theorem getUtf8ToISOLatin1_RequiredLength_loop_ascii : ∀ (s : List Byte)
    (f i numOut needToTranscode : Nat), (∀ b ∈ s, b.val < 0x80) → s.length ≤ f →
    getUtf8ToISOLatin1_RequiredLength.loop f s i i numOut needToTranscode
      = ⟨0, i + s.length, numOut + s.length, needToTranscode⟩ := by
  intro s
  induction s with
  | nil => intro f i n t _ _; cases f <;> simp [getUtf8ToISOLatin1_RequiredLength.loop]
  | cons d s ih =>
    intro f i n t hs hf
    simp only [List.length_cons] at hf
    obtain ⟨f, rfl⟩ : ∃ g, f = g + 1 := ⟨f - 1, by omega⟩
    have hd : d.val < 0x80 := hs d (by simp)
    have hlt : ¬ s.length < 0 := by omega
    simp only [getUtf8ToISOLatin1_RequiredLength.loop, leading_of_ascii d hd, readTrailing, hd,
      if_true, hlt, if_false]
    rw [ih f (i + 1) (n + 1) t (fun b hb => hs b (by simp [hb])) (by omega)]
    simp only [List.length_cons, ProbeResult.mk.injEq, and_true, true_and]
    omega

theorem utf8Encode_four (c : Nat) (h : 0x10000 ≤ c) : (utf8Encode c).length = 4 := by
  have h1 : ¬ c < 0x80 := by omega
  have h2 : ¬ c < 0x800 := by omega
  have h3 : ¬ c < 0x10000 := by omega
  simp [utf8Encode, h1, h2, h3]

theorem cp1252Subs_high (c : Nat) (h : 0x10000 ≤ c) : cp1252Subs c = 0xBF := by
  unfold cp1252Subs
  repeat rw [if_neg (by omega)]

set_option maxRecDepth 100000 in
theorem four_byte_lead : ∀ x : Fin 8, 0xF0 ≤ (toByte (0xF0 ||| x.val)).val := by
  decide

theorem UTF8ToISO8859x_loop_F0 (xlattable : List Nat) (fuel : Nat) (d : Byte)
    (rest : List Byte) (i : Nat) (out : List Byte) (hd : 0xF0 ≤ d.val) :
    UTF8ToISO8859x.loop xlattable (fuel + 1) (d :: rest) i out = ⟨-2, i, out⟩ := by
  have h1 : ¬ d.val < 0x80 := by omega
  have h2 : ¬ d.val < 0xC0 := by omega
  have h3 : ¬ d.val < 0xE0 := by omega
  have h4 : ¬ d.val < 0xF0 := by omega
  simp [UTF8ToISO8859x.loop, h1, h2, h3, h4]

/-! ## Code points outside the Latin-9 repertoire -/

set_option maxRecDepth 1000000 in
theorem xmltranscodetable_two : ∀ (x : Fin 32) (y : Fin 64),
    xmltranscodetable_ISO8859_15.getD
        (48 + y.val + xmltranscodetable_ISO8859_15.getD x.val 0 * 64) 0 = 0 ∨
    (0x80 ≤ xmltranscodetable_ISO8859_15.getD
        (48 + y.val + xmltranscodetable_ISO8859_15.getD x.val 0 * 64) 0 ∧
      xmlunicodetable_ISO8859_15.getD
        (xmltranscodetable_ISO8859_15.getD
          (48 + y.val + xmltranscodetable_ISO8859_15.getD x.val 0 * 64) 0 - 0x80) 0
        = x.val * 64 + y.val) := by
  decide

set_option maxRecDepth 100000 in
theorem xmltranscodetable_three_lead : ∀ x : Fin 16,
    xmltranscodetable_ISO8859_15.getD (32 + x.val) 0 = 0 ∨
    (x.val = 2 ∧ xmltranscodetable_ISO8859_15.getD (32 + x.val) 0 = 2) := by
  decide

set_option maxRecDepth 100000 in
theorem xmltranscodetable_page0 : ∀ y : Fin 64,
    xmltranscodetable_ISO8859_15.getD (48 + y.val + 0 * 64) 0 = 0 := by
  decide

set_option maxRecDepth 100000 in
theorem xmltranscodetable_page2 : ∀ y : Fin 64,
    xmltranscodetable_ISO8859_15.getD (48 + y.val + 2 * 64) 0 = 0 ∨
    (y.val = 2 ∧ xmltranscodetable_ISO8859_15.getD (48 + y.val + 2 * 64) 0 = 3) := by
  decide

set_option maxRecDepth 100000 in
theorem xmltranscodetable_page3 : ∀ y : Fin 64,
    xmltranscodetable_ISO8859_15.getD (48 + y.val + 3 * 64) 0 = 0 ∨
    (y.val = 44 ∧ xmltranscodetable_ISO8859_15.getD (48 + y.val + 3 * 64) 0 = 0xA4) := by
  decide

/-- The chained lookup of a three-byte sequence gives 0 except for U+20AC, where it gives the
byte `0xA4`. -/
theorem xmltranscodetable_three (x y1 y2 : Nat) (hx : x < 16) (hy1 : y1 < 64) (hy2 : y2 < 64) :
    xmltranscodetable_ISO8859_15.getD
      (48 + y2 + xmltranscodetable_ISO8859_15.getD
        (48 + y1 + xmltranscodetable_ISO8859_15.getD (32 + x) 0 * 64) 0 * 64) 0 = 0 ∨
    (x = 2 ∧ y1 = 2 ∧ y2 = 44 ∧
      xmltranscodetable_ISO8859_15.getD
        (48 + y2 + xmltranscodetable_ISO8859_15.getD
          (48 + y1 + xmltranscodetable_ISO8859_15.getD (32 + x) 0 * 64) 0 * 64) 0 = 0xA4) := by
  have p0a := xmltranscodetable_page0 ⟨y1, hy1⟩
  have p0b := xmltranscodetable_page0 ⟨y2, hy2⟩
  simp only at p0a p0b
  rcases xmltranscodetable_three_lead ⟨x, hx⟩ with h | ⟨h2, h⟩
  · simp only at h
    rw [h, p0a, p0b]
    exact Or.inl rfl
  · simp only at h2 h
    rw [h]
    rcases xmltranscodetable_page2 ⟨y1, hy1⟩ with g | ⟨g2, g⟩
    · simp only at g
      rw [g, p0b]
      exact Or.inl rfl
    · simp only at g2 g
      rw [g]
      rcases xmltranscodetable_page3 ⟨y2, hy2⟩ with k | ⟨k2, k⟩
      · exact Or.inl k
      · exact Or.inr ⟨h2, g2, k2, k⟩

set_option maxRecDepth 100000 in
theorem two_byte_lead : ∀ x : Fin 32,
    0xC0 ≤ (toByte (0xC0 ||| x.val)).val ∧ (toByte (0xC0 ||| x.val)).val < 0xE0 ∧
    (toByte (0xC0 ||| x.val)).val &&& 0x1F = x.val := by
  decide

set_option maxRecDepth 100000 in
theorem three_byte_lead : ∀ x : Fin 16,
    0xE0 ≤ (toByte (0xE0 ||| x.val)).val ∧ (toByte (0xE0 ||| x.val)).val < 0xF0 ∧
    (toByte (0xE0 ||| x.val)).val &&& 0x0F = x.val := by
  decide

theorem mem_of_getD (l : List Nat) (j c : Nat) (h : l.getD j 0 = c) (hc : c ≠ 0) : c ∈ l := by
  by_cases hj : j < l.length
  · rw [List.getD_eq_getElem _ _ hj] at h
    rw [← h]
    exact List.getElem_mem hj
  · rw [List.getD_eq_default _ _ (by omega)] at h
    exact absurd h.symm hc

set_option maxRecDepth 100000 in
theorem euro_mem : 0x20AC ∈ xmlunicodetable_ISO8859_15 := by
  decide

/-- The run of `UTF8ToISO8859x.loop` over the shortest form of a code point of `0x80..0xFFFF`
that the Unicode table does not hold: the lookup gives 0 and the call fails at the start of the
sequence. -/
theorem UTF8ToISO8859x_loop_unmapped (c : Nat) (hlo : 0x80 ≤ c) (hhi : c ≤ 0xFFFF)
    (hc : c ∉ xmlunicodetable_ISO8859_15) (fuel : Nat) (tail : List Byte) (i : Nat)
    (out : List Byte) :
    UTF8ToISO8859x.loop xmltranscodetable_ISO8859_15 (fuel + 1) (utf8Encode c ++ tail) i out
      = ⟨-2, i, out⟩ := by
  have h1 : ¬ c < 0x80 := by omega
  have y2 : c &&& 0x3F < 64 := by rw [and_63]; omega
  obtain ⟨k1, k2⟩ := continuation_byte ⟨c &&& 0x3F, y2⟩
  simp only at k1 k2
  by_cases h2 : c < 0x800
  · have hx : c >>> 6 < 32 := by rw [Nat.shiftRight_eq_div_pow]; omega
    obtain ⟨l1, l2, l3⟩ := two_byte_lead ⟨c >>> 6, hx⟩
    simp only at l1 l2 l3
    have g1 : ¬ (toByte (0xC0 ||| c >>> 6)).val < 0x80 := by omega
    have g2 : ¬ (toByte (0xC0 ||| c >>> 6)).val < 0xC0 := by omega
    have hz : xmltranscodetable_ISO8859_15.getD
        (48 + (c &&& 0x3F) + xmltranscodetable_ISO8859_15.getD (c >>> 6) 0 * 64) 0 = 0 := by
      rcases xmltranscodetable_two ⟨c >>> 6, hx⟩ ⟨c &&& 0x3F, y2⟩ with h | ⟨-, h⟩
      · exact h
      · simp only at h
        have hcc : (c >>> 6) * 64 + (c &&& 0x3F) = c := by
          rw [and_63, Nat.shiftRight_eq_div_pow]; omega
        rw [hcc] at h
        exact absurd (mem_of_getD _ _ c h (by omega)) hc
    simp only [utf8Encode, h1, h2, if_true, if_false, List.cons_append, List.nil_append,
      UTF8ToISO8859x.loop, g1, g2, l2, k1, ne_eq, not_true_eq_false, l3, k2, hz]
    simp
  · have h3 : c < 0x10000 := by omega
    have hx : c >>> 12 < 16 := by rw [Nat.shiftRight_eq_div_pow]; omega
    have y1 : (c >>> 6) &&& 0x3F < 64 := by rw [and_63]; omega
    obtain ⟨m1, m2⟩ := continuation_byte ⟨(c >>> 6) &&& 0x3F, y1⟩
    simp only at m1 m2
    obtain ⟨l1, l2, l3⟩ := three_byte_lead ⟨c >>> 12, hx⟩
    simp only at l1 l2 l3
    have g1 : ¬ (toByte (0xE0 ||| c >>> 12)).val < 0x80 := by omega
    have g2 : ¬ (toByte (0xE0 ||| c >>> 12)).val < 0xC0 := by omega
    have g3 : ¬ (toByte (0xE0 ||| c >>> 12)).val < 0xE0 := by omega
    have hz : xmltranscodetable_ISO8859_15.getD
        (48 + (c &&& 0x3F) + xmltranscodetable_ISO8859_15.getD
          (48 + ((c >>> 6) &&& 0x3F)
            + xmltranscodetable_ISO8859_15.getD (32 + c >>> 12) 0 * 64) 0 * 64) 0 = 0 := by
      rcases xmltranscodetable_three (c >>> 12) ((c >>> 6) &&& 0x3F) (c &&& 0x3F) hx y1 y2
        with h | ⟨e1, e2, e3, -⟩
      · exact h
      · have hcc : c = 0x20AC := by
          rw [and_63, Nat.shiftRight_eq_div_pow] at e2
          rw [and_63] at e3
          rw [Nat.shiftRight_eq_div_pow] at e1
          omega
        rw [hcc] at hc
        exact absurd euro_mem hc
    simp only [utf8Encode, h1, h2, h3, if_true, if_false, List.cons_append, List.nil_append,
      UTF8ToISO8859x.loop, g1, g2, g3, l2, m1, k1, ne_eq, not_true_eq_false, l3, m2, k2, hz]
    simp

/-! ## The Latin-1 probe and `UTF8Toisolat1` at the capacity that the probe reports -/

theorem getUtf8ToISOLatin1_RequiredLength_loop_flag : ∀ (fuel : Nat) (rest : List Byte)
    (i processed numOut t : Nat), rest.length ≤ fuel →
    (getUtf8ToISOLatin1_RequiredLength.loop fuel rest i processed numOut t).status = 0 →
    (getUtf8ToISOLatin1_RequiredLength.loop fuel rest i processed numOut t).transcodingNeeded
      = if rest.any (fun b => decide (0x80 ≤ b.val)) then 1 else t := by
  intro fuel
  induction fuel with
  | zero =>
    intro rest i p n t h _
    cases rest with
    | nil => simp [getUtf8ToISOLatin1_RequiredLength.loop]
    | cons d rest => simp at h
  | succ fuel ih =>
    intro rest i p n t h hs
    cases rest with
    | nil => simp [getUtf8ToISOLatin1_RequiredLength.loop]
    | cons d rest =>
      simp only [List.length_cons] at h
      simp only [getUtf8ToISOLatin1_RequiredLength.loop] at hs ⊢
      cases hl : leading d.val with
      | none => rw [hl] at hs; simp at hs
      | some ct =>
        obtain ⟨c, trailing⟩ := ct
        rw [hl] at hs
        simp only at hs ⊢
        by_cases hlen : rest.length < trailing
        · have hd : ¬ d.val < 0x80 := by
            intro hd
            rw [leading_of_ascii d hd] at hl
            simp only [Option.some.injEq, Prod.mk.injEq] at hl
            omega
          have hd' : 0x80 ≤ d.val := by omega
          simp [hlen, hd, hd']
        · simp only [hlen, if_false] at hs ⊢
          cases hr : readTrailing trailing 0 rest (i + 1) with
          | none => rw [hr] at hs; simp at hs
          | some x =>
            obtain ⟨c', rest', i'⟩ := x
            rw [hr] at hs
            simp only at hs ⊢
            have hlen' := (readTrailing_length trailing 0 rest (i + 1) c' rest' i'
              (by omega) hr).1
            rw [ih rest' i' i' (n + 1) _ (by omega) hs]
            by_cases hd : d.val < 0x80
            · have hd' : ¬ 0x80 ≤ d.val := by omega
              rw [leading_of_ascii d hd] at hl
              simp only [Option.some.injEq, Prod.mk.injEq] at hl
              obtain ⟨-, rfl⟩ := hl
              simp only [readTrailing, Option.some.injEq, Prod.mk.injEq] at hr
              obtain ⟨-, rfl, -⟩ := hr
              simp [hd, hd']
            · have hd' : 0x80 ≤ d.val := by omega
              simp [hd, hd']

theorem getUTF8ToISO8859_15RequiredLength_loop_flag : ∀ (fuel : Nat) (rest : List Byte)
    (i numOut t : Nat), rest.length ≤ fuel →
    (getUTF8ToISO8859_15RequiredLength.loop fuel rest i numOut t).status = 0 →
    (getUTF8ToISO8859_15RequiredLength.loop fuel rest i numOut t).transcodingNeeded
      = if rest.any (fun b => decide (0x80 ≤ b.val)) then 1 else t := by
  intro fuel
  induction fuel with
  | zero =>
    intro rest i n t h _
    cases rest with
    | nil => simp [getUTF8ToISO8859_15RequiredLength.loop]
    | cons d rest => simp at h
  | succ fuel ih =>
    intro rest i n t h hs
    cases rest with
    | nil => simp [getUTF8ToISO8859_15RequiredLength.loop]
    | cons d rest =>
      simp only [List.length_cons] at h
      simp only [getUTF8ToISO8859_15RequiredLength.loop] at hs ⊢
      split at hs
      · rename_i h1
        have h1' : ¬ 0x80 ≤ d.val := by omega
        simp only [h1, if_true]
        rw [ih rest (i + 1) _ _ (by omega) hs]
        simp [h1']
      · rename_i h1
        have h1' : 0x80 ≤ d.val := by omega
        simp only [h1, if_false]
        split at hs
        · simp at hs
        · rename_i h2
          simp only [h2, if_false]
          split at hs
          · rename_i h3
            simp only [h3, if_true]
            cases rest with
            | nil => simp at hs
            | cons c rest =>
              simp only [List.length_cons] at h
              simp only at hs ⊢
              split at hs
              · simp at hs
              · rename_i h4
                simp only [h4, if_false]
                split at hs
                · simp at hs
                · rename_i h5
                  simp only [h5, if_false]
                  rw [ih rest (i + 2) _ _ (by omega) hs]
                  simp [h1']
          · rename_i h3
            simp only [h3, if_false]
            split at hs
            · rename_i h4
              simp only [h4, if_true]
              match rest, h, hs with
              | [], _, hs => simp at hs
              | [_], _, hs => simp at hs
              | c1 :: c2 :: rest, h, hs =>
                simp only [List.length_cons] at h
                simp only at hs ⊢
                split at hs
                · simp at hs
                · rename_i h5
                  simp only [h5, if_false]
                  split at hs
                  · simp at hs
                  · rename_i h6
                    simp only [h6, if_false]
                    split at hs
                    · simp at hs
                    · rename_i h7
                      simp only [h7, if_false]
                      rw [ih rest (i + 3) _ _ (by omega) hs]
                      simp [h1']
            · simp at hs

theorem any_high_iff (s : List Byte) :
    s.any (fun b => decide (0x80 ≤ b.val)) = false ↔ ∀ b ∈ s, b.val < 0x80 := by
  rw [List.any_eq_false]
  constructor
  · intro h b hb
    have := h b hb
    simp only [decide_eq_true_eq] at this
    omega
  · intro h b hb
    have := h b hb
    simp only [decide_eq_true_eq]
    omega

theorem flag_zero_iff (s : List Byte) :
    (if s.any (fun b => decide (0x80 ≤ b.val)) then 1 else 0) = 0
      ↔ ∀ b ∈ s, b.val < 0x80 := by
  rw [← any_high_iff]
  cases s.any (fun b => decide (0x80 ≤ b.val)) <;> simp

/-! ## `UTF8Toisolat1` when the capacity runs out -/

theorem UTF8Toisolat1_loop_step_full (outlen fuel c : Nat) (hc : c ≤ 0x10FFFF)
    (rest : List Byte) (i processed : Nat) (out : List Byte) (ho : outlen ≤ out.length) :
    UTF8Toisolat1.loop outlen (fuel + 1) (utf8Encode c ++ rest) i processed out
      = ⟨0, processed, out⟩ := by
  obtain ⟨d, tl, c0, he, hl, hr⟩ := decode_utf8Encode c hc rest (i + 1)
  have hlen : ¬ (tl ++ rest).length < tl.length := by simp
  have ho' : out.length ≥ outlen := ho
  rw [he, List.cons_append]
  simp only [UTF8Toisolat1.loop, hl, hlen, if_false, hr, ho', if_true, ite_self]

theorem UTF8Toisolat1_loop_encoded_bounded (outlen : Nat) : ∀ (cps : List Nat) (fuel i : Nat)
    (out : List Byte), (∀ c ∈ cps, c ≤ 0x10FFFF) → cps.length ≤ fuel →
    UTF8Toisolat1.loop outlen fuel (cps.flatMap utf8Encode) i i out
      = ⟨0, i + ((cps.take (outlen - out.length)).flatMap utf8Encode).length,
          out ++ (cps.take (outlen - out.length)).map latin1Byte⟩ := by
  intro cps
  induction cps with
  | nil =>
    intro fuel i out _ _
    cases fuel <;> simp [UTF8Toisolat1.loop]
  | cons c cps ih =>
    intro fuel i out hcps hfuel
    simp only [List.length_cons] at hfuel
    obtain ⟨fuel, rfl⟩ : ∃ f, fuel = f + 1 := ⟨fuel - 1, by omega⟩
    simp only [List.flatMap_cons]
    by_cases ho : out.length < outlen
    · obtain ⟨k, hk⟩ : ∃ k, outlen - out.length = k + 1 := ⟨outlen - out.length - 1, by omega⟩
      rw [UTF8Toisolat1_loop_step outlen fuel c (hcps c (by simp)) _ i i out ho,
        ih fuel _ _ (fun c' h => hcps c' (by simp [h])) (by omega)]
      have hk' : outlen - (out ++ [latin1Byte c]).length = k := by
        simp only [List.length_append, List.length_singleton]; omega
      rw [hk, hk']
      simp only [List.take_succ_cons, List.flatMap_cons, List.length_append, List.map_cons,
        List.append_assoc, List.singleton_append, Result.mk.injEq, and_true, true_and]
      omega
    · have hk : outlen - out.length = 0 := by omega
      rw [UTF8Toisolat1_loop_step_full outlen fuel c (hcps c (by simp)) _ i i out (by omega), hk]
      simp

/-! ## `utf8ToCp1252` against `UTF8Toisolat1` -/

theorem mem_of_lookup (c w : Nat) : ∀ (l : List (Nat × Nat)), l.lookup c = some w → (c, w) ∈ l := by
  intro l
  induction l with
  | nil => simp
  | cons q l ih =>
    obtain ⟨k, u⟩ := q
    rw [lookup_cons_ite]
    split
    · rename_i hck
      intro hu
      simp only [Option.some.injEq] at hu
      simp [hck, hu]
    · intro hu
      exact List.mem_cons_of_mem _ (ih hu)

theorem cp1252Subs_range (c : Nat) :
    cp1252Subs c = 0xBF ∨ (0x80 ≤ cp1252Subs c ∧ cp1252Subs c ≤ 0x9F) := by
  rw [cp1252Subs_eq_lookup]
  rcases hl : cp1252Map.lookup c with _ | w
  · exact Or.inl rfl
  · have := cp1252Map_facts.2.2.2 (c, w) (mem_of_lookup c w _ hl)
    exact Or.inr ⟨this.2.2.1, this.2.2.2⟩

theorem cp1252Refines_subs (c : Nat) :
    cp1252Refines (toByte 0xBF) (toByte (cp1252Subs c)) := by
  rcases cp1252Subs_range c with h | ⟨h1, h2⟩
  · rw [h]; exact Or.inl rfl
  · refine Or.inr ⟨rfl, ?_, ?_⟩ <;> simp only [toByte] <;> omega

theorem forall₂_snoc {a b : Byte} {l1 l2 : List Byte}
    (h : List.Forall₂ cp1252Refines l1 l2) (hab : cp1252Refines a b) :
    List.Forall₂ cp1252Refines (l1 ++ [a]) (l2 ++ [b]) :=
  List.rel_append h (List.Forall₂.cons hab List.Forall₂.nil)

theorem cp1252_loop_refines (outlen : Nat) : ∀ (fuel : Nat) (rest : List Byte)
    (i processed : Nat) (out1 out2 : List Byte), List.Forall₂ cp1252Refines out1 out2 →
    (UTF8Toisolat1.loop outlen fuel rest i processed out1).status
      = (utf8ToCp1252.loop outlen fuel rest i processed out2).status ∧
    (UTF8Toisolat1.loop outlen fuel rest i processed out1).inlen
      = (utf8ToCp1252.loop outlen fuel rest i processed out2).inlen ∧
    List.Forall₂ cp1252Refines (UTF8Toisolat1.loop outlen fuel rest i processed out1).out
      (utf8ToCp1252.loop outlen fuel rest i processed out2).out := by
  intro fuel
  induction fuel with
  | zero =>
    intro rest i processed out1 out2 h
    cases rest <;> simp only [UTF8Toisolat1.loop, utf8ToCp1252.loop] <;> exact ⟨trivial, trivial, h⟩
  | succ fuel ih =>
    intro rest i processed out1 out2 h
    have hlen := h.length_eq
    cases rest with
    | nil => simp only [UTF8Toisolat1.loop, utf8ToCp1252.loop]; exact ⟨trivial, trivial, h⟩
    | cons d rest =>
      simp only [UTF8Toisolat1.loop, utf8ToCp1252.loop]
      cases leading d.val with
      | none => exact ⟨rfl, rfl, h⟩
      | some ct =>
        obtain ⟨c, trailing⟩ := ct
        simp only
        by_cases hl : rest.length < trailing
        · simp only [hl, if_true]; exact ⟨trivial, trivial, h⟩
        · simp only [hl, if_false]
          cases readTrailing trailing c rest (i + 1) with
          | none => exact ⟨rfl, rfl, h⟩
          | some x =>
            obtain ⟨c', rest', i'⟩ := x
            simp only
            rw [← hlen]
            by_cases hout : out1.length ≥ outlen
            · simp only [hout, if_true, ite_self]; exact ⟨trivial, trivial, h⟩
            · simp only [hout, if_false]
              by_cases hc : c' ≤ 0xFF
              · simp only [hc, if_true]
                exact ih rest' i' i' _ _ (forall₂_snoc h (Or.inl rfl))
              · simp only [hc, if_false]
                exact ih rest' i' i' _ _ (forall₂_snoc h (cp1252Refines_subs c'))

/-! ## The reads of the transcoding table are in bounds -/

set_option maxRecDepth 100000 in
theorem xmltranscodetable_ISO8859_15_length : xmltranscodetable_ISO8859_15.length = 432 := rfl

set_option maxRecDepth 100000 in
theorem xmltranscodetable_selector : ∀ j : Fin 48,
    xmltranscodetable_ISO8859_15.getD j.val 0 ≤ 5 := by
  decide

set_option maxRecDepth 1000000 in
theorem xmltranscodetable_second_selector : ∀ (x : Fin 16) (y : Fin 64),
    xmltranscodetable_ISO8859_15.getD
      (48 + y.val + xmltranscodetable_ISO8859_15.getD (32 + x.val) 0 * 64) 0 ≤ 5 := by
  decide

theorem and_31_lt (d : Nat) : d &&& 0x1F < 32 := by
  rw [Nat.and_pow_two_sub_one_eq_mod d 5]; omega

theorem and_15_lt (d : Nat) : d &&& 0x0F < 16 := by
  rw [Nat.and_pow_two_sub_one_eq_mod d 4]; omega

theorem and_63_lt (d : Nat) : d &&& 0x3F < 64 := by
  rw [Nat.and_pow_two_sub_one_eq_mod d 6]; omega

theorem two_byte_indices (d c : Nat) :
    d &&& 0x1F < 432 ∧
    48 + (c &&& 0x3F) + xmltranscodetable_ISO8859_15.getD (d &&& 0x1F) 0 * 64 < 432 := by
  have hd := and_31_lt d
  have hc := and_63_lt c
  have hs := xmltranscodetable_selector ⟨d &&& 0x1F, by omega⟩
  simp only at hs
  omega

theorem three_byte_indices (d c1 c2 : Nat) :
    32 + (d &&& 0x0F) < 432 ∧
    48 + (c1 &&& 0x3F) + xmltranscodetable_ISO8859_15.getD (32 + (d &&& 0x0F)) 0 * 64 < 432 ∧
    48 + (c2 &&& 0x3F) + xmltranscodetable_ISO8859_15.getD
      (48 + (c1 &&& 0x3F) + xmltranscodetable_ISO8859_15.getD (32 + (d &&& 0x0F)) 0 * 64) 0 * 64
      < 432 := by
  have hd := and_15_lt d
  have hc1 := and_63_lt c1
  have hc2 := and_63_lt c2
  have hs := xmltranscodetable_selector ⟨32 + (d &&& 0x0F), by omega⟩
  have hs2 := xmltranscodetable_second_selector ⟨d &&& 0x0F, hd⟩ ⟨c1 &&& 0x3F, hc1⟩
  simp only at hs hs2
  omega

theorem UTF8ToISO8859x_indices_bound : ∀ (fuel : Nat) (rest : List Byte),
    ∀ j ∈ UTF8ToISO8859x.indices xmltranscodetable_ISO8859_15 fuel rest, j < 432 := by
  intro fuel
  induction fuel with
  | zero => intro rest j hj; cases rest <;> simp [UTF8ToISO8859x.indices] at hj
  | succ fuel ih =>
    intro rest j hj
    match rest, hj with
    | [], hj => simp [UTF8ToISO8859x.indices] at hj
    | d :: rest, hj =>
      simp only [UTF8ToISO8859x.indices] at hj
      split at hj
      · exact ih rest j hj
      · split at hj
        · simp at hj
        · split at hj
          · match rest, hj with
            | [], hj => simp at hj
            | c :: rest, hj =>
              simp only at hj
              have h2 := two_byte_indices d.val c.val
              split at hj
              · simp at hj
              · split at hj
                · simp only [List.mem_cons, List.mem_singleton, List.not_mem_nil, or_false]
                    at hj
                  rcases hj with rfl | rfl
                  · exact h2.1
                  · exact h2.2
                · simp only [List.mem_cons] at hj
                  rcases hj with rfl | rfl | hj
                  · exact h2.1
                  · exact h2.2
                  · exact ih rest j hj
          · split at hj
            · match rest, hj with
              | [], hj => simp at hj
              | [_], hj => simp at hj
              | c1 :: c2 :: rest, hj =>
                simp only at hj
                have h3 := three_byte_indices d.val c1.val c2.val
                split at hj
                · simp at hj
                · split at hj
                  · simp at hj
                  · split at hj
                    · simp only [List.mem_cons, List.mem_singleton, List.not_mem_nil,
                        or_false] at hj
                      rcases hj with rfl | rfl | rfl
                      · exact h3.1
                      · exact h3.2.1
                      · exact h3.2.2
                    · simp only [List.mem_cons] at hj
                      rcases hj with rfl | rfl | rfl | hj
                      · exact h3.1
                      · exact h3.2.1
                      · exact h3.2.2
                      · exact ih rest j hj
            · simp at hj

theorem getUTF8ToISO8859_15RequiredLength_indices_eq : ∀ (fuel : Nat) (rest : List Byte),
    getUTF8ToISO8859_15RequiredLength.indices fuel rest
      = UTF8ToISO8859x.indices xmltranscodetable_ISO8859_15 fuel rest := by
  intro fuel
  induction fuel with
  | zero =>
    intro rest
    cases rest <;> simp [getUTF8ToISO8859_15RequiredLength.indices, UTF8ToISO8859x.indices]
  | succ fuel ih =>
    intro rest
    match rest with
    | [] => simp [getUTF8ToISO8859_15RequiredLength.indices, UTF8ToISO8859x.indices]
    | [d] =>
      simp only [getUTF8ToISO8859_15RequiredLength.indices, UTF8ToISO8859x.indices, ih]
    | [d, c] =>
      simp only [getUTF8ToISO8859_15RequiredLength.indices, UTF8ToISO8859x.indices, ih]
    | d :: c1 :: c2 :: rest =>
      simp only [getUTF8ToISO8859_15RequiredLength.indices, UTF8ToISO8859x.indices, ih]

/-! ## Latin-9 decoding, overlong forms and the round trip from the legacy side -/

theorem map_latin1Byte_val (l : List Byte) : (l.map (fun b => b.val)).map latin1Byte = l := by
  induction l with
  | nil => rfl
  | cons b l ih =>
    have hb : b.val ≤ 0xFF := by have := b.isLt; omega
    simp only [List.map_cons, ih, latin1Byte, hb, if_true, toByte_val]

theorem latin1EncodeAll_eq_utf8Encode (l : List Byte) :
    latin1EncodeAll l = (l.map (fun b => b.val)).flatMap utf8Encode := by
  have h := latin1EncodeAll_map_latin1Byte (l.map (fun b => b.val)) (by
    intro c hc
    simp only [List.mem_map] at hc
    obtain ⟨b, -, rfl⟩ := hc
    have := b.isLt
    omega)
  rw [map_latin1Byte_val] at h
  exact h

theorem UTF8Toisolat1_overlong (x outlen : Nat) (hx : x < 0x80) (hcap : 1 ≤ outlen) :
    UTF8Toisolat1 outlen (some [toByte (0xC0 ||| (x >>> 6)), toByte (0x80 ||| (x &&& 0x3F))])
      = ⟨0, 2, [toByte x]⟩ := by
  have hx6 : x >>> 6 < 32 := by rw [Nat.shiftRight_eq_div_pow]; omega
  have hl := leading_two ⟨x >>> 6, hx6⟩
  have hv : (x >>> 6) * 64 + (x &&& 0x3F) = x := by
    rw [and_63, Nat.shiftRight_eq_div_pow]; omega
  have hr : readTrailing 1 (x >>> 6) [toByte (0x80 ||| (x &&& 0x3F))] 1 = some (x, [], 2) := by
    have := readTrailing_continuation 0 (x >>> 6) (x &&& 0x3F) (by rw [and_63]; omega) [] 1
    rw [hv] at this
    exact this.trans rfl
  simp only at hl
  have hff : x ≤ 0xFF := by omega
  have ho : ¬ (([] : List Byte).length ≥ outlen) := by simp only [List.length_nil]; omega
  have hlen : ¬ ([toByte (0x80 ||| (x &&& 0x3F))] : List Byte).length < 1 := by simp
  show UTF8Toisolat1.loop outlen 2 _ 0 0 [] = _
  simp only [UTF8Toisolat1.loop, hl, hlen, if_false, Nat.zero_add, hr, hff, if_true, ho,
    List.nil_append]

/-! ## What `UTF8ToISO8859_15` accepts -/

set_option maxRecDepth 1000000 in
theorem xmltranscodetable_byte_fin : ∀ j : Fin 432,
    xmltranscodetable_ISO8859_15.getD j.val 0 < 256 := by
  decide

theorem xmltranscodetable_byte (j : Nat) : xmltranscodetable_ISO8859_15.getD j 0 < 256 := by
  by_cases h : j < 432
  · exact xmltranscodetable_byte_fin ⟨j, h⟩
  · rw [List.getD_eq_default _ _ (by rw [xmltranscodetable_ISO8859_15_length]; omega)]
    omega

set_option maxRecDepth 100000 in
theorem xmlunicodetable_ISO8859_15_high : ∀ b : Byte, ¬ b.val < 0x80 →
    0x80 ≤ xmlunicodetable_ISO8859_15.getD (b.val - 0x80) 0 := by
  decide

set_option maxRecDepth 100000 in
theorem two_byte_lead_eq : ∀ d : Byte, 0xC0 ≤ d.val → d.val < 0xE0 →
    toByte (0xC0 ||| (d.val &&& 0x1F)) = d := by
  decide

set_option maxRecDepth 100000 in
theorem three_byte_lead_eq : ∀ d : Byte, 0xE0 ≤ d.val → d.val < 0xF0 →
    toByte (0xE0 ||| (d.val &&& 0x0F)) = d := by
  decide

set_option maxRecDepth 100000 in
theorem continuation_byte_eq : ∀ c : Byte, c.val &&& 0xC0 = 0x80 →
    toByte (0x80 ||| (c.val &&& 0x3F)) = c := by
  decide

theorem latin9Encode_ascii (d : Byte) (h : d.val < 0x80) : latin9Encode d = [d] := by
  simp only [latin9Encode, latin9CodePoint, h, if_true, utf8Encode, toByte_val]

/-- A two-byte sequence for which the lookup gives a byte is the encoding of that byte. -/
theorem latin9Encode_two (d c : Byte) (hd : 0xC0 ≤ d.val) (hd' : d.val < 0xE0)
    (hc : c.val &&& 0xC0 = 0x80)
    (hv : xmltranscodetable_ISO8859_15.getD
      (48 + (c.val &&& 0x3F) + xmltranscodetable_ISO8859_15.getD (d.val &&& 0x1F) 0 * 64) 0
      ≠ 0) :
    latin9Encode (toByte (xmltranscodetable_ISO8859_15.getD
      (48 + (c.val &&& 0x3F) + xmltranscodetable_ISO8859_15.getD (d.val &&& 0x1F) 0 * 64) 0))
      = [d, c] := by
  have hx := and_31_lt d.val
  have hy := and_63_lt c.val
  have hb := xmltranscodetable_byte
    (48 + (c.val &&& 0x3F) + xmltranscodetable_ISO8859_15.getD (d.val &&& 0x1F) 0 * 64)
  rcases xmltranscodetable_two ⟨d.val &&& 0x1F, hx⟩ ⟨c.val &&& 0x3F, hy⟩ with h0 | ⟨h80, hu⟩
  · exact absurd h0 hv
  · simp only at h80 hu
    generalize xmltranscodetable_ISO8859_15.getD
      (48 + (c.val &&& 0x3F) + xmltranscodetable_ISO8859_15.getD (d.val &&& 0x1F) 0 * 64) 0
      = v at hv hb h80 hu
    have hval : (toByte v).val = v := by simp only [toByte]; omega
    have hlow : ¬ (toByte v).val < 0x80 := by rw [hval]; omega
    have hhigh := xmlunicodetable_ISO8859_15_high (toByte v) hlow
    rw [hval, hu] at hhigh
    have h1 : ¬ (d.val &&& 0x1F) * 64 + (c.val &&& 0x3F) < 0x80 := by omega
    have h2 : (d.val &&& 0x1F) * 64 + (c.val &&& 0x3F) < 0x800 := by omega
    have e1 : ((d.val &&& 0x1F) * 64 + (c.val &&& 0x3F)) >>> 6 = d.val &&& 0x1F := by
      rw [Nat.shiftRight_eq_div_pow]; omega
    have e2 : ((d.val &&& 0x1F) * 64 + (c.val &&& 0x3F)) &&& 0x3F = c.val &&& 0x3F := by
      rw [and_63 ((d.val &&& 0x1F) * 64 + (c.val &&& 0x3F))]; omega
    have hv128 : ¬ v < 0x80 := by omega
    simp only [latin9Encode, latin9CodePoint, hlow, hv128, if_false, hval, hu, utf8Encode, h1, h2,
      if_true, e1, e2, two_byte_lead_eq d hd hd', continuation_byte_eq c hc]

/-- A three-byte sequence for which the chained lookup gives a byte is the encoding of that
byte. -/
theorem latin9Encode_three (d c1 c2 : Byte) (hd : 0xE0 ≤ d.val) (hd' : d.val < 0xF0)
    (hc1 : c1.val &&& 0xC0 = 0x80) (hc2 : c2.val &&& 0xC0 = 0x80)
    (hv : xmltranscodetable_ISO8859_15.getD
      (48 + (c2.val &&& 0x3F) + xmltranscodetable_ISO8859_15.getD
        (48 + (c1.val &&& 0x3F)
          + xmltranscodetable_ISO8859_15.getD (32 + (d.val &&& 0x0F)) 0 * 64) 0 * 64) 0
      ≠ 0) :
    latin9Encode (toByte (xmltranscodetable_ISO8859_15.getD
      (48 + (c2.val &&& 0x3F) + xmltranscodetable_ISO8859_15.getD
        (48 + (c1.val &&& 0x3F)
          + xmltranscodetable_ISO8859_15.getD (32 + (d.val &&& 0x0F)) 0 * 64) 0 * 64) 0))
      = [d, c1, c2] := by
  rcases xmltranscodetable_three (d.val &&& 0x0F) (c1.val &&& 0x3F) (c2.val &&& 0x3F)
    (and_15_lt _) (and_63_lt _) (and_63_lt _) with h0 | ⟨hx, hy1, hy2, hval⟩
  · exact absurd h0 hv
  · rw [hval]
    have ed := three_byte_lead_eq d hd hd'
    have e1 := continuation_byte_eq c1 hc1
    have e2 := continuation_byte_eq c2 hc2
    rw [hx] at ed
    rw [hy1] at e1
    rw [hy2] at e2
    rw [← ed, ← e1, ← e2]
    decide

theorem UTF8ToISO8859x_loop_canonical : ∀ (fuel : Nat) (rest : List Byte) (i : Nat)
    (out : List Byte), rest.length ≤ fuel →
    (UTF8ToISO8859x.loop xmltranscodetable_ISO8859_15 fuel rest i out).status = 0 →
    ∃ l, (UTF8ToISO8859x.loop xmltranscodetable_ISO8859_15 fuel rest i out).out = out ++ l ∧
      l.flatMap latin9Encode = rest := by
  intro fuel
  induction fuel with
  | zero =>
    intro rest i out h _
    cases rest with
    | nil => exact ⟨[], by simp [UTF8ToISO8859x.loop]⟩
    | cons d rest => simp at h
  | succ fuel ih =>
    intro rest i out h hs
    cases rest with
    | nil => exact ⟨[], by simp [UTF8ToISO8859x.loop]⟩
    | cons d rest =>
      simp only [List.length_cons] at h
      simp only [UTF8ToISO8859x.loop] at hs ⊢
      split at hs
      · rename_i h1
        simp only [h1, if_true]
        obtain ⟨l, hl, hf⟩ := ih rest (i + 1) _ (by omega) hs
        refine ⟨d :: l, by rw [hl]; simp, ?_⟩
        rw [List.flatMap_cons, hf, latin9Encode_ascii d h1]
        rfl
      · rename_i h1
        simp only [h1, if_false]
        split at hs
        · simp at hs
        · rename_i h2
          simp only [h2, if_false]
          split at hs
          · rename_i h3
            simp only [h3, if_true]
            cases rest with
            | nil => simp at hs
            | cons c rest =>
              simp only [List.length_cons] at h
              simp only at hs ⊢
              split at hs
              · simp at hs
              · rename_i h4
                simp only [h4, if_false]
                split at hs
                · simp at hs
                · rename_i h5
                  simp only [h5, if_false]
                  obtain ⟨l, hl, hf⟩ := ih rest (i + 2) _ (by omega) hs
                  refine ⟨[_] ++ l, by rw [hl, List.append_assoc], ?_⟩
                  rw [List.singleton_append, List.flatMap_cons, hf,
                    latin9Encode_two d c (by omega) h3 (by simpa using h4) h5]
                  rfl
          · rename_i h3
            simp only [h3, if_false]
            split at hs
            · rename_i h4
              simp only [h4, if_true]
              match rest, h, hs with
              | [], _, hs => simp at hs
              | [_], _, hs => simp at hs
              | c1 :: c2 :: rest, h, hs =>
                simp only [List.length_cons] at h
                simp only at hs ⊢
                split at hs
                · simp at hs
                · rename_i h5
                  simp only [h5, if_false]
                  split at hs
                  · simp at hs
                  · rename_i h6
                    simp only [h6, if_false]
                    split at hs
                    · simp at hs
                    · rename_i h7
                      simp only [h7, if_false]
                      obtain ⟨l, hl, hf⟩ := ih rest (i + 3) _ (by omega) hs
                      refine ⟨[_] ++ l, by rw [hl, List.append_assoc], ?_⟩
                      rw [List.singleton_append, List.flatMap_cons, hf,
                        latin9Encode_three d c1 c2 (by omega) h4 (by simpa using h5)
                          (by simpa using h6) h7]
                      rfl
            · simp at hs

theorem UTF8ToISO8859_15_canonical (u : List Byte) (outlen : Nat)
    (h : (UTF8ToISO8859_15 outlen (some u)).status = 0) :
    (UTF8ToISO8859_15 outlen (some u)).out.flatMap latin9Encode = u := by
  obtain ⟨l, hl, hf⟩ := UTF8ToISO8859x_loop_canonical u.length u 0 [] (le_refl _) h
  rw [List.nil_append] at hl
  show (UTF8ToISO8859x.loop xmltranscodetable_ISO8859_15 u.length u 0 []).out.flatMap _ = u
  rw [hl, hf]

theorem UTF8ToISO8859x_overlong_two (x : Nat) (hx : x < 0x80) (fuel i : Nat)
    (tail out : List Byte) :
    UTF8ToISO8859x.loop xmltranscodetable_ISO8859_15 (fuel + 1)
      (toByte (0xC0 ||| (x >>> 6)) :: toByte (0x80 ||| (x &&& 0x3F)) :: tail) i out
      = ⟨-2, i, out⟩ := by
  have hx6 : x >>> 6 < 2 := by rw [Nat.shiftRight_eq_div_pow]; omega
  obtain ⟨l1, l2, l3⟩ := two_byte_lead ⟨x >>> 6, by omega⟩
  obtain ⟨k1, k2⟩ := continuation_byte ⟨x &&& 0x3F, and_63_lt x⟩
  simp only at l1 l2 l3 k1 k2
  have h1 : ¬ (toByte (0xC0 ||| (x >>> 6))).val < 0x80 := by omega
  have h2 : ¬ (toByte (0xC0 ||| (x >>> 6))).val < 0xC0 := by omega
  have hsel : xmltranscodetable_ISO8859_15.getD (x >>> 6) 0 = 0 := by
    have : x >>> 6 = 0 ∨ x >>> 6 = 1 := by omega
    rcases this with h | h <;> rw [h] <;> rfl
  have hpage := xmltranscodetable_page0 ⟨x &&& 0x3F, and_63_lt x⟩
  simp only at hpage
  simp only [UTF8ToISO8859x.loop, h1, h2, l2, if_true, if_false, k1, ne_eq, not_true_eq_false,
    k2, l3, hsel, hpage, Nat.add_sub_cancel]

theorem UTF8ToISO8859x_overlong_three (c : Nat) (hc : c < 0x800) (fuel i : Nat)
    (tail out : List Byte) :
    UTF8ToISO8859x.loop xmltranscodetable_ISO8859_15 (fuel + 1)
      (toByte (0xE0 ||| (c >>> 12)) :: toByte (0x80 ||| ((c >>> 6) &&& 0x3F))
        :: toByte (0x80 ||| (c &&& 0x3F)) :: tail) i out
      = ⟨-2, i, out⟩ := by
  have hc12 : c >>> 12 = 0 := by rw [Nat.shiftRight_eq_div_pow]; omega
  obtain ⟨l1, l2, l3⟩ := three_byte_lead ⟨0, by omega⟩
  obtain ⟨k1, k2⟩ := continuation_byte ⟨(c >>> 6) &&& 0x3F, and_63_lt _⟩
  obtain ⟨m1, m2⟩ := continuation_byte ⟨c &&& 0x3F, and_63_lt c⟩
  simp only at l1 l2 l3 k1 k2 m1 m2
  rw [hc12]
  have h1 : ¬ (toByte (0xE0 ||| 0)).val < 0x80 := by omega
  have h2 : ¬ (toByte (0xE0 ||| 0)).val < 0xC0 := by omega
  have h3 : ¬ (toByte (0xE0 ||| 0)).val < 0xE0 := by omega
  have hsel : xmltranscodetable_ISO8859_15.getD (32 + 0) 0 = 0 := rfl
  have hp1 := xmltranscodetable_page0 ⟨(c >>> 6) &&& 0x3F, and_63_lt _⟩
  have hp2 := xmltranscodetable_page0 ⟨c &&& 0x3F, and_63_lt c⟩
  simp only at hp1 hp2
  simp only [UTF8ToISO8859x.loop, h1, h2, h3, l2, if_true, if_false, k1, m1, ne_eq,
    not_true_eq_false, k2, m2, l3, hsel, hp1, hp2, Nat.add_sub_cancel]

/-! ## A leading byte at the end of the string -/

/-- C1. Probe and transcoder agree from UTF-8 to Latin-1: on every input byte string, with an
output capacity of at least the input length, `getUtf8ToISOLatin1_RequiredLength` and
`UTF8Toisolat1` return the same status and the same consumed count, and the output length of
the probe is the number of bytes the transcoder stored. -/
theorem probe_parity_UTF8Toisolat1 (s : List Byte) (outlen : Nat) (h : s.length ≤ outlen) :
    (getUtf8ToISOLatin1_RequiredLength (some s)).status = (UTF8Toisolat1 outlen (some s)).status ∧
    (getUtf8ToISOLatin1_RequiredLength (some s)).inlen = (UTF8Toisolat1 outlen (some s)).inlen ∧
    (getUtf8ToISOLatin1_RequiredLength (some s)).outlen
      = (UTF8Toisolat1 outlen (some s)).outlen :=
  latin1_probe_loop_parity outlen s.length s 0 0 [] 0 (by simpa using h)

theorem probe_parity_UTF8Toisolat1_witness :
    ([0x41, 0xC3, 0xA9, 0xE2, 0x82, 0xAC, 0xC3] : List Byte).length ≤ 7 ∧
    (getUtf8ToISOLatin1_RequiredLength (some [0x41, 0xC3, 0xA9, 0xE2, 0x82, 0xAC, 0xC3])).outlen
      = (UTF8Toisolat1 7 (some [0x41, 0xC3, 0xA9, 0xE2, 0x82, 0xAC, 0xC3])).outlen ∧
    (UTF8Toisolat1 7 (some [0x41, 0xC3, 0xA9, 0xE2, 0x82, 0xAC, 0xC3])).out = [0x41, 0xE9, 0xBF] :=
  ⟨by decide,
    (probe_parity_UTF8Toisolat1 [0x41, 0xC3, 0xA9, 0xE2, 0x82, 0xAC, 0xC3] 7 (by decide)).2.2,
    by decide⟩

/-- C2. Probe and transcoder agree from UTF-8 to Latin-9: on every input byte string,
well-formed or not, and for every declared capacity, `getUTF8ToISO8859_15RequiredLength` and
`UTF8ToISO8859_15` return the same status and the same consumed count, and the output length
of the probe is the number of bytes the transcoder stored. -/
theorem probe_parity_UTF8ToISO8859_15 (s : List Byte) (outlen : Nat) :
    (getUTF8ToISO8859_15RequiredLength (some s)).status
      = (UTF8ToISO8859_15 outlen (some s)).status ∧
    (getUTF8ToISO8859_15RequiredLength (some s)).inlen
      = (UTF8ToISO8859_15 outlen (some s)).inlen ∧
    (getUTF8ToISO8859_15RequiredLength (some s)).outlen
      = (UTF8ToISO8859_15 outlen (some s)).outlen :=
  latin9_probe_loop_parity s.length s 0 [] 0

/-- C3. Exactly sized buffer from Latin-9 to UTF-8: on every Latin-9 byte string the probe
`getISO8859_15ToUTF8RequiredLength` returns status 0 having consumed the whole input, and
`ISO8859_15ToUTF8` called with the capacity the probe reports, or with any larger one, returns
status 0, consumes the whole input and stores exactly the reported number of bytes. -/
theorem exact_buffer_ISO8859_15ToUTF8 (s : List Byte) (outlen : Nat)
    (h : (getISO8859_15ToUTF8RequiredLength s).outlen ≤ outlen) :
    (getISO8859_15ToUTF8RequiredLength s).status = 0 ∧
    (getISO8859_15ToUTF8RequiredLength s).inlen = s.length ∧
    (ISO8859_15ToUTF8 outlen s).status = 0 ∧
    (ISO8859_15ToUTF8 outlen s).inlen = s.length ∧
    (ISO8859_15ToUTF8 outlen s).outlen = (getISO8859_15ToUTF8RequiredLength s).outlen := by
  have hp : getISO8859_15ToUTF8RequiredLength s = _ :=
    getISO8859_15ToUTF8RequiredLength_loop_eq s.length s 0 0 0 (le_refl _)
  rw [hp] at h ⊢
  simp only [Nat.zero_add] at h ⊢
  obtain ⟨m, hm, heq, hmax⟩ := bytewise_spec xmlunicodetable_ISO8859_15 outlen
    xmlunicodetable_ISO8859_15_nonzero s 0 []
  have hall : m = s.length :=
    Nat.le_antisymm hm (hmax s.length (le_refl _) (by simpa using h))
  subst hall
  rw [ISO8859_15ToUTF8, ISO8859xToUTF8_eq_bytewise, heq]
  simp [Result.outlen]

theorem exact_buffer_ISO8859_15ToUTF8_witness :
    (getISO8859_15ToUTF8RequiredLength [0x41, 0xA4, 0xE9, 0x42]).outlen ≤ 7 ∧
    (ISO8859_15ToUTF8 7 [0x41, 0xA4, 0xE9, 0x42]).outlen = 7 ∧
    (ISO8859_15ToUTF8 7 [0x41, 0xA4, 0xE9, 0x42]).inlen = 4 :=
  ⟨by decide,
    (exact_buffer_ISO8859_15ToUTF8 [0x41, 0xA4, 0xE9, 0x42] 7 (by decide)).2.2.2.2.trans
      (by decide),
    by decide⟩

/-- C5. The Latin-1 and Windows-1252 converters respect the output capacity: for every input
byte string and every declared capacity, each of `UTF8Toisolat1`, `utf8ToCp1252` and
`isolat1ToUTF8` stores at most `outlen` bytes and consumes at most the declared input
length. -/
theorem capacity_respected_latin1_cp1252 (s : List Byte) (outlen : Nat) :
    (UTF8Toisolat1 outlen (some s)).outlen ≤ outlen ∧
    (UTF8Toisolat1 outlen (some s)).inlen ≤ s.length ∧
    (utf8ToCp1252 outlen (some s)).outlen ≤ outlen ∧
    (utf8ToCp1252 outlen (some s)).inlen ≤ s.length ∧
    (isolat1ToUTF8 outlen s).outlen ≤ outlen ∧
    (isolat1ToUTF8 outlen s).inlen ≤ s.length := by
  have h1 := UTF8Toisolat1_loop_bounds outlen s.length s 0 0 [] (le_refl _) (by simp)
  have h2 := utf8ToCp1252_loop_bounds outlen s.length s 0 0 [] (le_refl _) (by simp)
  obtain ⟨m, hm, heq, hfit, -⟩ := isolat1ToUTF8_spec outlen s
  simp only [Nat.zero_add] at h1 h2
  refine ⟨h1.1, h1.2, h2.1, h2.2, ?_, ?_⟩
  · rw [heq]; exact hfit
  · rw [heq]; exact hm

/-- C6. `ISO8859_15ToUTF8` is to store at most `outlen` bytes, also when the next character needs
three bytes and two are left. The code does not: on the euro sign `0xA4` with a capacity of 2
it stores the three bytes `E2 82 AC` and reports 3 bytes produced. -/
theorem ISO8859_15ToUTF8_overrun :
    ISO8859_15ToUTF8 2 [0xA4] = ⟨0, 1, [0xE2, 0x82, 0xAC]⟩ ∧
    ¬ (ISO8859_15ToUTF8 2 [0xA4]).outlen ≤ 2 := by
  decide

/-- C7. `UTF8ToISO8859_15` is to store at most `outlen` bytes. The code never reads the
capacity: on the input `AB` with a capacity of 1 it stores both bytes and reports 2 bytes
produced, and it does the same with a capacity of 0. -/
theorem UTF8ToISO8859_15_overrun :
    UTF8ToISO8859_15 1 (some [0x41, 0x42]) = ⟨0, 2, [0x41, 0x42]⟩ ∧
    ¬ (UTF8ToISO8859_15 1 (some [0x41, 0x42])).outlen ≤ 1 ∧
    UTF8ToISO8859_15 0 (some [0x41, 0x42]) = ⟨0, 2, [0x41, 0x42]⟩ := by
  decide

/-- C8. `UTF8Toisolat1` on well-formed input: for every list `cps` of code points, each in its
shortest UTF-8 form of 1 to 4 bytes, and every capacity of at least `cps.length`, the call
returns status 0, consumes the whole input and stores one byte a code point, the code point
itself up to `0xFF` and the replacement byte `0xBF` above; so U+20AC, `E2 82 AC`, gives the
single byte `0xBF` with status 0. -/
theorem UTF8Toisolat1_wellformed (cps : List Nat) (outlen : Nat)
    (hcps : ∀ c ∈ cps, c ≤ 0x10FFFF) (hcap : cps.length ≤ outlen) :
    UTF8Toisolat1 outlen (some (cps.flatMap utf8Encode))
      = ⟨0, (cps.flatMap utf8Encode).length, cps.map latin1Byte⟩ ∧
    utf8Encode 0x20AC = [0xE2, 0x82, 0xAC] ∧
    UTF8Toisolat1 1 (some [0xE2, 0x82, 0xAC]) = ⟨0, 3, [0xBF]⟩ := by
  refine ⟨?_, by decide, by decide⟩
  have := UTF8Toisolat1_loop_encoded outlen cps (cps.flatMap utf8Encode).length 0 [] hcps
    (length_le_flatMap_utf8Encode cps) (by simpa using hcap)
  simpa [UTF8Toisolat1] using this

theorem UTF8Toisolat1_wellformed_witness :
    (∀ c ∈ [0x41, 0xE9, 0x20AC, 0x1F600], c ≤ 0x10FFFF) ∧
    ([0x41, 0xE9, 0x20AC, 0x1F600] : List Nat).length ≤ 4 ∧
    UTF8Toisolat1 4 (some ([0x41, 0xE9, 0x20AC, 0x1F600].flatMap utf8Encode))
      = ⟨0, ([0x41, 0xE9, 0x20AC, 0x1F600].flatMap utf8Encode).length,
          [0x41, 0xE9, 0x20AC, 0x1F600].map latin1Byte⟩ ∧
    [0x41, 0xE9, 0x20AC, 0x1F600].flatMap utf8Encode
      = [0x41, 0xC3, 0xA9, 0xE2, 0x82, 0xAC, 0xF0, 0x9F, 0x98, 0x80] ∧
    [0x41, 0xE9, 0x20AC, 0x1F600].map latin1Byte = [0x41, 0xE9, 0xBF, 0xBF] :=
  ⟨by decide, by decide,
    (UTF8Toisolat1_wellformed [0x41, 0xE9, 0x20AC, 0x1F600] 4 (by decide) (by decide)).1,
    by decide, by decide⟩

/-- C9. The Windows-1252 substitution map: for every code point `c` in `0x100..0xFFFF`, given in
its shortest UTF-8 form with at least one byte of capacity, `utf8ToCp1252` returns status 0,
consumes the sequence and stores one byte, the byte of `c` in the map of 27 code points or
`0xBF` when `c` is not in the map; the map gives one byte a code point, no byte twice, and
bytes of `0x80..0x9F` only. -/
theorem utf8ToCp1252_substitution (c outlen : Nat) (hlo : 0x100 ≤ c) (hhi : c ≤ 0xFFFF)
    (hcap : 1 ≤ outlen) :
    utf8ToCp1252 outlen (some (utf8Encode c)) = ⟨0, (utf8Encode c).length, [cp1252Byte c]⟩ ∧
    (cp1252Map.lookup c = none → cp1252Byte c = toByte 0xBF) ∧
    (∀ v, (c, v) ∈ cp1252Map → cp1252Byte c = toByte v) ∧
    cp1252Map.length = 27 ∧
    (∀ p ∈ cp1252Map, ∀ q ∈ cp1252Map, p.2 = q.2 → p = q) ∧
    (∀ p ∈ cp1252Map, 0x80 ≤ p.2 ∧ p.2 ≤ 0x9F) := by
  obtain ⟨f1, f2, f3, f4⟩ := cp1252Map_facts
  have hc : ¬ c ≤ 0xFF := by omega
  obtain ⟨f, hf⟩ : ∃ f, (utf8Encode c).length = f + 1 :=
    ⟨(utf8Encode c).length - 1, by have := utf8Encode_length_pos c; omega⟩
  have hstep := utf8ToCp1252_loop_step outlen f c (by omega) [] 0 0 [] (by simpa using hcap)
  rw [List.append_nil] at hstep
  refine ⟨?_, ?_, ?_, f1, f3, fun p hp => ⟨(f4 p hp).2.2.1, (f4 p hp).2.2.2⟩⟩
  · have hnil : ∀ (i : Nat) (out : List Byte),
        utf8ToCp1252.loop outlen f [] i i out = ⟨0, i, out⟩ := by
      intro i out
      cases f <;> simp [utf8ToCp1252.loop]
    show utf8ToCp1252.loop outlen (utf8Encode c).length (utf8Encode c) 0 0 [] = _
    rw [hf, hstep, hnil, hf]
    simp only [hc, if_false, List.nil_append, Nat.zero_add, cp1252Byte, cp1252Subs_eq_lookup]
  · intro hnone
    simp [cp1252Byte, hnone]
  · intro v hv
    have hsome : cp1252Map.lookup c = some v := by
      rcases hl : cp1252Map.lookup c with _ | w
      · have := List.lookup_eq_none_iff.mp hl
        exact absurd (this (c, v) hv) (by simp)
      · obtain ⟨p, hp, hpe⟩ : ∃ p ∈ cp1252Map, p = (c, w) := by
          have hmem : (c, w) ∈ cp1252Map := by
            have key : ∀ (l : List (Nat × Nat)), l.lookup c = some w → (c, w) ∈ l := by
              intro l
              induction l with
              | nil => simp
              | cons q l ih =>
                obtain ⟨k, u⟩ := q
                rw [lookup_cons_ite]
                split
                · rename_i hck
                  intro hu
                  simp only [Option.some.injEq] at hu
                  simp [hck, hu]
                · intro hu
                  exact List.mem_cons_of_mem _ (ih hu)
            exact key _ hl
          exact ⟨_, hmem, rfl⟩
        subst hpe
        have := f2 (c, w) hp (c, v) hv rfl
        simp only [Prod.mk.injEq, true_and] at this
        rw [this]
    simp [cp1252Byte, hsome]

theorem utf8ToCp1252_substitution_witness :
    0x100 ≤ 0x20AC ∧ 0x20AC ≤ 0xFFFF ∧ 1 ≤ 1 ∧
    utf8ToCp1252 1 (some (utf8Encode 0x20AC)) = ⟨0, (utf8Encode 0x20AC).length,
      [cp1252Byte 0x20AC]⟩ ∧
    cp1252Byte 0x20AC = 0x80 ∧ cp1252Byte 0x2603 = 0xBF :=
  ⟨by decide, by decide, by decide,
    (utf8ToCp1252_substitution 0x20AC 1 (by decide) (by decide) (by decide)).1,
    by decide, by decide⟩

/-- C10. `isolat1ToUTF8` against its reference, for every capacity: on every Latin-1 byte string
the call returns status 0, the bytes stored are the UTF-8 encodings, one after the other, of
the input bytes consumed, they fit the capacity, and the consumed prefix is the longest prefix
of the input whose encoding fits; so no two-byte sequence is ever split. -/
theorem isolat1ToUTF8_reference (s : List Byte) (outlen : Nat) :
    (isolat1ToUTF8 outlen s).status = 0 ∧
    (isolat1ToUTF8 outlen s).inlen ≤ s.length ∧
    (isolat1ToUTF8 outlen s).out = latin1EncodeAll (s.take (isolat1ToUTF8 outlen s).inlen) ∧
    (isolat1ToUTF8 outlen s).outlen ≤ outlen ∧
    (∀ m, m ≤ s.length → (latin1EncodeAll (s.take m)).length ≤ outlen →
      m ≤ (isolat1ToUTF8 outlen s).inlen) := by
  obtain ⟨m, hm, heq, hfit, hmax⟩ := isolat1ToUTF8_spec outlen s
  rw [heq]
  exact ⟨rfl, hm, rfl, hfit, hmax⟩

/-- C11. `ISO8859_15ToUTF8` only ever emits whole characters: for every Latin-9 byte string and
every capacity the call returns status 0, and the bytes stored are the UTF-8 encodings, one
after the other, of the code points of the first `inlen` input bytes, `inlen` being the
consumed count it reports (the code point of `b` is `xmlunicodetable_ISO8859_15[b - 0x80]`, or
`b` itself below `0x80`); so no part of a multi-byte sequence is stored without the rest. -/
theorem ISO8859_15ToUTF8_whole_characters (s : List Byte) (outlen : Nat) :
    (ISO8859_15ToUTF8 outlen s).status = 0 ∧
    (ISO8859_15ToUTF8 outlen s).inlen ≤ s.length ∧
    (ISO8859_15ToUTF8 outlen s).out
      = (s.take (ISO8859_15ToUTF8 outlen s).inlen).flatMap latin9Encode := by
  obtain ⟨m, hm, heq, -⟩ := ISO8859_15ToUTF8_spec outlen s
  rw [heq]
  exact ⟨rfl, hm, rfl⟩

/-- C12. Round trip through Latin-1: for every list of code points up to `0xFF`, with `u` its
shortest-form UTF-8 encoding, `UTF8Toisolat1` on `u` with a capacity of at least one byte a
code point returns status 0, consumes `u` whole and stores one byte a code point, and
`isolat1ToUTF8` on those bytes with a capacity of at least the length of `u` returns status 0,
consumes them all and stores exactly `u`. -/
theorem roundtrip_latin1 (cps : List Nat) (outlen outlen' : Nat)
    (hcps : ∀ c ∈ cps, c ≤ 0xFF) (hcap : cps.length ≤ outlen)
    (hcap' : (cps.flatMap utf8Encode).length ≤ outlen') :
    UTF8Toisolat1 outlen (some (cps.flatMap utf8Encode))
      = ⟨0, (cps.flatMap utf8Encode).length, cps.map latin1Byte⟩ ∧
    isolat1ToUTF8 outlen' (UTF8Toisolat1 outlen (some (cps.flatMap utf8Encode))).out
      = ⟨0, cps.length, cps.flatMap utf8Encode⟩ := by
  have h1 : UTF8Toisolat1 outlen (some (cps.flatMap utf8Encode))
      = ⟨0, (cps.flatMap utf8Encode).length, cps.map latin1Byte⟩ := by
    have := UTF8Toisolat1_loop_encoded outlen cps (cps.flatMap utf8Encode).length 0 []
      (fun c hc => by have := hcps c hc; omega)
      (length_le_flatMap_utf8Encode cps) (by simpa using hcap)
    simpa [UTF8Toisolat1] using this
  refine ⟨h1, ?_⟩
  rw [h1]
  have henc := latin1EncodeAll_map_latin1Byte cps hcps
  rw [isolat1ToUTF8_enough outlen' (cps.map latin1Byte) (by rw [henc]; exact hcap'), henc]
  simp

theorem roundtrip_latin1_witness :
    (∀ c ∈ [0x41, 0xE9, 0xFF, 0x80], c ≤ 0xFF) ∧
    ([0x41, 0xE9, 0xFF, 0x80] : List Nat).length ≤ 4 ∧
    ([0x41, 0xE9, 0xFF, 0x80].flatMap utf8Encode).length ≤ 7 ∧
    [0x41, 0xE9, 0xFF, 0x80].flatMap utf8Encode = [0x41, 0xC3, 0xA9, 0xC3, 0xBF, 0xC2, 0x80] ∧
    isolat1ToUTF8 7 (UTF8Toisolat1 4 (some ([0x41, 0xE9, 0xFF, 0x80].flatMap utf8Encode))).out
      = ⟨0, ([0x41, 0xE9, 0xFF, 0x80] : List Nat).length,
          [0x41, 0xE9, 0xFF, 0x80].flatMap utf8Encode⟩ :=
  ⟨by decide, by decide, by decide, by decide,
    (roundtrip_latin1 [0x41, 0xE9, 0xFF, 0x80] 4 7 (by decide) (by decide) (by decide)).2⟩

/-- C13. Round trip through Latin-9: for every list of code points each below `0x80` or an entry
of `xmlunicodetable_ISO8859_15`, with `u` its shortest-form UTF-8 encoding, `UTF8ToISO8859_15`
on `u` returns status 0, consumes `u` whole and stores one byte a code point, and
`ISO8859_15ToUTF8` on those bytes with a capacity of at least the length of `u` returns status
0, consumes them all and stores exactly `u`; the transcoding table sends the encoding of the
code point of every byte `b` back to `b`. -/
theorem roundtrip_latin9 (cps : List Nat) (outlen outlen' : Nat)
    (hcps : ∀ c ∈ cps, c < 0x80 ∨ c ∈ xmlunicodetable_ISO8859_15)
    (hcap' : (cps.flatMap utf8Encode).length ≤ outlen') :
    (UTF8ToISO8859_15 outlen (some (cps.flatMap utf8Encode))).status = 0 ∧
    (UTF8ToISO8859_15 outlen (some (cps.flatMap utf8Encode))).inlen
      = (cps.flatMap utf8Encode).length ∧
    (UTF8ToISO8859_15 outlen (some (cps.flatMap utf8Encode))).outlen = cps.length ∧
    (UTF8ToISO8859_15 outlen (some (cps.flatMap utf8Encode))).out.map latin9CodePoint = cps ∧
    ISO8859_15ToUTF8 outlen' (UTF8ToISO8859_15 outlen (some (cps.flatMap utf8Encode))).out
      = ⟨0, cps.length, cps.flatMap utf8Encode⟩ ∧
    (∀ b : Byte, UTF8ToISO8859_15 outlen (some (utf8Encode (latin9CodePoint b)))
      = ⟨0, (utf8Encode (latin9CodePoint b)).length, [b]⟩) := by
  obtain ⟨l, rfl⟩ := latin9_repertoire_list cps hcps
  rw [flatMap_latin9Encode] at hcap' ⊢
  have h1 : UTF8ToISO8859_15 outlen (some (l.flatMap latin9Encode))
      = ⟨0, (l.flatMap latin9Encode).length, l⟩ := by
    have := UTF8ToISO8859x_loop_latin9 l (l.flatMap latin9Encode).length 0 [] (le_refl _)
    simpa [UTF8ToISO8859_15, UTF8ToISO8859x] using this
  rw [h1]
  refine ⟨rfl, rfl, by simp [Result.outlen], rfl, ?_, ?_⟩
  · rw [ISO8859_15ToUTF8_enough outlen' l hcap']
    simp
  · intro b
    exact UTF8ToISO8859x_latin9Encode b

theorem roundtrip_latin9_witness :
    (∀ c ∈ [0x41, 0x20AC, 0xE9, 0x160], c < 0x80 ∨ c ∈ xmlunicodetable_ISO8859_15) ∧
    ([0x41, 0x20AC, 0xE9, 0x160].flatMap utf8Encode).length ≤ 8 ∧
    [0x41, 0x20AC, 0xE9, 0x160].flatMap utf8Encode
      = [0x41, 0xE2, 0x82, 0xAC, 0xC3, 0xA9, 0xC5, 0xA0] ∧
    (UTF8ToISO8859_15 0 (some ([0x41, 0x20AC, 0xE9, 0x160].flatMap utf8Encode))).out
      = [0x41, 0xA4, 0xE9, 0xA6] ∧
    ISO8859_15ToUTF8 8
        (UTF8ToISO8859_15 0 (some ([0x41, 0x20AC, 0xE9, 0x160].flatMap utf8Encode))).out
      = ⟨0, ([0x41, 0x20AC, 0xE9, 0x160] : List Nat).length,
          [0x41, 0x20AC, 0xE9, 0x160].flatMap utf8Encode⟩ :=
  ⟨by decide, by decide, by decide, by decide,
    (roundtrip_latin9 [0x41, 0x20AC, 0xE9, 0x160] 0 8 (by decide) (by decide)).2.2.2.2.1⟩

/-- C14. ASCII identity of the bounded converters: for every byte string `s` of bytes below
`0x80` and every capacity of at least the length of `s`, each of `UTF8Toisolat1`,
`isolat1ToUTF8`, `UTF8ToISO8859_15`, `ISO8859_15ToUTF8` and `utf8ToCp1252` returns status 0,
consumes `s` whole and stores exactly `s`. -/
theorem ascii_identity (s : List Byte) (outlen : Nat) (hs : ∀ b ∈ s, b.val < 0x80)
    (hcap : s.length ≤ outlen) :
    UTF8Toisolat1 outlen (some s) = ⟨0, s.length, s⟩ ∧
    isolat1ToUTF8 outlen s = ⟨0, s.length, s⟩ ∧
    UTF8ToISO8859_15 outlen (some s) = ⟨0, s.length, s⟩ ∧
    ISO8859_15ToUTF8 outlen s = ⟨0, s.length, s⟩ ∧
    utf8ToCp1252 outlen (some s) = ⟨0, s.length, s⟩ := by
  have e1 := flatMap_storedFor_ascii latin1Table s hs
  have e9 := flatMap_storedFor_ascii xmlunicodetable_ISO8859_15 s hs
  rw [flatMap_storedFor_latin1Table] at e1
  rw [flatMap_storedFor_latin9] at e9
  refine ⟨?_, ?_, ?_, ?_, ?_⟩
  · have := UTF8Toisolat1_loop_ascii outlen s s.length 0 [] hs (le_refl _) (by simpa using hcap)
    simpa [UTF8Toisolat1] using this
  · rw [isolat1ToUTF8_enough outlen s (by rw [e1]; exact hcap), e1]
  · have := UTF8ToISO8859x_loop_ascii xmltranscodetable_ISO8859_15 s s.length 0 [] hs
      (le_refl _)
    simpa [UTF8ToISO8859_15, UTF8ToISO8859x] using this
  · rw [ISO8859_15ToUTF8_enough outlen s (by rw [e9]; exact hcap), e9]
  · have := utf8ToCp1252_loop_ascii outlen s s.length 0 [] hs (le_refl _) (by simpa using hcap)
    simpa [utf8ToCp1252] using this

set_option maxRecDepth 100000 in
theorem ascii_identity_witness :
    (∀ b ∈ ([0x48, 0x69, 0x00, 0x7F] : List Byte), b.val < 0x80) ∧
    ([0x48, 0x69, 0x00, 0x7F] : List Byte).length ≤ 4 ∧
    ISO8859_15ToUTF8 4 [0x48, 0x69, 0x00, 0x7F] = ⟨0, 4, [0x48, 0x69, 0x00, 0x7F]⟩ ∧
    UTF8ToISO8859_15 4 (some [0x48, 0x69, 0x00, 0x7F]) = ⟨0, 4, [0x48, 0x69, 0x00, 0x7F]⟩ :=
  ⟨by decide, by decide,
    (ascii_identity [0x48, 0x69, 0x00, 0x7F] 4 (by decide) (by decide)).2.2.2.1,
    by decide⟩

/-- C16. On the empty string each allocating wrapper is to leave in `*out` a fresh block of one
byte holding the terminator. The code does not: after `*out = malloc(1)` the statement
`*out = '\0'` stores the null pointer in `*out`, so each of the four wrappers returns rc 0 with
`wasTranscoded` 1 and `*out` null. -/
theorem empty_input_null_pointer :
    utf8ToLatin1 (some [0]) = ⟨0, .null, 1⟩ ∧
    latin1ToUtf8 (some [0]) = ⟨0, .null, 1⟩ ∧
    utf8ToLatin9 (some [0]) = ⟨0, .null, 1⟩ ∧
    latin9ToUtf8 (some [0]) = ⟨0, .null, 1⟩ ∧
    utf8ToLatin1 (some [0]) ≠ ⟨0, .fresh 1 [0], 1⟩ := by
  decide

/-- C17. A malformed leading byte is detected: when the input is sequences that the converter
accepts (a prefix `pre` which, run alone, gives status 0 and is consumed whole, one byte stored
a sequence) followed by a byte of `0x80..0xBF` or `0xF8..0xFF`, whatever comes after it, each
of `UTF8Toisolat1`, `utf8ToCp1252` and `UTF8ToISO8859_15` returns status -2, reports
`pre.length` bytes consumed and has stored the bytes of the accepted sequences; the sole input
byte `0xFF` gives status -2 with nothing consumed and nothing stored. -/
theorem malformed_leading_byte (pre tail : List Byte) (bad : Byte) (outlen : Nat)
    (hbad : (0x80 ≤ bad.val ∧ bad.val ≤ 0xBF) ∨ 0xF8 ≤ bad.val) :
    ((UTF8Toisolat1 outlen (some pre)).status = 0 ∧
        (UTF8Toisolat1 outlen (some pre)).inlen = pre.length →
      UTF8Toisolat1 outlen (some (pre ++ bad :: tail))
        = ⟨-2, pre.length, (UTF8Toisolat1 outlen (some pre)).out⟩) ∧
    ((utf8ToCp1252 outlen (some pre)).status = 0 ∧
        (utf8ToCp1252 outlen (some pre)).inlen = pre.length →
      utf8ToCp1252 outlen (some (pre ++ bad :: tail))
        = ⟨-2, pre.length, (utf8ToCp1252 outlen (some pre)).out⟩) ∧
    ((UTF8ToISO8859_15 outlen (some pre)).status = 0 ∧
        (UTF8ToISO8859_15 outlen (some pre)).inlen = pre.length →
      UTF8ToISO8859_15 outlen (some (pre ++ bad :: tail))
        = ⟨-2, pre.length, (UTF8ToISO8859_15 outlen (some pre)).out⟩) ∧
    UTF8Toisolat1 outlen (some [0xFF]) = ⟨-2, 0, []⟩ ∧
    utf8ToCp1252 outlen (some [0xFF]) = ⟨-2, 0, []⟩ ∧
    UTF8ToISO8859_15 outlen (some [0xFF]) = ⟨-2, 0, []⟩ := by
  have hl := leading_malformed bad hbad
  refine ⟨?_, ?_, ?_, ?_, ?_, ?_⟩
  · intro h
    rw [UTF8Toisolat1_after outlen pre (bad :: tail) h]
    simp [UTF8Toisolat1.loop, hl]
  · intro h
    rw [utf8ToCp1252_after outlen pre (bad :: tail) h]
    simp [utf8ToCp1252.loop, hl]
  · intro h
    rw [UTF8ToISO8859_15_after outlen pre (bad :: tail) h]
    have h1 : ¬ bad.val < 0x80 := by omega
    simp only [List.length_cons, UTF8ToISO8859x.loop, h1, if_false]
    by_cases h2 : bad.val < 0xC0
    · simp [h2]
    · have h3 : ¬ bad.val < 0xE0 := by omega
      have h4 : ¬ bad.val < 0xF0 := by omega
      simp [h2, h3, h4]
  · have : leading ((0xFF : Byte) : Byte).val = none := by decide
    simp [UTF8Toisolat1, UTF8Toisolat1.loop, this]
  · have : leading ((0xFF : Byte) : Byte).val = none := by decide
    simp [utf8ToCp1252, utf8ToCp1252.loop, this]
  · show UTF8ToISO8859x.loop xmltranscodetable_ISO8859_15 1 [0xFF] 0 [] = _
    decide

theorem malformed_leading_byte_witness :
    ((0x80 ≤ (0x80 : Byte).val ∧ (0x80 : Byte).val ≤ 0xBF) ∨ 0xF8 ≤ (0x80 : Byte).val) ∧
    UTF8Toisolat1 5 (some [0x41, 0xC3, 0xA9]) = ⟨0, 3, [0x41, 0xE9]⟩ ∧
    UTF8Toisolat1 5 (some ([0x41, 0xC3, 0xA9] ++ 0x80 :: [0x42]))
      = ⟨-2, 3, (UTF8Toisolat1 5 (some [0x41, 0xC3, 0xA9])).out⟩ ∧
    UTF8ToISO8859_15 5 (some ([0x41, 0xC3, 0xA9] ++ 0x80 :: [0x42]))
      = ⟨-2, 3, (UTF8ToISO8859_15 5 (some [0x41, 0xC3, 0xA9])).out⟩ :=
  ⟨by decide, by decide,
    (malformed_leading_byte [0x41, 0xC3, 0xA9] [0x42] 0x80 5 (by decide)).1 (by decide),
    (malformed_leading_byte [0x41, 0xC3, 0xA9] [0x42] 0x80 5 (by decide)).2.2.1 (by decide)⟩

/-- C18. An incomplete trailing sequence is a request for more input in `UTF8Toisolat1` and
`utf8ToCp1252`: when the input is sequences that the converter accepts (a prefix `pre` which,
run alone, gives status 0 and is consumed whole) followed by a leading byte of `0xC0..0xF7`
and fewer bytes than the continuation bytes it declares, the call returns status 0, reports
`pre.length` bytes consumed and has stored the bytes of the accepted sequences; the sole input
byte `0xC2` gives status 0 with nothing consumed and nothing stored. -/
theorem incomplete_trailing_sequence (pre conts : List Byte) (lead : Byte) (outlen : Nat)
    (hlead : 0xC0 ≤ lead.val ∧ lead.val ≤ 0xF7)
    (hshort : conts.length < if lead.val < 0xE0 then 1 else if lead.val < 0xF0 then 2 else 3) :
    ((UTF8Toisolat1 outlen (some pre)).status = 0 ∧
        (UTF8Toisolat1 outlen (some pre)).inlen = pre.length →
      UTF8Toisolat1 outlen (some (pre ++ lead :: conts))
        = ⟨0, pre.length, (UTF8Toisolat1 outlen (some pre)).out⟩) ∧
    ((utf8ToCp1252 outlen (some pre)).status = 0 ∧
        (utf8ToCp1252 outlen (some pre)).inlen = pre.length →
      utf8ToCp1252 outlen (some (pre ++ lead :: conts))
        = ⟨0, pre.length, (utf8ToCp1252 outlen (some pre)).out⟩) ∧
    UTF8Toisolat1 outlen (some [0xC2]) = ⟨0, 0, []⟩ ∧
    utf8ToCp1252 outlen (some [0xC2]) = ⟨0, 0, []⟩ := by
  obtain ⟨c, hl⟩ := leading_declares lead hlead
  have hC2 : leading ((0xC2 : Byte) : Byte).val = some (2, 1) := by decide
  refine ⟨?_, ?_, ?_, ?_⟩
  · intro h
    rw [UTF8Toisolat1_after outlen pre (lead :: conts) h]
    simp [UTF8Toisolat1.loop, hl, hshort]
  · intro h
    rw [utf8ToCp1252_after outlen pre (lead :: conts) h]
    simp [utf8ToCp1252.loop, hl, hshort]
  · simp [UTF8Toisolat1, UTF8Toisolat1.loop, hC2]
  · simp [utf8ToCp1252, utf8ToCp1252.loop, hC2]

theorem incomplete_trailing_sequence_witness :
    (0xC0 ≤ (0xE2 : Byte).val ∧ (0xE2 : Byte).val ≤ 0xF7) ∧
    ([0x82] : List Byte).length
      < (if (0xE2 : Byte).val < 0xE0 then 1 else if (0xE2 : Byte).val < 0xF0 then 2 else 3) ∧
    UTF8Toisolat1 5 (some ([0x41, 0xC3, 0xA9] ++ 0xE2 :: [0x82]))
      = ⟨0, 3, (UTF8Toisolat1 5 (some [0x41, 0xC3, 0xA9])).out⟩ ∧
    (UTF8Toisolat1 5 (some [0x41, 0xC3, 0xA9])).out = [0x41, 0xE9] :=
  ⟨by decide, by decide,
    (incomplete_trailing_sequence [0x41, 0xC3, 0xA9] [0x82] 0xE2 5 (by decide) (by decide)).1
      (by decide),
    by decide⟩

/-- C19, as amended. `UTF8ToISO8859_15` treats an incomplete trailing sequence as a failure: when
the input is sequences that the converter accepts (a prefix `pre` which, run alone, gives status
0 and is consumed whole) followed by a leading byte of `0xC0..0xDF` with no byte after it, or
by a leading byte of `0xE0..0xEF` with fewer than two bytes after it, the call returns status
-2, reports `pre.length` bytes consumed, the bytes before that leading byte, and has stored the
bytes of the accepted sequences. -/
theorem UTF8ToISO8859_15_incomplete_fails (pre conts : List Byte) (lead : Byte) (outlen : Nat)
    (hlead : 0xC0 ≤ lead.val ∧ lead.val ≤ 0xEF)
    (hshort : conts.length < if lead.val < 0xE0 then 1 else 2)
    (hpre : (UTF8ToISO8859_15 outlen (some pre)).status = 0 ∧
      (UTF8ToISO8859_15 outlen (some pre)).inlen = pre.length) :
    UTF8ToISO8859_15 outlen (some (pre ++ lead :: conts))
      = ⟨-2, pre.length, (UTF8ToISO8859_15 outlen (some pre)).out⟩ := by
  rw [UTF8ToISO8859_15_after outlen pre (lead :: conts) hpre]
  have h1 : ¬ lead.val < 0x80 := by omega
  have h2 : ¬ lead.val < 0xC0 := by omega
  simp only [List.length_cons, UTF8ToISO8859x.loop, h1, h2, if_false]
  by_cases h3 : lead.val < 0xE0
  · simp only [h3, if_true] at hshort ⊢
    obtain rfl : conts = [] := List.length_eq_zero.mp (by omega)
    simp
  · have h4 : lead.val < 0xF0 := by omega
    simp only [h3, if_false, h4, if_true] at hshort ⊢
    match conts, hshort with
    | [], _ => simp
    | [c1], _ => simp
    | _ :: _ :: _, h => simp only [List.length_cons] at h; omega

theorem UTF8ToISO8859_15_incomplete_fails_witness :
    (0xC0 ≤ (0xE2 : Byte).val ∧ (0xE2 : Byte).val ≤ 0xEF) ∧
    ([0x82] : List Byte).length < (if (0xE2 : Byte).val < 0xE0 then 1 else 2) ∧
    UTF8ToISO8859_15 5 (some ([0x41, 0xC3, 0xA9] ++ 0xE2 :: [0x82]))
      = ⟨-2, 3, (UTF8ToISO8859_15 5 (some [0x41, 0xC3, 0xA9])).out⟩ ∧
    (UTF8ToISO8859_15 5 (some [0x41, 0xC3, 0xA9])).out = [0x41, 0xE9] :=
  ⟨by decide, by decide,
    UTF8ToISO8859_15_incomplete_fails [0x41, 0xC3, 0xA9] [0x82] 0xE2 5 (by decide) (by decide)
      (by decide),
    by decide⟩

/-- C19, as stated, fails: on the sole input byte `0xC2` the call of `UTF8ToISO8859_15` returns
status -2, not 0. -/
theorem UTF8ToISO8859_15_incomplete_counterexample :
    UTF8ToISO8859_15 1 (some [0xC2]) = ⟨-2, 0, []⟩ ∧
    ¬ (UTF8ToISO8859_15 1 (some [0xC2])).status = 0 := by
  decide

/-- C20. The generic converter rejects the leading bytes of four-byte sequences and the invalid
ones: when the input is sequences that `UTF8ToISO8859_15` accepts (a prefix `pre` which, run
alone, gives status 0 and is consumed whole) followed by a byte of `0xF0` or more, whatever
comes after it, the call returns status -2, reports `pre.length` bytes consumed and has stored
the bytes of the accepted sequences. -/
theorem UTF8ToISO8859_15_rejects_F0 (pre tail : List Byte) (d : Byte) (outlen : Nat)
    (hd : 0xF0 ≤ d.val)
    (hpre : (UTF8ToISO8859_15 outlen (some pre)).status = 0 ∧
      (UTF8ToISO8859_15 outlen (some pre)).inlen = pre.length) :
    UTF8ToISO8859_15 outlen (some (pre ++ d :: tail))
      = ⟨-2, pre.length, (UTF8ToISO8859_15 outlen (some pre)).out⟩ := by
  rw [UTF8ToISO8859_15_after outlen pre (d :: tail) hpre]
  have h1 : ¬ d.val < 0x80 := by omega
  have h2 : ¬ d.val < 0xC0 := by omega
  have h3 : ¬ d.val < 0xE0 := by omega
  have h4 : ¬ d.val < 0xF0 := by omega
  simp [UTF8ToISO8859x.loop, h1, h2, h3, h4]

theorem UTF8ToISO8859_15_rejects_F0_witness :
    0xF0 ≤ (0xF0 : Byte).val ∧
    UTF8ToISO8859_15 5 (some ([0x41, 0xE2, 0x82, 0xAC] ++ 0xF0 :: [0x9F, 0x98, 0x80]))
      = ⟨-2, 4, (UTF8ToISO8859_15 5 (some [0x41, 0xE2, 0x82, 0xAC])).out⟩ ∧
    (UTF8ToISO8859_15 5 (some [0x41, 0xE2, 0x82, 0xAC])).out = [0x41, 0xA4] :=
  ⟨by decide,
    UTF8ToISO8859_15_rejects_F0 [0x41, 0xE2, 0x82, 0xAC] [0x9F, 0x98, 0x80] 0xF0 5 (by decide)
      (by decide),
    by decide⟩

/-- C21, as amended. A well-formed four-byte sequence, the shortest form of a code point of
`0x10000..0x10FFFF`, is rejected by `UTF8ToISO8859_15` only, which returns status -2 with
nothing consumed and nothing stored. `UTF8Toisolat1` and `utf8ToCp1252` accept it: with at
least one byte of capacity they return status 0, consume its four bytes and store the
replacement byte `0xBF` for it. -/
theorem four_byte_sequences (c outlen : Nat) (hlo : 0x10000 ≤ c) (hhi : c ≤ 0x10FFFF)
    (hcap : 1 ≤ outlen) :
    UTF8Toisolat1 outlen (some (utf8Encode c)) = ⟨0, 4, [0xBF]⟩ ∧
    utf8ToCp1252 outlen (some (utf8Encode c)) = ⟨0, 4, [0xBF]⟩ ∧
    UTF8ToISO8859_15 outlen (some (utf8Encode c)) = ⟨-2, 0, []⟩ := by
  have hlen := utf8Encode_four c hlo
  have hc : ¬ c ≤ 0xFF := by omega
  refine ⟨?_, ?_, ?_⟩
  · have hstep := UTF8Toisolat1_loop_step outlen 3 c hhi [] 0 0 [] (by simpa using hcap)
    rw [List.append_nil] at hstep
    show UTF8Toisolat1.loop outlen (utf8Encode c).length (utf8Encode c) 0 0 [] = _
    rw [hlen, hstep, hlen]
    simp only [latin1Byte, hc, if_false]
    rfl
  · have hstep := utf8ToCp1252_loop_step outlen 3 c hhi [] 0 0 [] (by simpa using hcap)
    rw [List.append_nil] at hstep
    show utf8ToCp1252.loop outlen (utf8Encode c).length (utf8Encode c) 0 0 [] = _
    rw [hlen, hstep, hlen]
    simp only [hc, if_false, cp1252Subs_high c hlo]
    rfl
  · have h1 : ¬ c < 0x80 := by omega
    have h2 : ¬ c < 0x800 := by omega
    have h3 : ¬ c < 0x10000 := by omega
    have hx : c >>> 18 < 8 := by rw [Nat.shiftRight_eq_div_pow]; omega
    have hd := four_byte_lead ⟨c >>> 18, hx⟩
    show UTF8ToISO8859x.loop xmltranscodetable_ISO8859_15 (utf8Encode c).length
      (utf8Encode c) 0 [] = _
    rw [hlen]
    simp only [utf8Encode, h1, h2, h3, if_false]
    exact UTF8ToISO8859x_loop_F0 _ 3 _ _ 0 [] hd

theorem four_byte_sequences_witness :
    0x10000 ≤ 0x1F600 ∧ 0x1F600 ≤ 0x10FFFF ∧ 1 ≤ 1 ∧
    utf8Encode 0x1F600 = [0xF0, 0x9F, 0x98, 0x80] ∧
    UTF8Toisolat1 1 (some (utf8Encode 0x1F600)) = ⟨0, 4, [0xBF]⟩ :=
  ⟨by decide, by decide, by decide, by decide,
    (four_byte_sequences 0x1F600 1 (by decide) (by decide) (by decide)).1⟩

/-- C21, as stated, fails: on the four-byte sequence `F0 9F 98 80` both `UTF8Toisolat1` and
`utf8ToCp1252` return status 0 and store a byte. -/
theorem four_byte_sequences_counterexample :
    UTF8Toisolat1 1 (some [0xF0, 0x9F, 0x98, 0x80]) = ⟨0, 4, [0xBF]⟩ ∧
    utf8ToCp1252 1 (some [0xF0, 0x9F, 0x98, 0x80]) = ⟨0, 4, [0xBF]⟩ := by
  decide

/-- C22, as amended. The failure point of `UTF8ToISO8859_15` after sequences that it accepts
(a prefix `pre` which, run alone, gives status 0 and is consumed whole): an invalid leading
byte, of `0x80..0xBF` or of `0xF0` and more, at the index `pre.length` gives status -2 with
`pre.length` bytes consumed; a byte that is no continuation byte right after a leading byte of
`0xC0..0xEF` gives status -2 with `pre.length` bytes consumed as well, which is the index of
that leading byte, one less than the index of the malformed byte. -/
theorem UTF8ToISO8859_15_failure_point (pre : List Byte) (outlen : Nat)
    (hpre : (UTF8ToISO8859_15 outlen (some pre)).status = 0 ∧
      (UTF8ToISO8859_15 outlen (some pre)).inlen = pre.length) :
    (∀ (d : Byte) (tail : List Byte), (0x80 ≤ d.val ∧ d.val ≤ 0xBF) ∨ 0xF0 ≤ d.val →
      UTF8ToISO8859_15 outlen (some (pre ++ d :: tail))
        = ⟨-2, pre.length, (UTF8ToISO8859_15 outlen (some pre)).out⟩) ∧
    (∀ (lead bad : Byte) (tail : List Byte), 0xC0 ≤ lead.val ∧ lead.val ≤ 0xEF →
      bad.val &&& 0xC0 ≠ 0x80 →
      UTF8ToISO8859_15 outlen (some (pre ++ lead :: bad :: tail))
        = ⟨-2, pre.length, (UTF8ToISO8859_15 outlen (some pre)).out⟩) := by
  refine ⟨?_, ?_⟩
  · intro d tail hd
    rw [UTF8ToISO8859_15_after outlen pre (d :: tail) hpre]
    have h1 : ¬ d.val < 0x80 := by omega
    simp only [List.length_cons, UTF8ToISO8859x.loop, h1, if_false]
    by_cases h2 : d.val < 0xC0
    · simp [h2]
    · have h3 : ¬ d.val < 0xE0 := by omega
      have h4 : ¬ d.val < 0xF0 := by omega
      simp [h2, h3, h4]
  · intro lead bad tail hlead hbad
    rw [UTF8ToISO8859_15_after outlen pre (lead :: bad :: tail) hpre]
    have h1 : ¬ lead.val < 0x80 := by omega
    have h2 : ¬ lead.val < 0xC0 := by omega
    simp only [List.length_cons, UTF8ToISO8859x.loop, h1, h2, if_false]
    by_cases h3 : lead.val < 0xE0
    · simp [h3, hbad]
    · have h4 : lead.val < 0xF0 := by omega
      simp only [h3, if_false, h4, if_true]
      cases tail with
      | nil => simp
      | cons c2 tail => simp [hbad]

theorem UTF8ToISO8859_15_failure_point_witness :
    ((UTF8ToISO8859_15 1 (some [0x41, 0xC3, 0xA9])).status = 0 ∧
      (UTF8ToISO8859_15 1 (some [0x41, 0xC3, 0xA9])).inlen
        = ([0x41, 0xC3, 0xA9] : List Byte).length) ∧
    UTF8ToISO8859_15 1 (some ([0x41, 0xC3, 0xA9] ++ 0xE2 :: 0x41 :: [0x42]))
      = ⟨-2, 3, (UTF8ToISO8859_15 1 (some [0x41, 0xC3, 0xA9])).out⟩ :=
  ⟨by decide,
    (UTF8ToISO8859_15_failure_point [0x41, 0xC3, 0xA9] 1 (by decide)).2 0xE2 0x41 [0x42]
      (by decide) (by decide)⟩

/-- C22, as stated, fails: in the input `C3 41` the byte at index 1 is no continuation byte, and
`UTF8ToISO8859_15` reports 0 bytes consumed, not 1. -/
theorem UTF8ToISO8859_15_failure_point_counterexample :
    UTF8ToISO8859_15 1 (some [0xC3, 0x41]) = ⟨-2, 0, []⟩ ∧
    (0x41 : Byte).val &&& 0xC0 ≠ 0x80 ∧
    ¬ (UTF8ToISO8859_15 1 (some [0xC3, 0x41])).inlen = 1 := by
  decide

/-- C23, as amended. The null-input call of the converters from UTF-8: for each of
`UTF8Toisolat1`, `UTF8ToISO8859_15` and `utf8ToCp1252` a call whose input pointer is null
returns status 0 and leaves 0 in both counts, whatever the capacity passed in. -/
theorem null_input_reset (outlen : Nat) :
    UTF8Toisolat1 outlen none = ⟨0, 0, []⟩ ∧
    (UTF8Toisolat1 outlen none).outlen = 0 ∧
    UTF8ToISO8859_15 outlen none = ⟨0, 0, []⟩ ∧
    (UTF8ToISO8859_15 outlen none).outlen = 0 ∧
    utf8ToCp1252 outlen none = ⟨0, 0, []⟩ ∧
    (utf8ToCp1252 outlen none).outlen = 0 :=
  ⟨rfl, rfl, rfl, rfl, rfl, rfl⟩

/-- C23, as stated, fails: `ISO8859xToUTF8` and `isolat1ToUTF8` have no test of `in == NULL`.
With a null input `ISO8859_15ToUTF8` reads `*in` in its first initialiser, and `isolat1ToUTF8`
reads `*in` as soon as the declared length and the capacity are positive: neither call returns
a result. -/
theorem null_input_reset_counterexample :
    ISO8859xToUTF8.entry xmlunicodetable_ISO8859_15 4 none = none ∧
    isolat1ToUTF8.nullInput 4 4 = none ∧
    isolat1ToUTF8.nullInput 1 4 = none := by
  decide

/-- C24. Unmapped code points are a hard failure of the generic converter: for every code point
`c` of `0x80..0xFFFF` that is no entry of `xmlunicodetable_ISO8859_15`, `UTF8ToISO8859_15` on
sequences that it accepts (a prefix `pre` which, run alone, gives status 0 and is consumed
whole) followed by the shortest form of `c`, whatever comes after it, returns status -2,
reports `pre.length` bytes consumed and has stored the bytes of the accepted sequences and no
byte for `c`; U+00A4, U+00A6, U+00BC, U+0100 and U+2018 are such code points. -/
theorem UTF8ToISO8859_15_unmapped (pre tail : List Byte) (c outlen : Nat)
    (hlo : 0x80 ≤ c) (hhi : c ≤ 0xFFFF) (hc : c ∉ xmlunicodetable_ISO8859_15)
    (hpre : (UTF8ToISO8859_15 outlen (some pre)).status = 0 ∧
      (UTF8ToISO8859_15 outlen (some pre)).inlen = pre.length) :
    UTF8ToISO8859_15 outlen (some (pre ++ (utf8Encode c ++ tail)))
      = ⟨-2, pre.length, (UTF8ToISO8859_15 outlen (some pre)).out⟩ ∧
    (∀ c' ∈ [0xA4, 0xA6, 0xBC, 0x100, 0x2018], c' ∉ xmlunicodetable_ISO8859_15) := by
  refine ⟨?_, by decide⟩
  rw [UTF8ToISO8859_15_after outlen pre (utf8Encode c ++ tail) hpre]
  obtain ⟨f, hf⟩ : ∃ f, (utf8Encode c ++ tail).length = f + 1 :=
    ⟨(utf8Encode c ++ tail).length - 1, by
      have := utf8Encode_length_pos c
      simp only [List.length_append]
      omega⟩
  rw [hf]
  exact UTF8ToISO8859x_loop_unmapped c hlo hhi hc f tail _ _

set_option maxRecDepth 100000 in
theorem UTF8ToISO8859_15_unmapped_witness :
    0x80 ≤ 0x2018 ∧ 0x2018 ≤ 0xFFFF ∧ 0x2018 ∉ xmlunicodetable_ISO8859_15 ∧
    ((UTF8ToISO8859_15 1 (some [0x41, 0xC3, 0xA9])).status = 0 ∧
      (UTF8ToISO8859_15 1 (some [0x41, 0xC3, 0xA9])).inlen
        = ([0x41, 0xC3, 0xA9] : List Byte).length) ∧
    utf8Encode 0x2018 = [0xE2, 0x80, 0x98] ∧
    UTF8ToISO8859_15 1 (some ([0x41, 0xC3, 0xA9] ++ (utf8Encode 0x2018 ++ [0x42])))
      = ⟨-2, 3, (UTF8ToISO8859_15 1 (some [0x41, 0xC3, 0xA9])).out⟩ :=
  ⟨by decide, by decide, by decide, by decide, by decide,
    (UTF8ToISO8859_15_unmapped [0x41, 0xC3, 0xA9] [0x42] 0x2018 1 (by decide) (by decide)
      (by decide) (by decide)).1⟩

/-- C27. Meaning of the flag `transcodingNeeded`: for each of the four sizing probes and every
input on which the probe returns status 0, the flag is 0 if and only if every input byte is
below `0x80`, and when the flag is 0 the matching converter, called with any capacity of at
least the output length of the probe, returns status 0, consumes the input whole and stores
the input byte for byte. -/
theorem transcoding_needed_flag (s : List Byte) :
    ((getUtf8ToISOLatin1_RequiredLength (some s)).status = 0 →
      ((getUtf8ToISOLatin1_RequiredLength (some s)).transcodingNeeded = 0
        ↔ ∀ b ∈ s, b.val < 0x80) ∧
      ((getUtf8ToISOLatin1_RequiredLength (some s)).transcodingNeeded = 0 →
        ∀ outlen, (getUtf8ToISOLatin1_RequiredLength (some s)).outlen ≤ outlen →
          UTF8Toisolat1 outlen (some s) = ⟨0, s.length, s⟩)) ∧
    ((getUTF8ToISO8859_15RequiredLength (some s)).status = 0 →
      ((getUTF8ToISO8859_15RequiredLength (some s)).transcodingNeeded = 0
        ↔ ∀ b ∈ s, b.val < 0x80) ∧
      ((getUTF8ToISO8859_15RequiredLength (some s)).transcodingNeeded = 0 →
        ∀ outlen, (getUTF8ToISO8859_15RequiredLength (some s)).outlen ≤ outlen →
          UTF8ToISO8859_15 outlen (some s) = ⟨0, s.length, s⟩)) ∧
    ((getISOLatin1ToUtf8_RequiredLength (some s)).status = 0 →
      ((getISOLatin1ToUtf8_RequiredLength (some s)).transcodingNeeded = 0
        ↔ ∀ b ∈ s, b.val < 0x80) ∧
      ((getISOLatin1ToUtf8_RequiredLength (some s)).transcodingNeeded = 0 →
        ∀ outlen, (getISOLatin1ToUtf8_RequiredLength (some s)).outlen ≤ outlen →
          isolat1ToUTF8 outlen s = ⟨0, s.length, s⟩)) ∧
    ((getISO8859_15ToUTF8RequiredLength s).status = 0 →
      ((getISO8859_15ToUTF8RequiredLength s).transcodingNeeded = 0
        ↔ ∀ b ∈ s, b.val < 0x80) ∧
      ((getISO8859_15ToUTF8RequiredLength s).transcodingNeeded = 0 →
        ∀ outlen, (getISO8859_15ToUTF8RequiredLength s).outlen ≤ outlen →
          ISO8859_15ToUTF8 outlen s = ⟨0, s.length, s⟩)) := by
  refine ⟨?_, ?_, ?_, ?_⟩
  · intro hs
    have hf : (getUtf8ToISOLatin1_RequiredLength (some s)).transcodingNeeded = _ :=
      getUtf8ToISOLatin1_RequiredLength_loop_flag s.length s 0 0 0 0 (le_refl _) hs
    have hiff := hf ▸ flag_zero_iff s
    refine ⟨hiff, fun h0 outlen hK => ?_⟩
    have ha := hiff.mp h0
    have hp : getUtf8ToISOLatin1_RequiredLength (some s) = _ :=
      getUtf8ToISOLatin1_RequiredLength_loop_ascii s s.length 0 0 0 ha (le_refl _)
    rw [hp] at hK
    simp only [Nat.zero_add] at hK
    have := UTF8Toisolat1_loop_ascii outlen s s.length 0 [] ha (le_refl _) (by simpa using hK)
    simpa [UTF8Toisolat1] using this
  · intro hs
    have hf : (getUTF8ToISO8859_15RequiredLength (some s)).transcodingNeeded = _ :=
      getUTF8ToISO8859_15RequiredLength_loop_flag s.length s 0 0 0 (le_refl _) hs
    have hiff := hf ▸ flag_zero_iff s
    refine ⟨hiff, fun h0 outlen _ => ?_⟩
    have ha := hiff.mp h0
    have := UTF8ToISO8859x_loop_ascii xmltranscodetable_ISO8859_15 s s.length 0 [] ha
      (le_refl _)
    simpa [UTF8ToISO8859_15, UTF8ToISO8859x] using this
  · intro _
    have hp : getISOLatin1ToUtf8_RequiredLength (some s) = _ :=
      getISOLatin1ToUtf8_RequiredLength_loop_eq s.length s 0 0 0 (le_refl _)
    rw [hp]
    simp only [Nat.zero_add]
    refine ⟨flag_zero_iff s, fun h0 outlen hK => ?_⟩
    have ha := (flag_zero_iff s).mp h0
    have e1 := flatMap_storedFor_ascii latin1Table s ha
    rw [e1] at hK
    rw [flatMap_storedFor_latin1Table] at e1
    rw [isolat1ToUTF8_enough outlen s (by rw [e1]; exact hK), e1]
  · intro _
    have hp : getISO8859_15ToUTF8RequiredLength s = _ :=
      getISO8859_15ToUTF8RequiredLength_loop_eq s.length s 0 0 0 (le_refl _)
    rw [hp]
    simp only [Nat.zero_add]
    refine ⟨flag_zero_iff s, fun h0 outlen hK => ?_⟩
    have ha := (flag_zero_iff s).mp h0
    have e9 := flatMap_storedFor_ascii xmlunicodetable_ISO8859_15 s ha
    rw [e9] at hK
    rw [flatMap_storedFor_latin9] at e9
    rw [ISO8859_15ToUTF8_enough outlen s (by rw [e9]; exact hK), e9]

/-- C28. Output exhaustion is flow control in `UTF8Toisolat1`: for every well-formed input, the
shortest forms of the code points `cps`, and every capacity `outlen`, the call returns status
0, stores `min outlen cps.length` bytes, which are the first bytes of what it stores when the
capacity covers the whole input, and reports as consumed the length of the sequences of the
code points served; no code point and no lack of space makes it fail. -/
theorem UTF8Toisolat1_output_exhaustion (cps : List Nat) (outlen : Nat)
    (hcps : ∀ c ∈ cps, c ≤ 0x10FFFF) :
    (UTF8Toisolat1 outlen (some (cps.flatMap utf8Encode))).status = 0 ∧
    (UTF8Toisolat1 outlen (some (cps.flatMap utf8Encode))).outlen = min outlen cps.length ∧
    (UTF8Toisolat1 outlen (some (cps.flatMap utf8Encode))).out
      = (cps.take outlen).map latin1Byte ∧
    (UTF8Toisolat1 outlen (some (cps.flatMap utf8Encode))).inlen
      = ((cps.take outlen).flatMap utf8Encode).length ∧
    (∀ K, cps.length ≤ K →
      (UTF8Toisolat1 outlen (some (cps.flatMap utf8Encode))).out
        = (UTF8Toisolat1 K (some (cps.flatMap utf8Encode))).out.take outlen) := by
  have key : ∀ k, UTF8Toisolat1 k (some (cps.flatMap utf8Encode))
      = ⟨0, ((cps.take k).flatMap utf8Encode).length, (cps.take k).map latin1Byte⟩ := by
    intro k
    have := UTF8Toisolat1_loop_encoded_bounded k cps (cps.flatMap utf8Encode).length 0 [] hcps
      (length_le_flatMap_utf8Encode cps)
    simpa [UTF8Toisolat1] using this
  rw [key outlen]
  refine ⟨rfl, by simp [Result.outlen], rfl, rfl, ?_⟩
  intro K hK
  rw [key K, List.take_of_length_le hK]
  simp only [← List.map_take]

theorem UTF8Toisolat1_output_exhaustion_witness :
    (∀ c ∈ [0x41, 0x20AC, 0xE9, 0x1F600], c ≤ 0x10FFFF) ∧
    [0x41, 0x20AC, 0xE9, 0x1F600].flatMap utf8Encode
      = [0x41, 0xE2, 0x82, 0xAC, 0xC3, 0xA9, 0xF0, 0x9F, 0x98, 0x80] ∧
    (UTF8Toisolat1 2 (some ([0x41, 0x20AC, 0xE9, 0x1F600].flatMap utf8Encode))).out
      = ([0x41, 0x20AC, 0xE9, 0x1F600].take 2).map latin1Byte ∧
    UTF8Toisolat1 2 (some ([0x41, 0x20AC, 0xE9, 0x1F600].flatMap utf8Encode))
      = ⟨0, 4, [0x41, 0xBF]⟩ :=
  ⟨by decide, by decide,
    (UTF8Toisolat1_output_exhaustion [0x41, 0x20AC, 0xE9, 0x1F600] 2 (by decide)).2.2.1,
    by decide⟩

/-- C29. `utf8ToCp1252` is `UTF8Toisolat1` with another substitution only: for every input byte
string and every capacity the two calls return the same status, the same consumed count and
the same produced count, and the bytes stored agree position by position, except that where
`UTF8Toisolat1` stored the replacement byte `0xBF` the byte of `utf8ToCp1252` is `0xBF` or a
byte of `0x80..0x9F`. -/
theorem utf8ToCp1252_refines_UTF8Toisolat1 (s : List Byte) (outlen : Nat) :
    (UTF8Toisolat1 outlen (some s)).status = (utf8ToCp1252 outlen (some s)).status ∧
    (UTF8Toisolat1 outlen (some s)).inlen = (utf8ToCp1252 outlen (some s)).inlen ∧
    (UTF8Toisolat1 outlen (some s)).outlen = (utf8ToCp1252 outlen (some s)).outlen ∧
    List.Forall₂ cp1252Refines (UTF8Toisolat1 outlen (some s)).out
      (utf8ToCp1252 outlen (some s)).out := by
  obtain ⟨h1, h2, h3⟩ := cp1252_loop_refines outlen s.length s 0 0 [] [] List.Forall₂.nil
  exact ⟨h1, h2, h3.length_eq, h3⟩

/-- C30. The counts that `UTF8ToISO8859_15` reports on a failure are to describe a clean prefix
of complete sequences. The code does not when the second continuation byte of a three-byte
sequence is malformed: on `E2 82 41` it reports 1 byte consumed, and the first byte alone is
no complete sequence (run alone it is rejected with nothing consumed). The probe reports the
same count. -/
theorem UTF8ToISO8859_15_unclean_prefix :
    UTF8ToISO8859_15 1 (some [0xE2, 0x82, 0x41]) = ⟨-2, 1, []⟩ ∧
    UTF8ToISO8859_15 1 (some ([0xE2, 0x82, 0x41].take 1)) = ⟨-2, 0, []⟩ ∧
    (getUTF8ToISO8859_15RequiredLength (some [0xE2, 0x82, 0x41])).inlen = 1 := by
  decide

/-- C31. The reads of the transcoding table are in bounds: for every input byte string, every
index at which `UTF8ToISO8859_15` and `getUTF8ToISO8859_15RequiredLength` read
`xmltranscodetable_ISO8859_15` (`d`, `32 + d`, `48 + c + sel * 64` and the chained index of a
three-byte sequence) is below the length 432 of the table; every selector of the first level,
the entries 0 to 47, is in `0..5`, and every value of the second level that a three-byte
sequence reaches is in `0..5` again. -/
theorem table_indexing_in_bounds (s : List Byte) :
    xmltranscodetable_ISO8859_15.length = 432 ∧
    (∀ j ∈ UTF8ToISO8859x.indices xmltranscodetable_ISO8859_15 s.length s,
      j < xmltranscodetable_ISO8859_15.length) ∧
    (∀ j ∈ getUTF8ToISO8859_15RequiredLength.indices s.length s,
      j < xmltranscodetable_ISO8859_15.length) ∧
    (∀ j, j < 48 → xmltranscodetable_ISO8859_15.getD j 0 ≤ 5) ∧
    (∀ x y, x < 16 → y < 64 →
      xmltranscodetable_ISO8859_15.getD
        (48 + y + xmltranscodetable_ISO8859_15.getD (32 + x) 0 * 64) 0 ≤ 5) := by
  rw [xmltranscodetable_ISO8859_15_length]
  refine ⟨rfl, UTF8ToISO8859x_indices_bound s.length s, ?_,
    fun j hj => xmltranscodetable_selector ⟨j, hj⟩,
    fun x y hx hy => xmltranscodetable_second_selector ⟨x, hx⟩ ⟨y, hy⟩⟩
  rw [getUTF8ToISO8859_15RequiredLength_indices_eq]
  exact UTF8ToISO8859x_indices_bound s.length s

/-- C33. The generic converter accepts only the canonical encodings of its repertoire: for
every input `u` on which `UTF8ToISO8859_15` returns status 0, `ISO8859_15ToUTF8` run on what
was stored, with a capacity of at least the length of `u`, returns status 0 and stores exactly
`u`. Hence two accepted inputs with the same output are equal, and the overlong two-byte form
of a code point below `0x80` and the overlong three-byte form of a code point below `0x800`
are rejected with status -2. -/
theorem UTF8ToISO8859_15_canonical_only (u : List Byte) (outlen outlen' : Nat)
    (h : (UTF8ToISO8859_15 outlen (some u)).status = 0) (hcap : u.length ≤ outlen') :
    ISO8859_15ToUTF8 outlen' (UTF8ToISO8859_15 outlen (some u)).out
      = ⟨0, (UTF8ToISO8859_15 outlen (some u)).out.length, u⟩ ∧
    (∀ v : List Byte, (UTF8ToISO8859_15 outlen (some v)).status = 0 →
      (UTF8ToISO8859_15 outlen (some v)).out = (UTF8ToISO8859_15 outlen (some u)).out →
      v = u) ∧
    (∀ x, x < 0x80 →
      UTF8ToISO8859_15 outlen
          (some [toByte (0xC0 ||| (x >>> 6)), toByte (0x80 ||| (x &&& 0x3F))])
        = ⟨-2, 0, []⟩) ∧
    (∀ c, c < 0x800 →
      UTF8ToISO8859_15 outlen
          (some [toByte (0xE0 ||| (c >>> 12)), toByte (0x80 ||| ((c >>> 6) &&& 0x3F)),
            toByte (0x80 ||| (c &&& 0x3F))])
        = ⟨-2, 0, []⟩) := by
  have hu := UTF8ToISO8859_15_canonical u outlen h
  refine ⟨?_, ?_, fun x hx => UTF8ToISO8859x_overlong_two x hx 1 0 [] [],
    fun c hc => UTF8ToISO8859x_overlong_three c hc 2 0 [] []⟩
  · have := ISO8859_15ToUTF8_enough outlen' (UTF8ToISO8859_15 outlen (some u)).out
      (by rw [hu]; exact hcap)
    rw [this, hu]
  · intro v hv hout
    have := UTF8ToISO8859_15_canonical v outlen hv
    rw [hout, hu] at this
    exact this.symm

set_option maxRecDepth 100000 in
theorem UTF8ToISO8859_15_canonical_only_witness :
    (UTF8ToISO8859_15 1 (some [0x41, 0xE2, 0x82, 0xAC, 0xC3, 0xA9])).status = 0 ∧
    ([0x41, 0xE2, 0x82, 0xAC, 0xC3, 0xA9] : List Byte).length ≤ 6 ∧
    (UTF8ToISO8859_15 1 (some [0x41, 0xE2, 0x82, 0xAC, 0xC3, 0xA9])).out = [0x41, 0xA4, 0xE9] ∧
    ISO8859_15ToUTF8 6 (UTF8ToISO8859_15 1 (some [0x41, 0xE2, 0x82, 0xAC, 0xC3, 0xA9])).out
      = ⟨0, (UTF8ToISO8859_15 1 (some [0x41, 0xE2, 0x82, 0xAC, 0xC3, 0xA9])).out.length,
          [0x41, 0xE2, 0x82, 0xAC, 0xC3, 0xA9]⟩ :=
  ⟨by decide, by decide, by decide,
    (UTF8ToISO8859_15_canonical_only [0x41, 0xE2, 0x82, 0xAC, 0xC3, 0xA9] 1 6 (by decide)
      (by decide)).1⟩

/-- C34. `UTF8Toisolat1` does not reject overlong forms: for every `x < 0x80` the two-byte input
`0xC0 | (x >> 6)`, `0x80 | (x & 0x3F)` is accepted with status 0, its 2 bytes are consumed and
the single byte `x` is stored, whatever capacity of 1 or more is passed. `isolat1ToUTF8` run on
that output, with any capacity, does not give the two input bytes back. -/
theorem UTF8Toisolat1_accepts_overlong (x outlen : Nat) (hx : x < 0x80) (hcap : 1 ≤ outlen) :
    UTF8Toisolat1 outlen (some [toByte (0xC0 ||| (x >>> 6)), toByte (0x80 ||| (x &&& 0x3F))])
      = ⟨0, 2, [toByte x]⟩ ∧
    ∀ K, (isolat1ToUTF8 K (UTF8Toisolat1 outlen
        (some [toByte (0xC0 ||| (x >>> 6)), toByte (0x80 ||| (x &&& 0x3F))])).out).out
      ≠ [toByte (0xC0 ||| (x >>> 6)), toByte (0x80 ||| (x &&& 0x3F))] := by
  have h := UTF8Toisolat1_overlong x outlen hx hcap
  refine ⟨h, fun K => ?_⟩
  rw [h]
  obtain ⟨m, hm, heq, -, -⟩ := isolat1ToUTF8_spec K [toByte x]
  rw [heq]
  intro hne
  have hlen := congrArg List.length hne
  have hxv : (toByte x).val < 0x80 := by simp only [toByte]; omega
  simp only [List.length_singleton] at hm
  have hm' : m = 0 ∨ m = 1 := by omega
  rcases hm' with rfl | rfl <;>
    simp [latin1EncodeAll, latin1Encode, hxv] at hlen

theorem UTF8Toisolat1_accepts_overlong_witness :
    0x41 < 0x80 ∧ 1 ≤ 1 ∧
    ([toByte (0xC0 ||| (0x41 >>> 6)), toByte (0x80 ||| (0x41 &&& 0x3F))] : List Byte)
      = [0xC1, 0x81] ∧
    UTF8Toisolat1 1 (some [toByte (0xC0 ||| (0x41 >>> 6)), toByte (0x80 ||| (0x41 &&& 0x3F))])
      = ⟨0, 2, [toByte 0x41]⟩ ∧
    UTF8Toisolat1 1 (some [0xC0, 0x80]) = ⟨0, 2, [0x00]⟩ :=
  ⟨by decide, by decide, by decide,
    (UTF8Toisolat1_accepts_overlong 0x41 1 (by decide) (by decide)).1, by decide⟩

/-- C35. Round trip from the legacy side: for every byte string `l`, all 256 byte values
allowed, `ISO8859_15ToUTF8` with a capacity of at least the output length of its probe returns
status 0 and `UTF8ToISO8859_15` on what it stored returns status 0, consumes it whole and
stores exactly `l`; likewise `isolat1ToUTF8` followed by `UTF8Toisolat1`, the latter with a
capacity of at least the length of `l`. -/
theorem legacy_roundtrip (l : List Byte) (outlen9 outlen1 outlen' : Nat)
    (h9 : (getISO8859_15ToUTF8RequiredLength l).outlen ≤ outlen9)
    (h1 : (getISOLatin1ToUtf8_RequiredLength (some l)).outlen ≤ outlen1)
    (h' : l.length ≤ outlen') :
    (ISO8859_15ToUTF8 outlen9 l).status = 0 ∧
    (ISO8859_15ToUTF8 outlen9 l).inlen = l.length ∧
    UTF8ToISO8859_15 outlen' (some (ISO8859_15ToUTF8 outlen9 l).out)
      = ⟨0, (ISO8859_15ToUTF8 outlen9 l).out.length, l⟩ ∧
    (isolat1ToUTF8 outlen1 l).status = 0 ∧
    (isolat1ToUTF8 outlen1 l).inlen = l.length ∧
    UTF8Toisolat1 outlen' (some (isolat1ToUTF8 outlen1 l).out)
      = ⟨0, (isolat1ToUTF8 outlen1 l).out.length, l⟩ := by
  have hp9 : getISO8859_15ToUTF8RequiredLength l = _ :=
    getISO8859_15ToUTF8RequiredLength_loop_eq l.length l 0 0 0 (le_refl _)
  have hp1 : getISOLatin1ToUtf8_RequiredLength (some l) = _ :=
    getISOLatin1ToUtf8_RequiredLength_loop_eq l.length l 0 0 0 (le_refl _)
  rw [hp9] at h9
  rw [hp1] at h1
  simp only [Nat.zero_add, flatMap_storedFor_latin9] at h9
  simp only [Nat.zero_add, flatMap_storedFor_latin1Table] at h1
  rw [ISO8859_15ToUTF8_enough outlen9 l h9, isolat1ToUTF8_enough outlen1 l h1]
  refine ⟨rfl, rfl, ?_, rfl, rfl, ?_⟩
  · have := UTF8ToISO8859x_loop_latin9 l (l.flatMap latin9Encode).length 0 [] (le_refl _)
    simpa [UTF8ToISO8859_15, UTF8ToISO8859x] using this
  · simp only
    rw [latin1EncodeAll_eq_utf8Encode]
    have := UTF8Toisolat1_loop_encoded outlen' (l.map (fun b => b.val))
      ((l.map (fun b => b.val)).flatMap utf8Encode).length 0 [] (by
        intro c hc
        simp only [List.mem_map] at hc
        obtain ⟨b, -, rfl⟩ := hc
        have := b.isLt
        omega) (length_le_flatMap_utf8Encode _) (by simpa using h')
    rw [map_latin1Byte_val] at this
    simpa [UTF8Toisolat1] using this

set_option maxRecDepth 100000 in
theorem legacy_roundtrip_witness :
    (getISO8859_15ToUTF8RequiredLength [0x41, 0xA4, 0x00, 0xFF]).outlen ≤ 7 ∧
    (getISOLatin1ToUtf8_RequiredLength (some [0x41, 0xA4, 0x00, 0xFF])).outlen ≤ 6 ∧
    ([0x41, 0xA4, 0x00, 0xFF] : List Byte).length ≤ 4 ∧
    (ISO8859_15ToUTF8 7 [0x41, 0xA4, 0x00, 0xFF]).out
      = [0x41, 0xE2, 0x82, 0xAC, 0x00, 0xC3, 0xBF] ∧
    UTF8ToISO8859_15 4 (some (ISO8859_15ToUTF8 7 [0x41, 0xA4, 0x00, 0xFF]).out)
      = ⟨0, (ISO8859_15ToUTF8 7 [0x41, 0xA4, 0x00, 0xFF]).out.length,
          [0x41, 0xA4, 0x00, 0xFF]⟩ :=
  ⟨by decide, by decide, by decide, by decide,
    (legacy_roundtrip [0x41, 0xA4, 0x00, 0xFF] 7 6 4 (by decide) (by decide)
      (by decide)).2.2.1⟩

end Encoding
